import Mathlib

/-!
Verification of the two doubly linked list structures of the repository:
the pool-backed list `ll_list_pool` and the intrusive list `intrusive_list`.

The C++ code manipulates raw node pointers.  We embed it shallowly with an
explicit address type `Ptr` (null pointer, address of the sentinel, address
of the i-th slot of the slab / the i-th externally owned hook) and states
that carry the pointer fields of every node.  Every C++ statement that
writes a pointer field becomes one state update, performed in the same
order as in the source, with every read taken from the state at the moment
the corresponding C++ expression is evaluated.
-/

namespace LL

/-- Address of a node: the null pointer, the sentinel owned by the list
object, or the i-th slot of the slab (pool variant) / the i-th externally
owned hook (intrusive variant). -/
inductive Ptr where
  | null : Ptr
  | sent : Ptr
  | slot : Nat → Ptr
deriving DecidableEq, Repr

/-- Memory of one node of `ll_list_pool<T>`: the `prev` and `next` link
fields and the value slot.  The value slot holds `none` while no `T` has
been constructed in it (slot on the free chain). -/
structure PNode (V : Type) where
  prev : Ptr
  next : Ptr
  value : Option V
deriving DecidableEq, Repr

/-- State of one `ll_list_pool<T>` object: the two link fields of the
sentinel node, the slab (`slab_`, a contiguous block of `cap_` nodes, so
the capacity is `slab.length`), the head of the singly linked free chain
(`free_`, threaded through `next`), and the live element count (`size_`). -/
structure ll_list_pool (V : Type) where
  sprev : Ptr
  snext : Ptr
  slab : List (PNode V)
  free : Ptr
  size : Nat
deriving DecidableEq, Repr

namespace ll_list_pool

variable {V : Type}

/-- Dereference a pointer: read the node it points at.  The sentinel is a
node whose value slot is never used; reading through a null or out-of-range
pointer yields a dummy node (the C++ code never does it on the contract). -/
def getP (s : ll_list_pool V) : Ptr → PNode V
  | .sent => ⟨s.sprev, s.snext, none⟩
  | .null => ⟨.null, .null, none⟩
  | .slot i => s.slab.getD i ⟨.null, .null, none⟩

/-- Read `p->next`. -/
def nxt (s : ll_list_pool V) (p : Ptr) : Ptr := (getP s p).next

/-- Read `p->prev`. -/
def prv (s : ll_list_pool V) (p : Ptr) : Ptr := (getP s p).prev

/-- Read `p->value`. -/
def val (s : ll_list_pool V) (p : Ptr) : Option V := (getP s p).value

/-- Execute `p->prev = q`.  A write through a null or out-of-range pointer
is modelled as a no-op; on the contract it never happens. -/
def setPrev (s : ll_list_pool V) (p q : Ptr) : ll_list_pool V :=
  match p with
  | .sent => { s with sprev := q }
  | .null => s
  | .slot i => { s with slab := s.slab.set i { s.slab.getD i ⟨.null, .null, none⟩ with prev := q } }

/-- Execute `p->next = q`. -/
def setNext (s : ll_list_pool V) (p q : Ptr) : ll_list_pool V :=
  match p with
  | .sent => { s with snext := q }
  | .null => s
  | .slot i => { s with slab := s.slab.set i { s.slab.getD i ⟨.null, .null, none⟩ with next := q } }

/-- Construct (`some v`) or destroy (`none`) the value in the slot `p`. -/
def setVal (s : ll_list_pool V) (p : Ptr) (v : Option V) : ll_list_pool V :=
  match p with
  | .sent => s
  | .null => s
  | .slot i => { s with slab := s.slab.set i { s.slab.getD i ⟨.null, .null, none⟩ with value := v } }

/-- `link_between(x, a, b)`: `x->prev = a; x->next = b; a->next = x; b->prev = x`. -/
def link_between (s : ll_list_pool V) (x a b : Ptr) : ll_list_pool V :=
  setPrev (setNext (setNext (setPrev s x a) x b) a x) b x

/-- `unlink(x)`: `x->prev->next = x->next; x->next->prev = x->prev`. -/
def unlink (s : ll_list_pool V) (x : Ptr) : ll_list_pool V :=
  let s1 := setNext s (prv s x) (nxt s x)
  setPrev s1 (nxt s1 x) (prv s1 x)

/-- Failure raised by an allocation against an exhausted pool (the C++
code throws; the spec names the condition PoolExhausted). -/
inductive PoolError where
  | PoolExhausted : PoolError
deriving DecidableEq, Repr

/-- `alloc_node()`: pop the head of the free chain, or fail with
PoolExhausted when the free chain is empty.  No value is constructed. -/
def alloc_node (s : ll_list_pool V) : Except PoolError (Ptr × ll_list_pool V) :=
  if s.free = .null then .error .PoolExhausted
  else .ok (s.free, { s with free := nxt s s.free })

/-- `free_node(n)`: `n->next = free_; free_ = n`.  The caller has already
destroyed the value. -/
def free_node (s : ll_list_pool V) (n : Ptr) : ll_list_pool V :=
  let s1 := setNext s n s.free
  { s1 with free := n }

/-- The constructor `ll_list_pool(capacity)`: allocate the slab, thread
every slot onto the free chain (`slab_[i].next = free_; free_ = &slab_[i]`
for i = 0 .. capacity-1, so the chain runs from slot capacity-1 down to
slot 0), and self-link the sentinel. -/
def construct (V : Type) (capacity : Nat) : ll_list_pool V :=
  { sprev := .sent
    snext := .sent
    slab := (List.range capacity).map fun i =>
      ⟨.null, if i = 0 then .null else .slot (i - 1), none⟩
    free := if capacity = 0 then .null else .slot (capacity - 1)
    size := 0 }

/-- `emplace_back(v)`: allocate a node, construct the value in it, link it
between `sentinel_.prev` and the sentinel, bump the size, and return an
iterator to it. -/
def emplace_back (s : ll_list_pool V) (v : V) : Except PoolError (Ptr × ll_list_pool V) :=
  match alloc_node s with
  | .error e => .error e
  | .ok (n, s1) =>
    let s2 := setVal s1 n (some v)
    let s3 := link_between s2 n (prv s2 .sent) .sent
    .ok (n, { s3 with size := s3.size + 1 })

/-- `emplace_front(v)`: allocate a node, construct the value, link it
between the sentinel and `sentinel_.next`, bump the size. -/
def emplace_front (s : ll_list_pool V) (v : V) : Except PoolError (Ptr × ll_list_pool V) :=
  match alloc_node s with
  | .error e => .error e
  | .ok (n, s1) =>
    let s2 := setVal s1 n (some v)
    let s3 := link_between s2 n .sent (nxt s2 .sent)
    .ok (n, { s3 with size := s3.size + 1 })

/-- `erase(it)`: remember the successor, unlink the node, destroy its
value, return the slot to the free chain, decrement the size, and return
the successor. -/
def erase (s : ll_list_pool V) (it : Ptr) : Ptr × ll_list_pool V :=
  let nx := nxt s it
  let s1 := unlink s it
  let s2 := setVal s1 it none
  let s3 := free_node s2 it
  (nx, { s3 with size := s3.size - 1 })

/-- `splice(pos, what)`: no-op when the node already is `pos`, otherwise
unlink it and relink it between `pos->prev` and `pos`. -/
def splice (s : ll_list_pool V) (pos what : Ptr) : ll_list_pool V :=
  if what = pos then s
  else
    let s1 := unlink s what
    link_between s1 what (prv s1 pos) pos

/-- Range `splice(pos, first, last)`: relocate `[first, last)` before
`pos`, one C++ statement per state update, in source order. -/
def spliceRange (s : ll_list_pool V) (pos first last : Ptr) : ll_list_pool V :=
  if first = last then s
  else
    let tail := prv s last
    let s1 := setNext s (prv s first) last
    let s2 := setPrev s1 last (prv s1 first)
    let before := prv s2 pos
    let s3 := setNext s2 before first
    let s4 := setPrev s3 first before
    let s5 := setNext s4 tail pos
    setPrev s5 pos tail

/-- Loop body of `clear()`: walk forward from `cur` until the sentinel,
destroying each value and returning each node to the free chain.  The
fuel argument only bounds the recursion; on every state satisfying the
representation invariant the loop stops at the sentinel before the fuel
(taken to be `size_ + 1`) runs out. -/
def clearLoop (s : ll_list_pool V) : Ptr → Nat → ll_list_pool V
  | _, 0 => s
  | cur, fuel + 1 =>
    if cur = .sent then s
    else
      let nx := nxt s cur
      let s1 := setVal s cur none
      let s2 := free_node s1 cur
      clearLoop s2 nx fuel

/-- `clear()`: destroy every contained value, return every node to the
free chain, self-link the sentinel, and zero the size. -/
def clear (s : ll_list_pool V) : ll_list_pool V :=
  let s1 := clearLoop s (nxt s .sent) (s.size + 1)
  let s2 := setNext (setPrev s1 .sent .sent) .sent .sent
  { s2 with size := 0 }

end ll_list_pool

/-- Memory of one host object owning an `intrusive_hook`: the two link
fields of the embedded hook (value-initialised to `nullptr`) and the rest
of the host object, abstracted as a payload that no list operation ever
touches. -/
structure HookObj (P : Type) where
  prev : Ptr
  next : Ptr
  payload : P
deriving DecidableEq, Repr

/-- State of one `intrusive_list` together with the externally owned host
objects its hooks may live in: the two link fields of the sentinel hook
and the heap of host objects, the i-th addressed by `Ptr.slot i`. -/
structure intrusive_list (P : Type) where
  sprev : Ptr
  snext : Ptr
  heap : List (HookObj P)
deriving DecidableEq, Repr

namespace intrusive_list

variable {P : Type}

/-- Read `h->prev`. -/
def prv (s : intrusive_list P) : Ptr → Ptr
  | .sent => s.sprev
  | .null => .null
  | .slot i => match s.heap[i]? with
    | some h => h.prev
    | none => .null

/-- Read `h->next`. -/
def nxt (s : intrusive_list P) : Ptr → Ptr
  | .sent => s.snext
  | .null => .null
  | .slot i => match s.heap[i]? with
    | some h => h.next
    | none => .null

/-- Read the payload (all host-object memory outside the hook). -/
def payload (s : intrusive_list P) (i : Nat) : Option P :=
  (s.heap[i]?).map HookObj.payload

/-- Execute `h->prev = q`. -/
def setPrev (s : intrusive_list P) (p q : Ptr) : intrusive_list P :=
  match p with
  | .sent => { s with sprev := q }
  | .null => s
  | .slot i => match s.heap[i]? with
    | some h => { s with heap := s.heap.set i { h with prev := q } }
    | none => s

/-- Execute `h->next = q`. -/
def setNext (s : intrusive_list P) (p q : Ptr) : intrusive_list P :=
  match p with
  | .sent => { s with snext := q }
  | .null => s
  | .slot i => match s.heap[i]? with
    | some h => { s with heap := s.heap.set i { h with next := q } }
    | none => s

/-- `intrusive_hook::is_linked()`: `(prev != nullptr) && (next != nullptr)`. -/
def is_linked (s : intrusive_list P) (h : Ptr) : Bool :=
  (prv s h != .null) && (nxt s h != .null)

/-- `link_between(x, a, b)`: `x->prev = a; x->next = b; a->next = x; b->prev = x`. -/
def link_between (s : intrusive_list P) (x a b : Ptr) : intrusive_list P :=
  setPrev (setNext (setNext (setPrev s x a) x b) a x) b x

/-- `unlink(x)`: return early when the hook is not linked, otherwise
rewire the two neighbours and clear both link fields of the hook. -/
def unlink (s : intrusive_list P) (x : Ptr) : intrusive_list P :=
  if is_linked s x = false then s
  else
    let s1 := setNext s (prv s x) (nxt s x)
    let s2 := setPrev s1 (nxt s1 x) (prv s1 x)
    setNext (setPrev s2 x .null) x .null

/-- The `intrusive_list` constructor: self-link the sentinel.  The host
objects (with their value-initialised, unlinked hooks) are supplied by the
caller; the list never creates or destroys them. -/
def construct (hosts : List P) : intrusive_list P :=
  { sprev := .sent
    snext := .sent
    heap := hosts.map fun p => ⟨.null, .null, p⟩ }

/-- `push_front(h)`: link the hook right after the sentinel. -/
def push_front (s : intrusive_list P) (h : Ptr) : intrusive_list P :=
  link_between s h .sent s.snext

/-- `push_back(h)`: link the hook right before the sentinel. -/
def push_back (s : intrusive_list P) (h : Ptr) : intrusive_list P :=
  link_between s h s.sprev .sent

/-- `remove(h)`: just `unlink(h)`. -/
def remove (s : intrusive_list P) (h : Ptr) : intrusive_list P :=
  unlink s h

/-- `splice(pos, h)`: no-op when `h == pos`, otherwise unlink the hook
from wherever it resides and relink it between `pos->prev` and `pos`. -/
def splice (s : intrusive_list P) (pos h : Ptr) : intrusive_list P :=
  if h = pos then s
  else
    let s1 := unlink s h
    link_between s1 h (prv s1 pos) pos

/-- Range `splice(pos, first, last)`: relocate `[first, last)` before
`pos`, one C++ statement per state update, in source order. -/
def spliceRange (s : intrusive_list P) (pos first last : Ptr) : intrusive_list P :=
  if first = last then s
  else
    let tail := prv s last
    let s1 := setNext s (prv s first) last
    let s2 := setPrev s1 last (prv s1 first)
    let before := prv s2 pos
    let s3 := setNext s2 before first
    let s4 := setPrev s3 first before
    let s5 := setNext s4 tail pos
    setPrev s5 pos tail

/-- `clear()`: `while (!empty()) remove(front());`.  The fuel only bounds
the recursion; on every state satisfying the representation invariant the
list empties before `heap.length + 1` removals. -/
def clearLoop (s : intrusive_list P) : Nat → intrusive_list P
  | 0 => s
  | fuel + 1 =>
    if s.snext = .sent then s
    else clearLoop (remove s s.snext) fuel

/-- `clear()` entry point. -/
def clear (s : intrusive_list P) : intrusive_list P :=
  clearLoop s (s.heap.length + 1)

end intrusive_list

/-!
Chain theory, shared by the two variants.  A list state is abstracted by
its read functions `n` (next) and `p` (prev); `segB n p a l` says that the
nodes `l` follow one another right after `a` with consistent forward and
backward links, and `cycleB n p L` says the whole circular structure of a
sentinel-based list with elements `L` (in order) is in place.
-/

/-- Last element of a pointer list, or the default for the empty list. -/
def lastD (l : List Ptr) (d : Ptr) : Ptr :=
  match l with
  | [] => d
  | x :: l => lastD l x

/-- First element of a pointer list, or the default for the empty list. -/
def firstD (l : List Ptr) (d : Ptr) : Ptr :=
  match l with
  | [] => d
  | x :: _ => x

@[simp] theorem lastD_nil (d : Ptr) : lastD [] d = d := rfl

@[simp] theorem lastD_cons (x d : Ptr) (l : List Ptr) : lastD (x :: l) d = lastD l x := rfl

@[simp] theorem firstD_nil (d : Ptr) : firstD [] d = d := rfl

@[simp] theorem firstD_cons (x d : Ptr) (l : List Ptr) : firstD (x :: l) d = x := rfl

theorem lastD_append (l1 l2 : List Ptr) (d : Ptr) :
    lastD (l1 ++ l2) d = lastD l2 (lastD l1 d) := by
  induction l1 generalizing d with
  | nil => simp
  | cons x l1 ih => simp [ih]

@[simp] theorem lastD_concat (l : List Ptr) (x d : Ptr) : lastD (l ++ [x]) d = x := by
  simp [lastD_append]

theorem firstD_append (l1 l2 : List Ptr) (d : Ptr) :
    firstD (l1 ++ l2) d = firstD l1 (firstD l2 d) := by
  cases l1 <;> simp

theorem lastD_mem (l : List Ptr) (d : Ptr) : lastD l d = d ∨ lastD l d ∈ l := by
  induction l generalizing d with
  | nil => simp
  | cons x l ih =>
    rcases ih x with h | h
    · right; simp [h]
    · right; simp [h]

theorem firstD_mem (l : List Ptr) (d : Ptr) : firstD l d = d ∨ firstD l d ∈ l := by
  cases l with
  | nil => simp
  | cons x l => right; simp

/-- Segment predicate: the nodes of `l` hang one after another after `a`,
every forward link matched by the backward link. -/
def segB (n p : Ptr → Ptr) : Ptr → List Ptr → Bool
  | _, [] => true
  | a, x :: l => n a == x && p x == a && segB n p x l

/-- Cycle predicate: the elements `L` in order form the circular list
around the sentinel. -/
def cycleB (n p : Ptr → Ptr) (L : List Ptr) : Bool :=
  segB n p .sent L && (n (lastD L .sent) == .sent) && (p .sent == lastD L .sent)

theorem segB_nil (n p : Ptr → Ptr) (a : Ptr) : segB n p a [] = true := rfl

theorem segB_cons {n p : Ptr → Ptr} {a x : Ptr} {l : List Ptr} :
    segB n p a (x :: l) = true ↔ n a = x ∧ p x = a ∧ segB n p x l = true := by
  simp [segB, Bool.and_assoc]

theorem segB_append {n p : Ptr → Ptr} {a : Ptr} {l1 l2 : List Ptr} :
    segB n p a (l1 ++ l2) = true ↔
      segB n p a l1 = true ∧ segB n p (lastD l1 a) l2 = true := by
  induction l1 generalizing a with
  | nil => simp [segB_nil]
  | cons x l1 ih =>
    simp only [List.cons_append, segB_cons, lastD_cons, ih, and_assoc]

theorem cycleB_iff {n p : Ptr → Ptr} {L : List Ptr} :
    cycleB n p L = true ↔
      segB n p .sent L = true ∧ n (lastD L .sent) = .sent ∧
        p .sent = lastD L .sent := by
  simp [cycleB, Bool.and_assoc]

/-- The reads a segment performs: `n` at `a` and at every node of `l` but
the last, `p` at every node of `l`.  Two read functions agreeing there
give the same segment predicate. -/
theorem segB_congr {n p n2 p2 : Ptr → Ptr} {l : List Ptr} :
    ∀ {a : Ptr}, (∀ r ∈ (a :: l).dropLast, n2 r = n r) → (∀ r ∈ l, p2 r = p r) →
      segB n2 p2 a l = segB n p a l := by
  induction l with
  | nil => intro a _ _; rfl
  | cons x l ih =>
    intro a hn hp
    have hna : n2 a = n a := hn a (by simp [List.dropLast_cons_of_ne_nil])
    have hpx : p2 x = p x := hp x (by simp)
    have hrest : segB n2 p2 x l = segB n p x l := by
      refine ih (fun r hr => hn r ?_) (fun r hr => hp r (by simp [hr]))
      rcases l with _ | ⟨y, l⟩
      · simp at hr
      · simp only [List.dropLast_cons_of_ne_nil, List.cons_ne_nil, ne_eq,
          not_false_eq_true, List.mem_cons] at hr ⊢
        tauto
    simp [segB, hna, hpx, hrest]

/-- Boundary reads of a split cycle: the backward link into the head of
`L2` and the forward link out of the tail of `L1` meet at the seam. -/
theorem cycle_seam {n p : Ptr → Ptr} {L1 L2 : List Ptr}
    (h : cycleB n p (L1 ++ L2) = true) :
    n (lastD L1 .sent) = firstD L2 .sent ∧ p (firstD L2 .sent) = lastD L1 .sent := by
  rcases cycleB_iff.mp h with ⟨hseg, hclose, hback⟩
  rcases segB_append.mp hseg with ⟨_, h2⟩
  cases L2 with
  | nil =>
    refine ⟨?_, ?_⟩
    · simpa [lastD_append] using hclose
    · simpa [lastD_append] using hback
  | cons c t =>
    rcases segB_cons.mp h2 with ⟨hn, hp, _⟩
    exact ⟨by simpa using hn, by simpa using hp⟩

/-- Reads at a member of a cycle: its backward link goes to the node
before it, its forward link to the node after it (the sentinel at the
ends). -/
theorem cycle_mem_reads {n p : Ptr → Ptr} {L1 L2 : List Ptr} {x : Ptr}
    (h : cycleB n p (L1 ++ x :: L2) = true) :
    p x = lastD L1 .sent ∧ n x = firstD L2 .sent := by
  rcases cycleB_iff.mp h with ⟨hseg, _, _⟩
  rcases segB_append.mp hseg with ⟨_, h2⟩
  rcases segB_cons.mp h2 with ⟨_, hp, _⟩
  have h2' : cycleB n p ((L1 ++ [x]) ++ L2) = true := by
    simpa [List.append_assoc] using h
  have hseam := (cycle_seam h2').1
  constructor
  · simpa using hp
  · simpa using hseam

theorem cycle_nxt_sent {n p : Ptr → Ptr} {L : List Ptr} (h : cycleB n p L = true) :
    n .sent = firstD L .sent := by
  have h2 : cycleB n p ([] ++ L) = true := by simpa using h
  simpa using (cycle_seam h2).1

theorem cycle_prv_sent {n p : Ptr → Ptr} {L : List Ptr} (h : cycleB n p L = true) :
    p .sent = lastD L .sent :=
  (cycleB_iff.mp h).2.2

theorem segB_of_congr {n p n2 p2 : Ptr → Ptr} {a : Ptr} {l : List Ptr}
    (h : segB n p a l = true)
    (hn : ∀ r ∈ (a :: l).dropLast, n2 r = n r) (hp : ∀ r ∈ l, p2 r = p r) :
    segB n2 p2 a l = true := by
  rw [segB_congr hn hp]; exact h

/-- In a duplicate-free list with its head prefixed, no node of the
`dropLast` part is the last node. -/
theorem dropLast_ne_lastD {l : List Ptr} {d : Ptr} (hnd : (d :: l).Nodup) :
    ∀ r ∈ (d :: l).dropLast, r ≠ lastD l d := by
  induction l using List.reverseRecOn with
  | nil => simp
  | append_singleton M m _ =>
    intro r hr
    rw [← List.cons_append] at hnd hr
    rw [List.dropLast_concat] at hr
    rw [lastD_concat]
    have hm : m ∉ d :: M := by
      intro hc
      exact (List.nodup_append.mp hnd).2.2 hc (by simp)
    exact ne_of_mem_of_not_mem hr hm

theorem lastD_mem_cons (l : List Ptr) (d : Ptr) : lastD l d ∈ d :: l := by
  rcases lastD_mem l d with h | h
  · rw [h]; exact List.mem_cons_self d l
  · exact List.mem_cons_of_mem d h

theorem firstD_mem_cons (l : List Ptr) (d : Ptr) : firstD l d ∈ d :: l := by
  rcases firstD_mem l d with h | h
  · rw [h]; exact List.mem_cons_self d l
  · exact List.mem_cons_of_mem d h

/-- Inserting a fresh node `x` before the seam of `L1 ++ L2`: the new
read functions `n2`, `p2` equal the old ones except that `x`'s own links
aim at the seam's two sides, the node before the seam now points forward
to `x`, and the node after the seam now points back to `x`. -/
theorem cycle_insert {n p n2 p2 : Ptr → Ptr} {L1 L2 : List Ptr} {x : Ptr}
    (hcy : cycleB n p (L1 ++ L2) = true)
    (hnd : (Ptr.sent :: (L1 ++ L2)).Nodup)
    (hx : x ∉ L1 ++ L2) (hxs : x ≠ .sent)
    (hnx : n2 x = firstD L2 .sent)
    (hpx : p2 x = lastD L1 .sent)
    (hn : ∀ r, r ≠ x → n2 r = if r = lastD L1 .sent then x else n r)
    (hp : ∀ r, r ≠ x → p2 r = if r = firstD L2 .sent then x else p r) :
    cycleB n2 p2 (L1 ++ x :: L2) = true := by
  have hxL1 : x ∉ L1 := fun h => hx (List.mem_append.mpr (Or.inl h))
  have hxL2 : x ∉ L2 := fun h => hx (List.mem_append.mpr (Or.inr h))
  have hsL : Ptr.sent ∉ L1 ++ L2 := (List.nodup_cons.mp hnd).1
  have hsL1 : Ptr.sent ∉ L1 := fun h => hsL (List.mem_append.mpr (Or.inl h))
  have hsL2 : Ptr.sent ∉ L2 := fun h => hsL (List.mem_append.mpr (Or.inr h))
  have hndL : (L1 ++ L2).Nodup := (List.nodup_cons.mp hnd).2
  have hdisj : L1.Disjoint L2 := (List.nodup_append.mp hndL).2.2
  have hndL1 : L1.Nodup := (List.nodup_append.mp hndL).1
  have hndL2 : L2.Nodup := (List.nodup_append.mp hndL).2.1
  have hxc1 : x ∉ Ptr.sent :: L1 := by
    intro h
    rcases List.mem_cons.mp h with h | h
    · exact hxs h
    · exact hxL1 h
  have hxc2 : x ∉ Ptr.sent :: L2 := by
    intro h
    rcases List.mem_cons.mp h with h | h
    · exact hxs h
    · exact hxL2 h
  have hc2L1 : ∀ y ∈ Ptr.sent :: L2, y ∉ L1 := by
    intro y hy
    rcases List.mem_cons.mp hy with h | h
    · rw [h]; exact hsL1
    · exact fun hc => hdisj hc h
  have hc1L2 : ∀ y ∈ Ptr.sent :: L1, y ∉ L2 := by
    intro y hy
    rcases List.mem_cons.mp hy with h | h
    · rw [h]; exact hsL2
    · exact fun hc => hdisj h hc
  have hA1 : lastD L1 .sent ∈ Ptr.sent :: L1 := lastD_mem_cons L1 .sent
  have hpos2 : firstD L2 .sent ∈ Ptr.sent :: L2 := firstD_mem_cons L2 .sent
  have hAx : lastD L1 .sent ≠ x := ne_of_mem_of_not_mem hA1 hxc1
  have hposL1 : firstD L2 .sent ∉ L1 := hc2L1 _ hpos2
  have hAL2 : lastD L1 .sent ∉ L2 := hc1L2 _ hA1
  have hl3 : lastD (L1 ++ x :: L2) .sent = lastD L2 x := by
    rw [lastD_append]; simp
  rcases cycleB_iff.mp hcy with ⟨hseg, hclose, hback⟩
  rcases segB_append.mp hseg with ⟨hseg1, hseg2⟩
  refine cycleB_iff.mpr ⟨?_, ?_, ?_⟩
  · refine segB_append.mpr ⟨?_, ?_⟩
    · refine segB_of_congr hseg1 ?_ ?_
      · intro r hr
        have hrA : r ≠ lastD L1 .sent :=
          dropLast_ne_lastD (List.nodup_cons.mpr ⟨hsL1, hndL1⟩) r hr
        have hrmem : r ∈ Ptr.sent :: L1 := (List.dropLast_sublist (Ptr.sent :: L1)).mem hr
        have hrx : r ≠ x := ne_of_mem_of_not_mem hrmem hxc1
        rw [hn r hrx, if_neg hrA]
      · intro r hr
        have hrx : r ≠ x := ne_of_mem_of_not_mem hr hxL1
        have hrpos : r ≠ firstD L2 .sent := ne_of_mem_of_not_mem hr hposL1
        rw [hp r hrx, if_neg hrpos]
    · refine segB_cons.mpr ⟨?_, ?_, ?_⟩
      · rw [hn _ hAx, if_pos rfl]
      · exact hpx
      · cases L2 with
        | nil => exact segB_nil _ _ _
        | cons c t =>
          rcases segB_cons.mp hseg2 with ⟨_, _, hsegt⟩
          refine segB_cons.mpr ⟨?_, ?_, ?_⟩
          · simpa using hnx
          · have hcx : c ≠ x := ne_of_mem_of_not_mem (List.mem_cons_self c t) hxL2
            rw [hp c hcx]; simp
          · refine segB_of_congr hsegt ?_ ?_
            · intro r hr
              have hrL2 : r ∈ c :: t := (List.dropLast_sublist (c :: t)).mem hr
              have hrx : r ≠ x := ne_of_mem_of_not_mem hrL2 hxL2
              have hrA : r ≠ lastD L1 .sent := ne_of_mem_of_not_mem hrL2 hAL2
              rw [hn r hrx, if_neg hrA]
            · intro r hr
              have hrx : r ≠ x := ne_of_mem_of_not_mem (List.mem_cons_of_mem c hr) hxL2
              have hrc : r ≠ c := ne_of_mem_of_not_mem hr (List.nodup_cons.mp hndL2).1
              rw [hp r hrx, if_neg (by simpa using hrc)]
  · rw [hl3]
    cases L2 with
    | nil => simpa using hnx
    | cons c t =>
      have hz2 : lastD t c ∈ c :: t := lastD_mem_cons t c
      have hzx : lastD t c ≠ x := ne_of_mem_of_not_mem hz2 hxL2
      have hzA : lastD t c ≠ lastD L1 .sent := ne_of_mem_of_not_mem hz2 hAL2
      have hl4 : lastD (L1 ++ c :: t) .sent = lastD t c := by
        rw [lastD_append]; simp
      rw [lastD_cons, hn _ hzx, if_neg hzA, ← hl4]
      exact hclose
  · rw [hl3]
    have hsx : Ptr.sent ≠ x := fun hc => hxs hc.symm
    cases L2 with
    | nil =>
      rw [hp _ hsx]; simp
    | cons c t =>
      have hcs : c ≠ Ptr.sent := ne_of_mem_of_not_mem (List.mem_cons_self c t) hsL2
      have hl4 : lastD (L1 ++ c :: t) .sent = lastD t c := by
        rw [lastD_append]; simp
      rw [hp _ hsx, if_neg (by simpa using hcs.symm), lastD_cons, ← hl4]
      exact hback

/-- Unlinking the node `x` of a cycle `L1 ++ x :: L2`: the new read
functions equal the old ones (on everything but `x` itself) except that
the node before `x` now points forward across it and the node after `x`
now points backward across it. -/
theorem cycle_remove {n p n2 p2 : Ptr → Ptr} {L1 L2 : List Ptr} {x : Ptr}
    (hcy : cycleB n p (L1 ++ x :: L2) = true)
    (hnd : (Ptr.sent :: (L1 ++ x :: L2)).Nodup)
    (hn : ∀ r, r ≠ x → n2 r = if r = lastD L1 .sent then firstD L2 .sent else n r)
    (hp : ∀ r, r ≠ x → p2 r = if r = firstD L2 .sent then lastD L1 .sent else p r) :
    cycleB n2 p2 (L1 ++ L2) = true := by
  have hndL : (L1 ++ x :: L2).Nodup := (List.nodup_cons.mp hnd).2
  have hxL1 : x ∉ L1 := by
    intro h
    exact (List.nodup_append.mp hndL).2.2 h (List.mem_cons_self x L2)
  have hxL2 : x ∉ L2 := (List.nodup_cons.mp (List.nodup_append.mp hndL).2.1).1
  have hsL : Ptr.sent ∉ L1 ++ x :: L2 := (List.nodup_cons.mp hnd).1
  have hsL1 : Ptr.sent ∉ L1 := fun h => hsL (List.mem_append.mpr (Or.inl h))
  have hsL2 : Ptr.sent ∉ L2 := fun h =>
    hsL (List.mem_append.mpr (Or.inr (List.mem_cons_of_mem x h)))
  have hxs : x ≠ Ptr.sent := fun h =>
    hsL (h ▸ List.mem_append.mpr (Or.inr (List.mem_cons_self x L2)))
  have hndL1 : L1.Nodup := (List.nodup_append.mp hndL).1
  have hndL2 : L2.Nodup := (List.nodup_cons.mp (List.nodup_append.mp hndL).2.1).2
  have hdisj : L1.Disjoint L2 := fun a ha hb =>
    (List.nodup_append.mp hndL).2.2 ha (List.mem_cons_of_mem x hb)
  have hxc1 : x ∉ Ptr.sent :: L1 := by
    intro h
    rcases List.mem_cons.mp h with h | h
    · exact hxs h
    · exact hxL1 h
  have hc2L1 : ∀ y ∈ Ptr.sent :: L2, y ∉ L1 := by
    intro y hy
    rcases List.mem_cons.mp hy with h | h
    · rw [h]; exact hsL1
    · exact fun hc => hdisj hc h
  have hc1L2 : ∀ y ∈ Ptr.sent :: L1, y ∉ L2 := by
    intro y hy
    rcases List.mem_cons.mp hy with h | h
    · rw [h]; exact hsL2
    · exact fun hc => hdisj h hc
  have hA1 : lastD L1 .sent ∈ Ptr.sent :: L1 := lastD_mem_cons L1 .sent
  have hpos2 : firstD L2 .sent ∈ Ptr.sent :: L2 := firstD_mem_cons L2 .sent
  have hAx : lastD L1 .sent ≠ x := ne_of_mem_of_not_mem hA1 hxc1
  have hposL1 : firstD L2 .sent ∉ L1 := hc2L1 _ hpos2
  have hAL2 : lastD L1 .sent ∉ L2 := hc1L2 _ hA1
  have hlx : lastD (L1 ++ x :: L2) .sent = lastD L2 x := by
    rw [lastD_append]; simp
  rcases cycleB_iff.mp hcy with ⟨hseg, hclose, hback⟩
  rcases segB_append.mp hseg with ⟨hseg1, hseg2⟩
  rcases segB_cons.mp hseg2 with ⟨_, _, hsegx⟩
  refine cycleB_iff.mpr ⟨?_, ?_, ?_⟩
  · refine segB_append.mpr ⟨?_, ?_⟩
    · refine segB_of_congr hseg1 ?_ ?_
      · intro r hr
        have hrA : r ≠ lastD L1 .sent :=
          dropLast_ne_lastD (List.nodup_cons.mpr ⟨hsL1, hndL1⟩) r hr
        have hrmem : r ∈ Ptr.sent :: L1 := (List.dropLast_sublist (Ptr.sent :: L1)).mem hr
        have hrx : r ≠ x := ne_of_mem_of_not_mem hrmem hxc1
        rw [hn r hrx, if_neg hrA]
      · intro r hr
        have hrx : r ≠ x := ne_of_mem_of_not_mem hr hxL1
        have hrpos : r ≠ firstD L2 .sent := ne_of_mem_of_not_mem hr hposL1
        rw [hp r hrx, if_neg hrpos]
    · cases L2 with
      | nil => exact segB_nil _ _ _
      | cons c t =>
        rcases segB_cons.mp hsegx with ⟨_, _, hsegt⟩
        refine segB_cons.mpr ⟨?_, ?_, ?_⟩
        · rw [hn _ hAx, if_pos rfl]; simp
        · have hcx : c ≠ x := ne_of_mem_of_not_mem (List.mem_cons_self c t) hxL2
          rw [hp c hcx, if_pos (by simp)]
        · refine segB_of_congr hsegt ?_ ?_
          · intro r hr
            have hrL2 : r ∈ c :: t := (List.dropLast_sublist (c :: t)).mem hr
            have hrx : r ≠ x := ne_of_mem_of_not_mem hrL2 hxL2
            have hrA : r ≠ lastD L1 .sent := ne_of_mem_of_not_mem hrL2 hAL2
            rw [hn r hrx, if_neg hrA]
          · intro r hr
            have hrx : r ≠ x := ne_of_mem_of_not_mem (List.mem_cons_of_mem c hr) hxL2
            have hrc : r ≠ c := ne_of_mem_of_not_mem hr (List.nodup_cons.mp hndL2).1
            rw [hp r hrx, if_neg (by simpa using hrc)]
  · rw [lastD_append]
    cases L2 with
    | nil =>
      rw [lastD_nil, hn _ hAx, if_pos rfl]; simp
    | cons c t =>
      have hz2 : lastD t c ∈ c :: t := lastD_mem_cons t c
      have hzx : lastD t c ≠ x := ne_of_mem_of_not_mem hz2 hxL2
      have hzA : lastD t c ≠ lastD L1 .sent := ne_of_mem_of_not_mem hz2 hAL2
      rw [lastD_cons, hn _ hzx, if_neg hzA]
      rw [hlx] at hclose
      simpa using hclose
  · rw [lastD_append]
    have hsx : Ptr.sent ≠ x := fun hc => hxs hc.symm
    cases L2 with
    | nil =>
      rw [lastD_nil, hp _ hsx, if_pos (by simp)]
    | cons c t =>
      have hcs : c ≠ Ptr.sent := ne_of_mem_of_not_mem (List.mem_cons_self c t) hsL2
      rw [hp _ hsx, if_neg (by simpa using hcs.symm), lastD_cons]
      rw [hlx] at hback
      simpa using hback

theorem lastD_mem_of_ne_nil {l : List Ptr} (h : l ≠ []) (d : Ptr) : lastD l d ∈ l := by
  cases l with
  | nil => exact absurd rfl h
  | cons x t => exact lastD_mem_cons t x

/-- Detaching a whole nonempty segment `R` out of the cycle
`L1 ++ R ++ L2`: outside `R` the reads change only at the seam (the node
before `R` points past it, the node after `R` points back past it). -/
theorem cycle_remove_seg {n p n2 p2 : Ptr → Ptr} {L1 R L2 : List Ptr}
    (hcy : cycleB n p (L1 ++ R ++ L2) = true)
    (hnd : (Ptr.sent :: (L1 ++ R ++ L2)).Nodup)
    (hn : ∀ r, r ∉ R → n2 r = if r = lastD L1 .sent then firstD L2 .sent else n r)
    (hp : ∀ r, r ∉ R → p2 r = if r = firstD L2 .sent then lastD L1 .sent else p r) :
    cycleB n2 p2 (L1 ++ L2) = true := by
  have hndL : (L1 ++ R ++ L2).Nodup := (List.nodup_cons.mp hnd).2
  have hsL : Ptr.sent ∉ L1 ++ R ++ L2 := (List.nodup_cons.mp hnd).1
  have hsL1 : Ptr.sent ∉ L1 := fun h =>
    hsL (List.mem_append.mpr (Or.inl (List.mem_append.mpr (Or.inl h))))
  have hsR : Ptr.sent ∉ R := fun h =>
    hsL (List.mem_append.mpr (Or.inl (List.mem_append.mpr (Or.inr h))))
  have hsL2 : Ptr.sent ∉ L2 := fun h => hsL (List.mem_append.mpr (Or.inr h))
  have hnd12 := List.nodup_append.mp hndL
  have hnd1R := List.nodup_append.mp hnd12.1
  have hndL1 : L1.Nodup := hnd1R.1
  have hndL2 : L2.Nodup := hnd12.2.1
  have hdisj1R : L1.Disjoint R := hnd1R.2.2
  have hdisj12 : L1.Disjoint L2 := fun a ha hb =>
    hnd12.2.2 (List.mem_append.mpr (Or.inl ha)) hb
  have hdisjR2 : R.Disjoint L2 := fun a ha hb =>
    hnd12.2.2 (List.mem_append.mpr (Or.inr ha)) hb
  have hA1 : lastD L1 .sent ∈ Ptr.sent :: L1 := lastD_mem_cons L1 .sent
  have hpos2 : firstD L2 .sent ∈ Ptr.sent :: L2 := firstD_mem_cons L2 .sent
  have hAR : lastD L1 .sent ∉ R := by
    rcases List.mem_cons.mp hA1 with h | h
    · rw [h]; exact hsR
    · exact fun hc => hdisj1R h hc
  have hposR : firstD L2 .sent ∉ R := by
    rcases List.mem_cons.mp hpos2 with h | h
    · rw [h]; exact hsR
    · exact fun hc => hdisjR2 hc h
  have hposL1 : firstD L2 .sent ∉ L1 := by
    rcases List.mem_cons.mp hpos2 with h | h
    · rw [h]; exact hsL1
    · exact fun hc => hdisj12 hc h
  have hAL2 : lastD L1 .sent ∉ L2 := by
    rcases List.mem_cons.mp hA1 with h | h
    · rw [h]; exact hsL2
    · exact fun hc => hdisj12 h hc
  rcases cycleB_iff.mp hcy with ⟨hseg, hclose, hback⟩
  rcases segB_append.mp hseg with ⟨hseg1R, hseg2⟩
  rcases segB_append.mp hseg1R with ⟨hseg1, _⟩
  have hlx : lastD (L1 ++ R ++ L2) .sent = lastD L2 (lastD R (lastD L1 .sent)) := by
    rw [lastD_append, lastD_append]
  refine cycleB_iff.mpr ⟨?_, ?_, ?_⟩
  · refine segB_append.mpr ⟨?_, ?_⟩
    · refine segB_of_congr hseg1 ?_ ?_
      · intro r hr
        have hrA : r ≠ lastD L1 .sent :=
          dropLast_ne_lastD (List.nodup_cons.mpr ⟨hsL1, hndL1⟩) r hr
        have hrmem : r ∈ Ptr.sent :: L1 := (List.dropLast_sublist (Ptr.sent :: L1)).mem hr
        have hrR : r ∉ R := by
          rcases List.mem_cons.mp hrmem with h | h
          · rw [h]; exact hsR
          · exact fun hc => hdisj1R h hc
        rw [hn r hrR, if_neg hrA]
      · intro r hr
        have hrR : r ∉ R := fun hc => hdisj1R hr hc
        have hrpos : r ≠ firstD L2 .sent := ne_of_mem_of_not_mem hr hposL1
        rw [hp r hrR, if_neg hrpos]
    · cases L2 with
      | nil => exact segB_nil _ _ _
      | cons c t =>
        have hseg2' : segB n p (lastD R (lastD L1 .sent)) (c :: t) = true := by
          rw [lastD_append] at hseg2
          exact hseg2
        rcases segB_cons.mp hseg2' with ⟨_, _, hsegt⟩
        refine segB_cons.mpr ⟨?_, ?_, ?_⟩
        · rw [hn _ hAR, if_pos rfl]; simp
        · have hcR : c ∉ R := fun hc => hdisjR2 hc (List.mem_cons_self c t)
          rw [hp c hcR, if_pos (by simp)]
        · refine segB_of_congr hsegt ?_ ?_
          · intro r hr
            have hrL2 : r ∈ c :: t := (List.dropLast_sublist (c :: t)).mem hr
            have hrR : r ∉ R := fun hc => hdisjR2 hc hrL2
            have hrA : r ≠ lastD L1 .sent := ne_of_mem_of_not_mem hrL2 hAL2
            rw [hn r hrR, if_neg hrA]
          · intro r hr
            have hrR : r ∉ R := fun hc => hdisjR2 hc (List.mem_cons_of_mem c hr)
            have hrc : r ≠ c := ne_of_mem_of_not_mem hr (List.nodup_cons.mp hndL2).1
            rw [hp r hrR, if_neg (by simpa using hrc)]
  · rw [lastD_append]
    cases L2 with
    | nil =>
      rw [lastD_nil, hn _ hAR, if_pos rfl]
      simp
    | cons c t =>
      have hz2 : lastD t c ∈ c :: t := lastD_mem_cons t c
      have hzR : lastD t c ∉ R := fun hc => hdisjR2 hc hz2
      have hzA : lastD t c ≠ lastD L1 .sent := ne_of_mem_of_not_mem hz2 hAL2
      rw [lastD_cons, hn _ hzR, if_neg hzA]
      rw [hlx, lastD_cons] at hclose
      exact hclose
  · rw [lastD_append]
    have hsR2 : Ptr.sent ∉ R := hsR
    cases L2 with
    | nil =>
      rw [lastD_nil, hp _ hsR2, if_pos (by simp)]
    | cons c t =>
      have hcs : c ≠ Ptr.sent := ne_of_mem_of_not_mem (List.mem_cons_self c t) hsL2
      rw [hp _ hsR2, if_neg (by simpa using hcs.symm), lastD_cons]
      rw [hlx, lastD_cons] at hback
      exact hback

/-- Reattaching an internally intact segment `F :: R'` before the seam of
`M1 ++ M2`: outside the segment only the node before the seam and the node
after the seam change, the segment head now points back at the seam's left
side, and the segment tail now points forward at the seam's right side. -/
theorem cycle_insert_seg {n p n2 p2 : Ptr → Ptr} {M1 M2 R' : List Ptr} {F : Ptr}
    (hcy : cycleB n p (M1 ++ M2) = true)
    (hnd : (Ptr.sent :: (M1 ++ (F :: R') ++ M2)).Nodup)
    (hseg : segB n p F R' = true)
    (hn : ∀ r, r ∉ F :: R' → n2 r = if r = lastD M1 .sent then F else n r)
    (hp : ∀ r, r ∉ F :: R' → p2 r = if r = firstD M2 .sent then lastD R' F else p r)
    (hnF : ∀ r ∈ F :: R', r ≠ lastD R' F → n2 r = n r)
    (hnTL : n2 (lastD R' F) = firstD M2 .sent)
    (hpF : ∀ r ∈ F :: R', r ≠ F → p2 r = p r)
    (hpFF : p2 F = lastD M1 .sent) :
    cycleB n2 p2 (M1 ++ (F :: R') ++ M2) = true := by
  have hndL : (M1 ++ (F :: R') ++ M2).Nodup := (List.nodup_cons.mp hnd).2
  have hsL : Ptr.sent ∉ M1 ++ (F :: R') ++ M2 := (List.nodup_cons.mp hnd).1
  have hsM1 : Ptr.sent ∉ M1 := fun h =>
    hsL (List.mem_append.mpr (Or.inl (List.mem_append.mpr (Or.inl h))))
  have hsR : Ptr.sent ∉ F :: R' := fun h =>
    hsL (List.mem_append.mpr (Or.inl (List.mem_append.mpr (Or.inr h))))
  have hsM2 : Ptr.sent ∉ M2 := fun h => hsL (List.mem_append.mpr (Or.inr h))
  have hnd12 := List.nodup_append.mp hndL
  have hnd1R := List.nodup_append.mp hnd12.1
  have hndM1 : M1.Nodup := hnd1R.1
  have hndR : (F :: R').Nodup := hnd1R.2.1
  have hndM2 : M2.Nodup := hnd12.2.1
  have hdisj1R : M1.Disjoint (F :: R') := hnd1R.2.2
  have hdisj12 : M1.Disjoint M2 := fun a ha hb =>
    hnd12.2.2 (List.mem_append.mpr (Or.inl ha)) hb
  have hdisjR2 : (F :: R').Disjoint M2 := fun a ha hb =>
    hnd12.2.2 (List.mem_append.mpr (Or.inr ha)) hb
  have hB1 : lastD M1 .sent ∈ Ptr.sent :: M1 := lastD_mem_cons M1 .sent
  have hpos2 : firstD M2 .sent ∈ Ptr.sent :: M2 := firstD_mem_cons M2 .sent
  have hTLR : lastD R' F ∈ F :: R' := lastD_mem_cons R' F
  have hBR : lastD M1 .sent ∉ F :: R' := by
    rcases List.mem_cons.mp hB1 with h | h
    · rw [h]; exact hsR
    · exact fun hc => hdisj1R h hc
  have hposR : firstD M2 .sent ∉ F :: R' := by
    rcases List.mem_cons.mp hpos2 with h | h
    · rw [h]; exact hsR
    · exact fun hc => hdisjR2 hc h
  have hposM1 : firstD M2 .sent ∉ M1 := by
    rcases List.mem_cons.mp hpos2 with h | h
    · rw [h]; exact hsM1
    · exact fun hc => hdisj12 hc h
  have hBM2 : lastD M1 .sent ∉ M2 := by
    rcases List.mem_cons.mp hB1 with h | h
    · rw [h]; exact hsM2
    · exact fun hc => hdisj12 h hc
  rcases cycleB_iff.mp hcy with ⟨hsegO, hclose, hback⟩
  rcases segB_append.mp hsegO with ⟨hseg1, hseg2⟩
  have hlxO : lastD (M1 ++ M2) .sent = lastD M2 (lastD M1 .sent) := lastD_append _ _ _
  have hlxN : lastD (M1 ++ (F :: R') ++ M2) .sent = lastD M2 (lastD R' F) := by
    rw [lastD_append, lastD_append, lastD_cons]
  refine cycleB_iff.mpr ⟨?_, ?_, ?_⟩
  · refine segB_append.mpr ⟨?_, ?_⟩
    · refine segB_append.mpr ⟨?_, ?_⟩
      · refine segB_of_congr hseg1 ?_ ?_
        · intro r hr
          have hrB : r ≠ lastD M1 .sent :=
            dropLast_ne_lastD (List.nodup_cons.mpr ⟨hsM1, hndM1⟩) r hr
          have hrmem : r ∈ Ptr.sent :: M1 := (List.dropLast_sublist (Ptr.sent :: M1)).mem hr
          have hrR : r ∉ F :: R' := by
            rcases List.mem_cons.mp hrmem with h | h
            · rw [h]; exact hsR
            · exact fun hc => hdisj1R h hc
          rw [hn r hrR, if_neg hrB]
        · intro r hr
          have hrR : r ∉ F :: R' := fun hc => hdisj1R hr hc
          have hrpos : r ≠ firstD M2 .sent := ne_of_mem_of_not_mem hr hposM1
          rw [hp r hrR, if_neg hrpos]
      · refine segB_cons.mpr ⟨?_, ?_, ?_⟩
        · rw [hn _ hBR, if_pos rfl]
        · exact hpFF
        · refine segB_of_congr hseg ?_ ?_
          · intro r hr
            have hrR : r ∈ F :: R' := (List.dropLast_sublist (F :: R')).mem hr
            have hrTL : r ≠ lastD R' F := dropLast_ne_lastD hndR r hr
            exact hnF r hrR hrTL
          · intro r hr
            have hrF : r ≠ F := ne_of_mem_of_not_mem hr (List.nodup_cons.mp hndR).1
            exact hpF r (List.mem_cons_of_mem F hr) hrF
    · rw [lastD_append, lastD_cons]
      cases M2 with
      | nil => exact segB_nil _ _ _
      | cons c t =>
        rcases segB_cons.mp hseg2 with ⟨_, _, hsegt⟩
        refine segB_cons.mpr ⟨?_, ?_, ?_⟩
        · rw [hnTL]; rfl
        · have hcR : c ∉ F :: R' := fun hc => hdisjR2 hc (List.mem_cons_self c t)
          rw [hp c hcR, if_pos (by simp)]
        · refine segB_of_congr hsegt ?_ ?_
          · intro r hr
            have hrM2 : r ∈ c :: t := (List.dropLast_sublist (c :: t)).mem hr
            have hrR : r ∉ F :: R' := fun hc => hdisjR2 hc hrM2
            have hrB : r ≠ lastD M1 .sent := ne_of_mem_of_not_mem hrM2 hBM2
            rw [hn r hrR, if_neg hrB]
          · intro r hr
            have hrR : r ∉ F :: R' := fun hc => hdisjR2 hc (List.mem_cons_of_mem c hr)
            have hrc : r ≠ c := ne_of_mem_of_not_mem hr (List.nodup_cons.mp hndM2).1
            rw [hp r hrR, if_neg (by simpa using hrc)]
  · rw [hlxN]
    cases M2 with
    | nil =>
      rw [lastD_nil, hnTL]
      rfl
    | cons c t =>
      have hz2 : lastD t c ∈ c :: t := lastD_mem_cons t c
      have hzR : lastD t c ∉ F :: R' := fun hc => hdisjR2 hc hz2
      have hzB : lastD t c ≠ lastD M1 .sent := ne_of_mem_of_not_mem hz2 hBM2
      rw [lastD_cons, hn _ hzR, if_neg hzB]
      rw [hlxO, lastD_cons] at hclose
      exact hclose
  · rw [hlxN]
    cases M2 with
    | nil =>
      rw [lastD_nil, hp _ hsR, if_pos (by simp)]
    | cons c t =>
      have hcs : c ≠ Ptr.sent := ne_of_mem_of_not_mem (List.mem_cons_self c t) hsM2
      rw [hp _ hsR, if_neg (by simpa using hcs.symm), lastD_cons]
      rw [hlxO, lastD_cons] at hback
      exact hback

/-- A consistent segment read backwards: swap the roles of the two read
functions and walk the reversed list from the far endpoint. -/
theorem segB_reverse {n p : Ptr → Ptr} :
    ∀ (l : List Ptr) (a b : Ptr), segB n p a l = true →
      n (lastD l a) = b → p b = lastD l a → segB p n b (l.reverse ++ [a]) = true := by
  intro l
  induction l with
  | nil =>
    intro a b hseg hn hp
    refine segB_cons.mpr ⟨?_, ?_, segB_nil _ _ _⟩
    · simpa using hp
    · simpa using hn
  | cons x l ih =>
    intro a b hseg hn hp
    rcases segB_cons.mp hseg with ⟨hna, hpx, hrest⟩
    have hih := ih x b (by simpa using hrest) (by simpa using hn) (by simpa using hp)
    have : segB p n b ((l.reverse ++ [x]) ++ [a]) = true := by
      refine segB_append.mpr ⟨hih, ?_⟩
      rw [lastD_concat]
      exact segB_cons.mpr ⟨hpx, hna, segB_nil _ _ _⟩
    simpa [List.append_assoc] using this

/-- A whole cycle read backwards. -/
theorem cycle_reverse {n p : Ptr → Ptr} {L : List Ptr}
    (h : cycleB n p L = true) : cycleB p n L.reverse = true := by
  rcases cycleB_iff.mp h with ⟨hseg, hclose, hback⟩
  have hrev := segB_reverse L .sent .sent hseg hclose hback
  rcases segB_append.mp hrev with ⟨hseg2, hlast⟩
  rcases segB_cons.mp hlast with ⟨hn1, hp1, _⟩
  exact cycleB_iff.mpr ⟨hseg2, hn1, hp1⟩

/-- Pointer iteration: `iterF n q k` follows the read function `n` for
`k` steps starting at `q`. -/
def iterF (n : Ptr → Ptr) : Ptr → Nat → Ptr
  | q, 0 => q
  | q, k + 1 => iterF n (n q) k

@[simp] theorem iterF_zero (n : Ptr → Ptr) (q : Ptr) : iterF n q 0 = q := rfl

theorem iterF_succ (n : Ptr → Ptr) (q : Ptr) (k : Nat) :
    iterF n q (k + 1) = iterF n (n q) k := rfl

theorem segB_iterF_lastD {n p : Ptr → Ptr} :
    ∀ (l : List Ptr) (a : Ptr), segB n p a l = true → iterF n a l.length = lastD l a := by
  intro l
  induction l with
  | nil => intro a _; rfl
  | cons x l ih =>
    intro a hseg
    rcases segB_cons.mp hseg with ⟨hna, _, hrest⟩
    rw [List.length_cons, iterF_succ, hna, lastD_cons]
    exact ih x hrest

theorem segB_iterF_get {n p : Ptr → Ptr} :
    ∀ (l : List Ptr) (a : Ptr), segB n p a l = true →
      ∀ (k : Nat) (h : k < l.length), iterF n a (k + 1) = l.get ⟨k, h⟩ := by
  intro l
  induction l with
  | nil => intro a _ k h; exact absurd h (by simp)
  | cons x l ih =>
    intro a hseg k h
    rcases segB_cons.mp hseg with ⟨hna, _, hrest⟩
    cases k with
    | zero => rw [iterF_succ, hna]; rfl
    | succ k =>
      rw [iterF_succ, hna]
      exact ih x hrest k (by simpa using h)

/-- A full lap: starting at the sentinel and following the forward read
function returns to the sentinel after exactly `L.length + 1` steps. -/
theorem cycle_lap {n p : Ptr → Ptr} {L : List Ptr} (h : cycleB n p L = true) :
    iterF n .sent (L.length + 1) = .sent := by
  rcases cycleB_iff.mp h with ⟨hseg, hclose, _⟩
  have hsucc : ∀ (q : Ptr) (k : Nat), iterF n q (k + 1) = n (iterF n q k) := by
    intro q k
    induction k generalizing q with
    | zero => rfl
    | succ k ih => rw [iterF_succ, ih, iterF_succ]
  rw [hsucc, segB_iterF_lastD L .sent hseg, hclose]

/-- Before the full lap every iterate is a member of the cycle, hence not
the sentinel when the member list avoids it. -/
theorem cycle_lap_mem {n p : Ptr → Ptr} {L : List Ptr} (h : cycleB n p L = true) :
    ∀ k, k < L.length → iterF n .sent (k + 1) ∈ L := by
  intro k hk
  rcases cycleB_iff.mp h with ⟨hseg, _, _⟩
  rw [segB_iterF_get L .sent hseg k hk]
  exact List.get_mem L k hk

theorem getD_set_self {α : Type} {l : List α} {i : Nat} {a d : α} (h : i < l.length) :
    ((l.set i a)[i]?).getD d = a := by
  simp [List.getElem?_set_self', List.getElem?_eq_getElem h]

theorem getD_set_oob {α : Type} {l : List α} {i : Nat} {a d : α} (h : ¬ i < l.length) :
    ((l.set i a)[i]?).getD d = (l[i]?).getD d := by
  have hn : l[i]? = none := List.getElem?_eq_none (Nat.le_of_not_lt h)
  simp [List.getElem?_set_self', hn]

theorem getD_set_ne {α : Type} {l : List α} {i j : Nat} {a d : α} (h : i ≠ j) :
    ((l.set i a)[j]?).getD d = (l[j]?).getD d := by
  rw [List.getElem?_set_ne h]

namespace ll_list_pool

variable {V : Type}

/-- Pointer validity: the sentinel or an in-range slot. -/
def validB (s : ll_list_pool V) : Ptr → Bool
  | .sent => true
  | .null => false
  | .slot i => decide (i < s.slab.length)

@[simp] theorem setPrev_free (s : ll_list_pool V) (p q : Ptr) :
    (setPrev s p q).free = s.free := by
  cases p <;> simp [setPrev]

@[simp] theorem setNext_free (s : ll_list_pool V) (p q : Ptr) :
    (setNext s p q).free = s.free := by
  cases p <;> simp [setNext]

@[simp] theorem setVal_free (s : ll_list_pool V) (p : Ptr) (v : Option V) :
    (setVal s p v).free = s.free := by
  cases p <;> simp [setVal]

@[simp] theorem setPrev_size (s : ll_list_pool V) (p q : Ptr) :
    (setPrev s p q).size = s.size := by
  cases p <;> simp [setPrev]

@[simp] theorem setNext_size (s : ll_list_pool V) (p q : Ptr) :
    (setNext s p q).size = s.size := by
  cases p <;> simp [setNext]

@[simp] theorem setVal_size (s : ll_list_pool V) (p : Ptr) (v : Option V) :
    (setVal s p v).size = s.size := by
  cases p <;> simp [setVal]

@[simp] theorem setPrev_slabLen (s : ll_list_pool V) (p q : Ptr) :
    (setPrev s p q).slab.length = s.slab.length := by
  cases p <;> simp [setPrev]

@[simp] theorem setNext_slabLen (s : ll_list_pool V) (p q : Ptr) :
    (setNext s p q).slab.length = s.slab.length := by
  cases p <;> simp [setNext]

@[simp] theorem setVal_slabLen (s : ll_list_pool V) (p : Ptr) (v : Option V) :
    (setVal s p v).slab.length = s.slab.length := by
  cases p <;> simp [setVal]

@[simp] theorem validB_setPrev (s : ll_list_pool V) (p q r : Ptr) :
    validB (setPrev s p q) r = validB s r := by
  cases r <;> simp [validB]

@[simp] theorem validB_setNext (s : ll_list_pool V) (p q r : Ptr) :
    validB (setNext s p q) r = validB s r := by
  cases r <;> simp [validB]

@[simp] theorem validB_setVal (s : ll_list_pool V) (p r : Ptr) (v : Option V) :
    validB (setVal s p v) r = validB s r := by
  cases r <;> simp [validB]

@[simp] theorem nxt_setPrev (s : ll_list_pool V) (p q r : Ptr) :
    nxt (setPrev s p q) r = nxt s r := by
  cases p <;> cases r <;> simp [nxt, getP, setPrev]
  case slot.slot i j =>
    rcases eq_or_ne i j with h | h
    · subst h
      by_cases hl : i < s.slab.length
      · rw [getD_set_self hl]
      · rw [getD_set_oob hl]
    · rw [getD_set_ne h]

@[simp] theorem val_setPrev (s : ll_list_pool V) (p q r : Ptr) :
    val (setPrev s p q) r = val s r := by
  cases p <;> cases r <;> simp [val, getP, setPrev]
  case slot.slot i j =>
    rcases eq_or_ne i j with h | h
    · subst h
      by_cases hl : i < s.slab.length
      · rw [getD_set_self hl]
      · rw [getD_set_oob hl]
    · rw [getD_set_ne h]

@[simp] theorem prv_setNext (s : ll_list_pool V) (p q r : Ptr) :
    prv (setNext s p q) r = prv s r := by
  cases p <;> cases r <;> simp [prv, getP, setNext]
  case slot.slot i j =>
    rcases eq_or_ne i j with h | h
    · subst h
      by_cases hl : i < s.slab.length
      · rw [getD_set_self hl]
      · rw [getD_set_oob hl]
    · rw [getD_set_ne h]

@[simp] theorem val_setNext (s : ll_list_pool V) (p q r : Ptr) :
    val (setNext s p q) r = val s r := by
  cases p <;> cases r <;> simp [val, getP, setNext]
  case slot.slot i j =>
    rcases eq_or_ne i j with h | h
    · subst h
      by_cases hl : i < s.slab.length
      · rw [getD_set_self hl]
      · rw [getD_set_oob hl]
    · rw [getD_set_ne h]

@[simp] theorem nxt_setVal (s : ll_list_pool V) (p r : Ptr) (v : Option V) :
    nxt (setVal s p v) r = nxt s r := by
  cases p <;> cases r <;> simp [nxt, getP, setVal]
  case slot.slot i j =>
    rcases eq_or_ne i j with h | h
    · subst h
      by_cases hl : i < s.slab.length
      · rw [getD_set_self hl]
      · rw [getD_set_oob hl]
    · rw [getD_set_ne h]

@[simp] theorem prv_setVal (s : ll_list_pool V) (p r : Ptr) (v : Option V) :
    prv (setVal s p v) r = prv s r := by
  cases p <;> cases r <;> simp [prv, getP, setVal]
  case slot.slot i j =>
    rcases eq_or_ne i j with h | h
    · subst h
      by_cases hl : i < s.slab.length
      · rw [getD_set_self hl]
      · rw [getD_set_oob hl]
    · rw [getD_set_ne h]

theorem prv_setPrev_self (s : ll_list_pool V) {p : Ptr} (q : Ptr)
    (h : validB s p = true) : prv (setPrev s p q) p = q := by
  cases p with
  | null => simp [validB] at h
  | sent => simp [prv, getP, setPrev]
  | slot i =>
    have hl : i < s.slab.length := by simpa [validB] using h
    simp only [prv, getP, setPrev]
    rw [List.getD_eq_getElem?_getD, getD_set_self hl]

theorem prv_setPrev_ne (s : ll_list_pool V) {p r : Ptr} (q : Ptr)
    (h : r ≠ p) : prv (setPrev s p q) r = prv s r := by
  cases p <;> cases r <;> simp_all [prv, getP, setPrev]
  case slot.slot i j =>
    rw [getD_set_ne fun hc : i = j => h hc.symm]

theorem nxt_setNext_self (s : ll_list_pool V) {p : Ptr} (q : Ptr)
    (h : validB s p = true) : nxt (setNext s p q) p = q := by
  cases p with
  | null => simp [validB] at h
  | sent => simp [nxt, getP, setNext]
  | slot i =>
    have hl : i < s.slab.length := by simpa [validB] using h
    simp only [nxt, getP, setNext]
    rw [List.getD_eq_getElem?_getD, getD_set_self hl]

theorem nxt_setNext_ne (s : ll_list_pool V) {p r : Ptr} (q : Ptr)
    (h : r ≠ p) : nxt (setNext s p q) r = nxt s r := by
  cases p <;> cases r <;> simp_all [nxt, getP, setNext]
  case slot.slot i j =>
    rw [getD_set_ne fun hc : i = j => h hc.symm]

theorem val_setVal_self (s : ll_list_pool V) {i : Nat} (v : Option V)
    (hl : i < s.slab.length) : val (setVal s (.slot i) v) (.slot i) = v := by
  simp only [val, getP, setVal]
  rw [List.getD_eq_getElem?_getD, getD_set_self hl]

theorem val_setVal_ne (s : ll_list_pool V) {p r : Ptr} (v : Option V)
    (h : r ≠ p) : val (setVal s p v) r = val s r := by
  cases p <;> cases r <;> simp_all [val, getP, setVal]
  case slot.slot i j =>
    rw [getD_set_ne fun hc : i = j => h hc.symm]

/-- Forward reads after `link_between(x, a, b)`: `a` points at `x`, `x`
points at `b`, everything else is untouched. -/
theorem link_between_nxt (s : ll_list_pool V) {x a : Ptr} (b r : Ptr)
    (hvx : validB s x = true) (hva : validB s a = true) (hxa : x ≠ a) :
    nxt (link_between s x a b) r = if r = a then x else if r = x then b else nxt s r := by
  have hv1 : validB (setPrev s x a) x = true := by simpa using hvx
  have hv2 : validB (setNext (setPrev s x a) x b) a = true := by simpa using hva
  unfold link_between
  rcases eq_or_ne r a with h1 | h1
  · subst h1
    rw [nxt_setPrev, nxt_setNext_self _ x hv2, if_pos rfl]
  · rw [if_neg h1, nxt_setPrev, nxt_setNext_ne _ x h1]
    rcases eq_or_ne r x with h2 | h2
    · subst h2
      rw [nxt_setNext_self _ b hv1, if_pos rfl]
    · rw [if_neg h2, nxt_setNext_ne _ b h2, nxt_setPrev]

/-- Backward reads after `link_between(x, a, b)`: `b` points back at `x`,
`x` points back at `a`, everything else is untouched. -/
theorem link_between_prv (s : ll_list_pool V) {x b : Ptr} (a r : Ptr)
    (hvx : validB s x = true) (hvb : validB s b = true) (hxb : x ≠ b) :
    prv (link_between s x a b) r = if r = b then x else if r = x then a else prv s r := by
  have hv3 : validB (setNext (setNext (setPrev s x a) x b) a x) b = true := by simpa using hvb
  unfold link_between
  rcases eq_or_ne r b with h1 | h1
  · subst h1
    rw [prv_setPrev_self _ x hv3, if_pos rfl]
  · rw [if_neg h1, prv_setPrev_ne _ x h1, prv_setNext, prv_setNext]
    rcases eq_or_ne r x with h2 | h2
    · subst h2
      rw [prv_setPrev_self _ a (by simpa using hvx), if_pos rfl]
    · rw [if_neg h2, prv_setPrev_ne _ a h2]

@[simp] theorem link_between_val (s : ll_list_pool V) (x a b r : Ptr) :
    val (link_between s x a b) r = val s r := by
  unfold link_between
  rw [val_setPrev, val_setNext, val_setNext, val_setPrev]

@[simp] theorem link_between_free (s : ll_list_pool V) (x a b : Ptr) :
    (link_between s x a b).free = s.free := by
  unfold link_between; simp

@[simp] theorem link_between_size (s : ll_list_pool V) (x a b : Ptr) :
    (link_between s x a b).size = s.size := by
  unfold link_between; simp

@[simp] theorem link_between_slabLen (s : ll_list_pool V) (x a b : Ptr) :
    (link_between s x a b).slab.length = s.slab.length := by
  unfold link_between; simp

/-- Forward reads after `unlink(x)`: the node before `x` now points past
it; nothing else changes (not even `x`'s own fields). -/
theorem unlink_nxt (s : ll_list_pool V) {x : Ptr} (r : Ptr)
    (hva : validB s (prv s x) = true) :
    nxt (unlink s x) r = if r = prv s x then nxt s x else nxt s r := by
  unfold unlink
  rw [nxt_setPrev]
  rcases eq_or_ne r (prv s x) with h1 | h1
  · subst h1
    rw [nxt_setNext_self _ _ hva, if_pos rfl]
  · rw [if_neg h1, nxt_setNext_ne _ _ h1]

/-- Backward reads after `unlink(x)`: the node after `x` now points back
past it; nothing else changes. -/
theorem unlink_prv (s : ll_list_pool V) {x : Ptr} (r : Ptr)
    (hvb : validB s (nxt s x) = true) (hax : x ≠ prv s x) :
    prv (unlink s x) r = if r = nxt s x then prv s x else prv s r := by
  have e1 : nxt (setNext s (prv s x) (nxt s x)) x = nxt s x := nxt_setNext_ne _ _ hax
  have e2 : prv (setNext s (prv s x) (nxt s x)) x = prv s x := prv_setNext s _ _ x
  unfold unlink
  show prv (setPrev (setNext s (prv s x) (nxt s x))
      (nxt (setNext s (prv s x) (nxt s x)) x)
      (prv (setNext s (prv s x) (nxt s x)) x)) r = _
  rw [e1, e2]
  rcases eq_or_ne r (nxt s x) with h1 | h1
  · subst h1
    rw [prv_setPrev_self _ _ (by simpa using hvb), if_pos rfl]
  · rw [if_neg h1, prv_setPrev_ne _ _ h1, prv_setNext]

@[simp] theorem unlink_val (s : ll_list_pool V) (x r : Ptr) :
    val (unlink s x) r = val s r := by
  unfold unlink
  rw [val_setPrev, val_setNext]

@[simp] theorem unlink_free (s : ll_list_pool V) (x : Ptr) :
    (unlink s x).free = s.free := by
  unfold unlink; simp

@[simp] theorem unlink_size (s : ll_list_pool V) (x : Ptr) :
    (unlink s x).size = s.size := by
  unfold unlink; simp

@[simp] theorem unlink_slabLen (s : ll_list_pool V) (x : Ptr) :
    (unlink s x).slab.length = s.slab.length := by
  unfold unlink; simp

@[simp] theorem nxt_updFree (s : ll_list_pool V) (q r : Ptr) :
    nxt { s with free := q } r = nxt s r := by
  cases r <;> rfl

@[simp] theorem prv_updFree (s : ll_list_pool V) (q r : Ptr) :
    prv { s with free := q } r = prv s r := by
  cases r <;> rfl

@[simp] theorem val_updFree (s : ll_list_pool V) (q r : Ptr) :
    val { s with free := q } r = val s r := by
  cases r <;> rfl

@[simp] theorem validB_updFree (s : ll_list_pool V) (q r : Ptr) :
    validB { s with free := q } r = validB s r := by
  cases r <;> rfl

@[simp] theorem nxt_updSize (s : ll_list_pool V) (k : Nat) (r : Ptr) :
    nxt { s with size := k } r = nxt s r := by
  cases r <;> rfl

@[simp] theorem prv_updSize (s : ll_list_pool V) (k : Nat) (r : Ptr) :
    prv { s with size := k } r = prv s r := by
  cases r <;> rfl

@[simp] theorem val_updSize (s : ll_list_pool V) (k : Nat) (r : Ptr) :
    val { s with size := k } r = val s r := by
  cases r <;> rfl

@[simp] theorem validB_updSize (s : ll_list_pool V) (k : Nat) (r : Ptr) :
    validB { s with size := k } r = validB s r := by
  cases r <;> rfl

/-- The free chain: starting from `q` and following `next`, the slots `l`
appear in order and the chain ends in the null pointer. -/
def freeChainB (s : ll_list_pool V) : Ptr → List Nat → Bool
  | q, [] => q == .null
  | q, i :: l => q == .slot i && freeChainB s (nxt s (.slot i)) l

theorem freeChainB_nil {s : ll_list_pool V} {q : Ptr} :
    freeChainB s q [] = true ↔ q = .null := by
  simp [freeChainB]

theorem freeChainB_cons {s : ll_list_pool V} {q : Ptr} {i : Nat} {l : List Nat} :
    freeChainB s q (i :: l) = true ↔
      q = .slot i ∧ freeChainB s (nxt s (.slot i)) l = true := by
  simp [freeChainB]

theorem freeChainB_congr {s s2 : ll_list_pool V} {l : List Nat}
    (h : ∀ i ∈ l, nxt s2 (.slot i) = nxt s (.slot i)) :
    ∀ q, freeChainB s2 q l = freeChainB s q l := by
  induction l with
  | nil => intro q; rfl
  | cons i l ih =>
    intro q
    have hi : nxt s2 (.slot i) = nxt s (.slot i) := h i (by simp)
    have ht : ∀ j ∈ l, nxt s2 (.slot j) = nxt s (.slot j) :=
      fun j hj => h j (List.mem_cons_of_mem i hj)
    simp [freeChainB, hi, ih ht]

/-- Representation invariant of `ll_list_pool`: `xs` lists the slots of
the live elements in list order, `fs` lists the slots of the free chain in
chain order; together they partition the slab, the circular chain and the
free chain are well formed, `size_` counts the live elements, live slots
hold a constructed value and free slots hold none. -/
structure Rep (s : ll_list_pool V) (xs fs : List Nat) : Prop where
  chain : cycleB (nxt s) (prv s) (xs.map Ptr.slot) = true
  freec : freeChainB s s.free fs = true
  perm : (xs ++ fs).Perm (List.range s.slab.length)
  sizeEq : s.size = xs.length
  vals : ∀ i ∈ xs, (val s (.slot i)).isSome = true
  fvals : ∀ i ∈ fs, val s (.slot i) = none

theorem Rep.nodupAll {s : ll_list_pool V} {xs fs : List Nat} (h : Rep s xs fs) :
    (xs ++ fs).Nodup :=
  h.perm.nodup_iff.mpr (List.nodup_range _)

theorem Rep.mem_lt {s : ll_list_pool V} {xs fs : List Nat} (h : Rep s xs fs) :
    ∀ i ∈ xs ++ fs, i < s.slab.length := by
  intro i hi
  have := h.perm.mem_iff.mp hi
  simpa using this

theorem Rep.valid_mem {s : ll_list_pool V} {xs fs : List Nat} (h : Rep s xs fs) :
    ∀ i ∈ xs ++ fs, validB s (.slot i) = true := by
  intro i hi
  simpa [validB] using h.mem_lt i hi

theorem slot_injective : Function.Injective Ptr.slot := by
  intro a b h
  cases h; rfl

theorem Rep.ptrNodup {s : ll_list_pool V} {xs fs : List Nat} (h : Rep s xs fs) :
    (Ptr.sent :: xs.map Ptr.slot).Nodup := by
  refine List.nodup_cons.mpr ⟨?_, ?_⟩
  · intro hc
    rcases List.mem_map.mp hc with ⟨i, _, hi⟩
    cases hi
  · exact ((List.nodup_append.mp h.nodupAll).1).map slot_injective

theorem Rep.chain_valid {s : ll_list_pool V} {xs fs : List Nat} (h : Rep s xs fs) :
    ∀ q ∈ Ptr.sent :: xs.map Ptr.slot, validB s q = true := by
  intro q hq
  rcases List.mem_cons.mp hq with hq | hq
  · rw [hq]; rfl
  · rcases List.mem_map.mp hq with ⟨i, hi, rfl⟩
    exact h.valid_mem i (List.mem_append.mpr (Or.inl hi))

/-- The freshly constructed pool list satisfies the invariant: no live
element, every slot on the free chain (slot capacity-1 first). -/
theorem construct_rep (V : Type) (c : Nat) :
    Rep (construct V c) [] ((List.range c).reverse) := by
  have hlen : (construct V c).slab.length = c := by simp [construct]
  have hslab : ∀ k, k < c →
      nxt (construct V c) (.slot k) = if k = 0 then .null else .slot (k - 1) := by
    intro k hk
    simp [construct, nxt, getP, List.getD_eq_getElem?_getD, List.getElem?_map,
      List.getElem?_range, hk]
  have hval : ∀ k, k < c → val (construct V c) (.slot k) = none := by
    intro k hk
    simp [construct, val, getP, List.getD_eq_getElem?_getD, List.getElem?_map,
      List.getElem?_range, hk]
  refine ⟨?_, ?_, ?_, rfl, by simp, ?_⟩
  · rfl
  · have aux : ∀ k, k ≤ c →
        freeChainB (construct V c) (if k = 0 then .null else .slot (k - 1))
          ((List.range k).reverse) = true := by
      intro k
      induction k with
      | zero => intro _; rfl
      | succ k ih =>
        intro hk
        have hrev : (List.range (k + 1)).reverse = k :: (List.range k).reverse := by
          rw [List.range_succ, List.reverse_append]
          rfl
        rw [hrev]
        refine freeChainB_cons.mpr ⟨by simp, ?_⟩
        rw [hslab k (Nat.lt_of_succ_le hk)]
        exact ih (Nat.le_of_succ_le hk)
    have := aux c (Nat.le_refl c)
    have hfree : (construct V c).free = if c = 0 then .null else .slot (c - 1) := rfl
    rw [hfree]
    exact this
  · rw [hlen]
    exact List.reverse_perm (List.range c)
  · intro i hi
    have : i < c := by simpa using List.mem_reverse.mp hi
    exact hval i this

/-- `emplace_back` with a nonempty free chain: it pops the free head `f`,
stores the value there, appends the node at the back of the list, keeps
all other values, and preserves the invariant. -/
theorem emplace_back_spec (s : ll_list_pool V) (v : V) {xs fs : List Nat} {f : Nat}
    (h : Rep s xs (f :: fs)) :
    ∃ t, emplace_back s v = Except.ok (Ptr.slot f, t) ∧ Rep t (xs ++ [f]) fs ∧
      val t (.slot f) = some v ∧ (∀ r, r ≠ Ptr.slot f → val t r = val s r) ∧
      t.slab.length = s.slab.length := by
  rcases freeChainB_cons.mp h.freec with ⟨hfree, hfreet⟩
  have hflt : f < s.slab.length := h.mem_lt f (List.mem_append.mpr (Or.inr (by simp)))
  have hndAll := h.nodupAll
  have hfxs : f ∉ xs := fun hc =>
    (List.nodup_append.mp hndAll).2.2 hc (List.mem_cons_self f fs)
  have hffs : f ∉ fs := (List.nodup_cons.mp (List.nodup_append.mp hndAll).2.1).1
  have hfslot : Ptr.slot f ∉ Ptr.sent :: xs.map Ptr.slot := by
    intro hc
    rcases List.mem_cons.mp hc with hc | hc
    · exact Ptr.noConfusion hc
    · rcases List.mem_map.mp hc with ⟨j, hj, hje⟩
      exact hfxs (slot_injective hje ▸ hj)
  set s1 : ll_list_pool V := { s with free := nxt s (.slot f) } with hs1
  set s2 : ll_list_pool V := setVal s1 (.slot f) (some v) with hs2
  set s3 : ll_list_pool V := link_between s2 (.slot f) (prv s2 .sent) .sent with hs3
  have e1n : nxt s1 = nxt s := funext fun r => by rw [hs1, nxt_updFree]
  have e1p : prv s1 = prv s := funext fun r => by rw [hs1, prv_updFree]
  have e2n : nxt s2 = nxt s := by
    funext r
    rw [hs2, nxt_setVal, e1n]
  have e2p : prv s2 = prv s := by
    funext r
    rw [hs2, prv_setVal, e1p]
  have hlen1 : s1.slab.length = s.slab.length := rfl
  have hlen2 : s2.slab.length = s.slab.length := by rw [hs2, setVal_slabLen]
  have hv2 : ∀ r, validB s2 r = validB s r := fun r => by
    rw [hs2, validB_setVal, hs1, validB_updFree]
  have hA : prv s .sent = lastD (xs.map Ptr.slot) .sent := cycle_prv_sent h.chain
  have hvA : validB s (prv s .sent) = true := by
    rw [hA]
    exact h.chain_valid _ (lastD_mem_cons _ _)
  have hvf : validB s (.slot f) = true :=
    h.valid_mem f (List.mem_append.mpr (Or.inr (by simp)))
  have hfA : Ptr.slot f ≠ prv s .sent := by
    rw [hA]
    exact fun hc => hfslot (hc ▸ lastD_mem_cons (xs.map Ptr.slot) .sent)
  have hv2f : validB s2 (.slot f) = true := by rw [hv2]; exact hvf
  have hv2A : validB s2 (prv s2 .sent) = true := by rw [e2p, hv2]; exact hvA
  have hfA2 : Ptr.slot f ≠ prv s2 .sent := by rw [e2p]; exact hfA
  have hv2sent : validB s2 Ptr.sent = true := rfl
  have hfsent : Ptr.slot f ≠ Ptr.sent := fun hc => Ptr.noConfusion hc
  have hl3n : ∀ r, nxt s3 r =
      if r = prv s .sent then .slot f else if r = .slot f then .sent else nxt s r := by
    intro r
    rw [hs3]
    have e := link_between_nxt s2 .sent r hv2f hv2A hfA2
    rw [e, e2p, e2n]
  have hl3p : ∀ r, prv s3 r =
      if r = .sent then .slot f else if r = .slot f then prv s .sent else prv s r := by
    intro r
    rw [hs3]
    have e := link_between_prv s2 (prv s2 .sent) r hv2f hv2sent hfsent
    rw [e, e2p]
  have hcy2 : cycleB (nxt s) (prv s) (xs.map Ptr.slot ++ []) = true := by
    simpa using h.chain
  have hnd2 : (Ptr.sent :: (xs.map Ptr.slot ++ [])).Nodup := by
    simpa using h.ptrNodup
  have hchain3 : cycleB (nxt s3) (prv s3) (xs.map Ptr.slot ++ Ptr.slot f :: []) = true := by
    refine cycle_insert hcy2 hnd2 (by simpa using fun hc => hfslot (List.mem_cons_of_mem _ hc))
      (fun hc => Ptr.noConfusion hc) ?_ ?_ ?_ ?_
    · rw [hl3n, if_neg hfA, if_pos rfl]
      rfl
    · rw [hl3p, if_neg (fun hc => Ptr.noConfusion hc), if_pos rfl, hA]
    · intro r hr
      rw [hl3n, hA, if_neg hr]
    · intro r hr
      rw [hl3p, if_neg hr]
      rfl
  refine ⟨{ s3 with size := s3.size + 1 }, ?_, ?_, ?_, ?_, ?_⟩
  · unfold emplace_back alloc_node
    rw [if_neg (by rw [hfree]; exact fun hc => Ptr.noConfusion hc), hfree]
  · refine ⟨?_, ?_, ?_, ?_, ?_, ?_⟩
    · have : (xs ++ [f]).map Ptr.slot = xs.map Ptr.slot ++ Ptr.slot f :: [] := by
        simp
      rw [this]
      have en : nxt { s3 with size := s3.size + 1 } = nxt s3 := funext fun r => by
        rw [nxt_updSize]
      have ep : prv { s3 with size := s3.size + 1 } = prv s3 := funext fun r => by
        rw [prv_updSize]
      rw [en, ep]
      exact hchain3
    · have hfree3 : ({ s3 with size := s3.size + 1 } : ll_list_pool V).free =
          nxt s (.slot f) := by
        show s3.free = nxt s (.slot f)
        rw [hs3, link_between_free, hs2, setVal_free, hs1]
      have hcg : ∀ i ∈ fs, nxt { s3 with size := s3.size + 1 } (.slot i) = nxt s (.slot i) := by
        intro i hi
        rw [nxt_updSize, hl3n]
        have hi1 : Ptr.slot i ≠ prv s .sent := by
          rw [hA]
          intro hc
          have hmem := hc ▸ lastD_mem_cons (xs.map Ptr.slot) .sent
          rcases List.mem_cons.mp hmem with hc2 | hc2
          · exact Ptr.noConfusion hc2
          · rcases List.mem_map.mp hc2 with ⟨j, hj, hje⟩
            have : i ∈ xs := slot_injective hje ▸ hj
            exact (List.nodup_append.mp hndAll).2.2 this (List.mem_cons_of_mem f hi)
        have hi2 : Ptr.slot i ≠ Ptr.slot f := by
          intro hc
          exact hffs (slot_injective hc ▸ hi)
        rw [if_neg hi1, if_neg hi2]
      rw [freeChainB_congr hcg, hfree3]
      exact hfreet
    · have : (xs ++ [f]) ++ fs = xs ++ f :: fs := by
        rw [List.append_assoc]
        rfl
      rw [this]
      have hlen4 : ({ s3 with size := s3.size + 1 } : ll_list_pool V).slab.length =
          s.slab.length := by
        show s3.slab.length = s.slab.length
        rw [hs3, link_between_slabLen, hlen2]
      rw [hlen4]
      exact h.perm
    · show s3.size + 1 = (xs ++ [f]).length
      have : s3.size = s.size := by
        rw [hs3, link_between_size, hs2, setVal_size]
      rw [this, h.sizeEq]
      simp
    · intro i hi
      have hval4 : val { s3 with size := s3.size + 1 } (.slot i) = val s2 (.slot i) := by
        rw [val_updSize, hs3, link_between_val]
      rcases List.mem_append.mp hi with hi | hi
      · have hif : Ptr.slot i ≠ Ptr.slot f := by
          intro hc
          exact hfxs (slot_injective hc ▸ hi)
        rw [hval4, hs2, val_setVal_ne _ _ hif, hs1, val_updFree]
        exact h.vals i hi
      · have : i = f := by simpa using hi
        subst this
        rw [hval4, hs2]
        have : val (setVal s1 (.slot i) (some v)) (.slot i) = some v :=
          val_setVal_self s1 (some v) (by rw [hlen1]; exact hflt)
        rw [this]
        rfl
    · intro i hi
      have hif : Ptr.slot i ≠ Ptr.slot f := by
        intro hc
        exact hffs (slot_injective hc ▸ hi)
      have hval4 : val { s3 with size := s3.size + 1 } (.slot i) = val s (.slot i) := by
        rw [val_updSize, hs3, link_between_val, hs2, val_setVal_ne _ _ hif, hs1, val_updFree]
      rw [hval4]
      exact h.fvals i (List.mem_cons_of_mem f hi)
  · have : val { s3 with size := s3.size + 1 } (.slot f) = val s2 (.slot f) := by
      rw [val_updSize, hs3, link_between_val]
    rw [this, hs2]
    exact val_setVal_self s1 (some v) (by rw [hlen1]; exact hflt)
  · intro r hr
    rw [val_updSize, hs3, link_between_val, hs2, val_setVal_ne _ _ hr, hs1, val_updFree]
  · show s3.slab.length = s.slab.length
    rw [hs3, link_between_slabLen, hlen2]

/-- `emplace_front` with a nonempty free chain: it pops the free head `f`,
stores the value there, prepends the node at the front of the list, keeps
all other values, and preserves the invariant. -/
theorem emplace_front_spec (s : ll_list_pool V) (v : V) {xs fs : List Nat} {f : Nat}
    (h : Rep s xs (f :: fs)) :
    ∃ t, emplace_front s v = Except.ok (Ptr.slot f, t) ∧ Rep t (f :: xs) fs ∧
      val t (.slot f) = some v ∧ (∀ r, r ≠ Ptr.slot f → val t r = val s r) ∧
      t.slab.length = s.slab.length := by
  rcases freeChainB_cons.mp h.freec with ⟨hfree, hfreet⟩
  have hflt : f < s.slab.length := h.mem_lt f (List.mem_append.mpr (Or.inr (by simp)))
  have hndAll := h.nodupAll
  have hfxs : f ∉ xs := fun hc =>
    (List.nodup_append.mp hndAll).2.2 hc (List.mem_cons_self f fs)
  have hffs : f ∉ fs := (List.nodup_cons.mp (List.nodup_append.mp hndAll).2.1).1
  have hfslot : Ptr.slot f ∉ Ptr.sent :: xs.map Ptr.slot := by
    intro hc
    rcases List.mem_cons.mp hc with hc | hc
    · exact Ptr.noConfusion hc
    · rcases List.mem_map.mp hc with ⟨j, hj, hje⟩
      exact hfxs (slot_injective hje ▸ hj)
  set s1 : ll_list_pool V := { s with free := nxt s (.slot f) } with hs1
  set s2 : ll_list_pool V := setVal s1 (.slot f) (some v) with hs2
  set s3 : ll_list_pool V := link_between s2 (.slot f) .sent (nxt s2 .sent) with hs3
  have e1n : nxt s1 = nxt s := funext fun r => by rw [hs1, nxt_updFree]
  have e1p : prv s1 = prv s := funext fun r => by rw [hs1, prv_updFree]
  have e2n : nxt s2 = nxt s := by
    funext r
    rw [hs2, nxt_setVal, e1n]
  have e2p : prv s2 = prv s := by
    funext r
    rw [hs2, prv_setVal, e1p]
  have hlen1 : s1.slab.length = s.slab.length := rfl
  have hlen2 : s2.slab.length = s.slab.length := by rw [hs2, setVal_slabLen]
  have hv2 : ∀ r, validB s2 r = validB s r := fun r => by
    rw [hs2, validB_setVal, hs1, validB_updFree]
  have hB : nxt s .sent = firstD (xs.map Ptr.slot) .sent := cycle_nxt_sent h.chain
  have hvB : validB s (nxt s .sent) = true := by
    rw [hB]
    exact h.chain_valid _ (firstD_mem_cons _ _)
  have hvf : validB s (.slot f) = true :=
    h.valid_mem f (List.mem_append.mpr (Or.inr (by simp)))
  have hfB : Ptr.slot f ≠ nxt s .sent := by
    rw [hB]
    exact fun hc => hfslot (hc ▸ firstD_mem_cons (xs.map Ptr.slot) .sent)
  have hv2f : validB s2 (.slot f) = true := by rw [hv2]; exact hvf
  have hv2B : validB s2 (nxt s2 .sent) = true := by rw [e2n, hv2]; exact hvB
  have hfB2 : Ptr.slot f ≠ nxt s2 .sent := by rw [e2n]; exact hfB
  have hv2sent : validB s2 Ptr.sent = true := rfl
  have hfsent : Ptr.slot f ≠ Ptr.sent := fun hc => Ptr.noConfusion hc
  have hl3n : ∀ r, nxt s3 r =
      if r = .sent then .slot f else if r = .slot f then nxt s .sent else nxt s r := by
    intro r
    rw [hs3]
    have e := link_between_nxt s2 (nxt s2 .sent) r hv2f hv2sent hfsent
    rw [e, e2n]
  have hl3p : ∀ r, prv s3 r =
      if r = nxt s .sent then .slot f else if r = .slot f then .sent else prv s r := by
    intro r
    rw [hs3]
    have e := link_between_prv s2 .sent r hv2f hv2B hfB2
    rw [e, e2n, e2p]
  have hcy2 : cycleB (nxt s) (prv s) ([] ++ xs.map Ptr.slot) = true := by
    simpa using h.chain
  have hnd2 : (Ptr.sent :: ([] ++ xs.map Ptr.slot)).Nodup := by
    simpa using h.ptrNodup
  have hchain3 : cycleB (nxt s3) (prv s3) ([] ++ Ptr.slot f :: xs.map Ptr.slot) = true := by
    refine cycle_insert hcy2 hnd2
      (by simpa using fun hc => hfslot (List.mem_cons_of_mem _ hc))
      (fun hc => Ptr.noConfusion hc) ?_ ?_ ?_ ?_
    · rw [hl3n, if_neg hfsent, if_pos rfl]
      exact hB
    · rw [hl3p, if_neg hfB, if_pos rfl]
      rfl
    · intro r hr
      rw [hl3n r, lastD_nil]
      rcases eq_or_ne r Ptr.sent with h1 | h1
      · rw [if_pos h1, if_pos h1]
      · rw [if_neg h1, if_neg h1, if_neg hr]
    · intro r hr
      rw [hl3p r, ← hB]
      rcases eq_or_ne r (nxt s .sent) with h1 | h1
      · rw [if_pos h1, if_pos h1]
      · rw [if_neg h1, if_neg h1, if_neg hr]
  refine ⟨{ s3 with size := s3.size + 1 }, ?_, ?_, ?_, ?_, ?_⟩
  · unfold emplace_front alloc_node
    rw [if_neg (by rw [hfree]; exact fun hc => Ptr.noConfusion hc), hfree]
  · refine ⟨?_, ?_, ?_, ?_, ?_, ?_⟩
    · have hmap : (f :: xs).map Ptr.slot = [] ++ Ptr.slot f :: xs.map Ptr.slot := by
        simp
      rw [hmap]
      have en : nxt { s3 with size := s3.size + 1 } = nxt s3 := funext fun r => by
        rw [nxt_updSize]
      have ep : prv { s3 with size := s3.size + 1 } = prv s3 := funext fun r => by
        rw [prv_updSize]
      rw [en, ep]
      exact hchain3
    · have hfree3 : ({ s3 with size := s3.size + 1 } : ll_list_pool V).free =
          nxt s (.slot f) := by
        show s3.free = nxt s (.slot f)
        rw [hs3, link_between_free, hs2, setVal_free, hs1]
      have hcg : ∀ i ∈ fs, nxt { s3 with size := s3.size + 1 } (.slot i) = nxt s (.slot i) := by
        intro i hi
        rw [nxt_updSize, hl3n]
        have hi2 : Ptr.slot i ≠ Ptr.slot f := by
          intro hc
          exact hffs (slot_injective hc ▸ hi)
        rw [if_neg (fun hc => Ptr.noConfusion hc), if_neg hi2]
      rw [freeChainB_congr hcg, hfree3]
      exact hfreet
    · have hsplit : (f :: xs) ++ fs = f :: (xs ++ fs) := rfl
      rw [hsplit]
      have hlen4 : ({ s3 with size := s3.size + 1 } : ll_list_pool V).slab.length =
          s.slab.length := by
        show s3.slab.length = s.slab.length
        rw [hs3, link_between_slabLen, hlen2]
      rw [hlen4]
      exact List.perm_middle.symm.trans h.perm
    · show s3.size + 1 = (f :: xs).length
      have : s3.size = s.size := by
        rw [hs3, link_between_size, hs2, setVal_size]
      rw [this, h.sizeEq]
      simp
    · intro i hi
      have hval4 : val { s3 with size := s3.size + 1 } (.slot i) = val s2 (.slot i) := by
        rw [val_updSize, hs3, link_between_val]
      rcases List.mem_cons.mp hi with hi | hi
      · subst hi
        rw [hval4, hs2]
        have := val_setVal_self s1 (some v) (by rw [hlen1]; exact hflt)
        rw [this]
        rfl
      · have hif : Ptr.slot i ≠ Ptr.slot f := by
          intro hc
          exact hfxs (slot_injective hc ▸ hi)
        rw [hval4, hs2, val_setVal_ne _ _ hif, hs1, val_updFree]
        exact h.vals i hi
    · intro i hi
      have hif : Ptr.slot i ≠ Ptr.slot f := by
        intro hc
        exact hffs (slot_injective hc ▸ hi)
      have hval4 : val { s3 with size := s3.size + 1 } (.slot i) = val s (.slot i) := by
        rw [val_updSize, hs3, link_between_val, hs2, val_setVal_ne _ _ hif, hs1, val_updFree]
      rw [hval4]
      exact h.fvals i (List.mem_cons_of_mem f hi)
  · have hval4 : val { s3 with size := s3.size + 1 } (.slot f) = val s2 (.slot f) := by
      rw [val_updSize, hs3, link_between_val]
    rw [hval4, hs2]
    exact val_setVal_self s1 (some v) (by rw [hlen1]; exact hflt)
  · intro r hr
    rw [val_updSize, hs3, link_between_val, hs2, val_setVal_ne _ _ hr, hs1, val_updFree]
  · show s3.slab.length = s.slab.length
    rw [hs3, link_between_slabLen, hlen2]

theorem validB_of_len {s t : ll_list_pool V} (hl : t.slab.length = s.slab.length)
    (r : Ptr) : validB t r = validB s r := by
  cases r <;> simp [validB, hl]

/-- `splice(pos, slot x)` on a well-formed list: decompose the element
list as `u ++ x :: v` (so `x`'s neighbours are the seam of `u` and `v`)
and the remaining elements as `m1 ++ m2` with `pos` at the head of `m2`
(the sentinel when `m2` is empty).  The element moves before `pos`, the
free chain, the values and the size are untouched, and the only rewritten
links are at `x`, at the two old neighbours and at the destination. -/
theorem splice_spec (s : ll_list_pool V) {xs fs u v m1 m2 : List Nat} {x : Nat} {pos : Ptr}
    (h : Rep s xs fs) (hxs : xs = u ++ x :: v) (hm : u ++ v = m1 ++ m2)
    (hpos : pos = firstD (m2.map Ptr.slot) .sent) :
    Rep (splice s pos (.slot x)) (m1 ++ x :: m2) fs ∧
      (∀ r, val (splice s pos (.slot x)) r = val s r) ∧
      (∀ r, nxt (splice s pos (.slot x)) r =
        if r = lastD (m1.map Ptr.slot) .sent then .slot x
        else if r = .slot x then pos
        else if r = lastD (u.map Ptr.slot) .sent then firstD (v.map Ptr.slot) .sent
        else nxt s r) ∧
      (∀ r, prv (splice s pos (.slot x)) r =
        if r = pos then .slot x
        else if r = .slot x then lastD (m1.map Ptr.slot) .sent
        else if r = firstD (v.map Ptr.slot) .sent then lastD (u.map Ptr.slot) .sent
        else prv s r) ∧
      (splice s pos (.slot x)).size = s.size ∧
      (splice s pos (.slot x)).slab.length = s.slab.length := by
  subst hxs
  have hndAll := h.nodupAll
  have hxsnd : (u ++ x :: v).Nodup := (List.nodup_append.mp hndAll).1
  have hnd3 := List.nodup_append.mp hxsnd
  have hxu : x ∉ u := fun hc => hnd3.2.2 hc (List.mem_cons_self x v)
  have hxv : x ∉ v := (List.nodup_cons.mp hnd3.2.1).1
  have hxm12 : x ∉ m1 ++ m2 := by
    rw [← hm]
    intro hc
    rcases List.mem_append.mp hc with hc | hc
    · exact hxu hc
    · exact hxv hc
  have hchain : cycleB (nxt s) (prv s) (u.map Ptr.slot ++ Ptr.slot x :: v.map Ptr.slot)
      = true := by
    have hc := h.chain
    rw [List.map_append, List.map_cons] at hc
    exact hc
  have hptrnd :
      (Ptr.sent :: (u.map Ptr.slot ++ Ptr.slot x :: v.map Ptr.slot)).Nodup := by
    have hp := h.ptrNodup
    rw [List.map_append, List.map_cons] at hp
    exact hp
  have hmm : u.map Ptr.slot ++ v.map Ptr.slot = m1.map Ptr.slot ++ m2.map Ptr.slot := by
    rw [← List.map_append, ← List.map_append, hm]
  have hvalid_chain : ∀ q ∈ Ptr.sent :: (u.map Ptr.slot ++ Ptr.slot x :: v.map Ptr.slot),
      validB s q = true := by
    have hv := h.chain_valid
    rw [List.map_append, List.map_cons] at hv
    exact hv
  have hmem_u : ∀ q ∈ Ptr.sent :: u.map Ptr.slot,
      q ∈ Ptr.sent :: (u.map Ptr.slot ++ Ptr.slot x :: v.map Ptr.slot) := by
    intro q hq
    rcases List.mem_cons.mp hq with hq | hq
    · rw [hq]; exact List.mem_cons_self _ _
    · exact List.mem_cons_of_mem _ (List.mem_append.mpr (Or.inl hq))
  have hmem_v : ∀ q ∈ Ptr.sent :: v.map Ptr.slot,
      q ∈ Ptr.sent :: (u.map Ptr.slot ++ Ptr.slot x :: v.map Ptr.slot) := by
    intro q hq
    rcases List.mem_cons.mp hq with hq | hq
    · rw [hq]; exact List.mem_cons_self _ _
    · exact List.mem_cons_of_mem _
        (List.mem_append.mpr (Or.inr (List.mem_cons_of_mem _ hq)))
  have hmem_m : ∀ q ∈ Ptr.sent :: (m1.map Ptr.slot ++ m2.map Ptr.slot),
      q ∈ Ptr.sent :: (u.map Ptr.slot ++ Ptr.slot x :: v.map Ptr.slot) := by
    intro q hq
    rcases List.mem_cons.mp hq with hq | hq
    · rw [hq]; exact List.mem_cons_self _ _
    · rw [← hmm] at hq
      rcases List.mem_append.mp hq with hq | hq
      · exact hmem_u _ (List.mem_cons_of_mem _ hq)
      · exact hmem_v _ (List.mem_cons_of_mem _ hq)
  have hmem_m1 : ∀ q ∈ Ptr.sent :: m1.map Ptr.slot,
      q ∈ Ptr.sent :: (m1.map Ptr.slot ++ m2.map Ptr.slot) := by
    intro q hq
    rcases List.mem_cons.mp hq with hq | hq
    · rw [hq]; exact List.mem_cons_self _ _
    · exact List.mem_cons_of_mem _ (List.mem_append.mpr (Or.inl hq))
  have hmem_m2 : ∀ q ∈ Ptr.sent :: m2.map Ptr.slot,
      q ∈ Ptr.sent :: (m1.map Ptr.slot ++ m2.map Ptr.slot) := by
    intro q hq
    rcases List.mem_cons.mp hq with hq | hq
    · rw [hq]; exact List.mem_cons_self _ _
    · exact List.mem_cons_of_mem _ (List.mem_append.mpr (Or.inr hq))
  have hxslot : Ptr.slot x ∉ Ptr.sent :: (m1.map Ptr.slot ++ m2.map Ptr.slot) := by
    intro hc
    rcases List.mem_cons.mp hc with hc | hc
    · exact Ptr.noConfusion hc
    · rcases List.mem_append.mp hc with hc | hc
      · rcases List.mem_map.mp hc with ⟨j, hj, hje⟩
        exact hxm12 (List.mem_append.mpr (Or.inl (slot_injective hje ▸ hj)))
      · rcases List.mem_map.mp hc with ⟨j, hj, hje⟩
        exact hxm12 (List.mem_append.mpr (Or.inr (slot_injective hje ▸ hj)))
  have hxcu : Ptr.slot x ∉ Ptr.sent :: u.map Ptr.slot := by
    intro hc
    rcases List.mem_cons.mp hc with hc | hc
    · exact Ptr.noConfusion hc
    · rcases List.mem_map.mp hc with ⟨j, hj, hje⟩
      exact hxu (slot_injective hje ▸ hj)
  have hA0 : prv s (.slot x) = lastD (u.map Ptr.slot) .sent := (cycle_mem_reads hchain).1
  have hB0 : nxt s (.slot x) = firstD (v.map Ptr.slot) .sent := (cycle_mem_reads hchain).2
  have hvA0 : validB s (prv s (.slot x)) = true := by
    rw [hA0]
    exact hvalid_chain _ (hmem_u _ (lastD_mem_cons _ _))
  have hvB0 : validB s (nxt s (.slot x)) = true := by
    rw [hB0]
    exact hvalid_chain _ (hmem_v _ (firstD_mem_cons _ _))
  have hax : Ptr.slot x ≠ prv s (.slot x) := by
    rw [hA0]
    exact fun hc => hxcu (hc ▸ lastD_mem_cons _ _)
  set t1 : ll_list_pool V := unlink s (.slot x) with ht1
  have hn1 : ∀ r, nxt t1 r =
      if r = prv s (.slot x) then nxt s (.slot x) else nxt s r :=
    fun r => unlink_nxt s r hvA0
  have hp1 : ∀ r, prv t1 r =
      if r = nxt s (.slot x) then prv s (.slot x) else prv s r :=
    fun r => unlink_prv s r hvB0 hax
  have hcy1 : cycleB (nxt t1) (prv t1) (u.map Ptr.slot ++ v.map Ptr.slot) = true := by
    refine cycle_remove hchain hptrnd ?_ ?_
    · intro r _
      rw [hn1 r, hA0, hB0]
    · intro r _
      rw [hp1 r, hA0, hB0]
  have hcy1m : cycleB (nxt t1) (prv t1) (m1.map Ptr.slot ++ m2.map Ptr.slot) = true := by
    rw [← hmm]
    exact hcy1
  have hA1 : prv t1 pos = lastD (m1.map Ptr.slot) .sent := by
    rw [hpos]
    exact (cycle_seam hcy1m).2
  have hvt1 : ∀ r, validB t1 r = validB s r :=
    validB_of_len (by rw [ht1, unlink_slabLen])
  have hvx1 : validB t1 (.slot x) = true := by
    rw [hvt1]
    exact hvalid_chain _ (List.mem_cons_of_mem _
      (List.mem_append.mpr (Or.inr (List.mem_cons_self _ _))))
  have hvA1 : validB t1 (prv t1 pos) = true := by
    rw [hA1, hvt1]
    exact hvalid_chain _ (hmem_m _ (hmem_m1 _ (lastD_mem_cons _ _)))
  have hxA1 : Ptr.slot x ≠ prv t1 pos := by
    rw [hA1]
    exact fun hc => hxslot (hc ▸ hmem_m1 _ (lastD_mem_cons _ _))
  have hvpos1 : validB t1 pos = true := by
    rw [hvt1, hpos]
    exact hvalid_chain _ (hmem_m _ (hmem_m2 _ (firstD_mem_cons _ _)))
  have hxpos : Ptr.slot x ≠ pos := by
    rw [hpos]
    exact fun hc => hxslot (hc ▸ hmem_m2 _ (firstD_mem_cons _ _))
  set t2 : ll_list_pool V := link_between t1 (.slot x) (prv t1 pos) pos with ht2
  have hn2 : ∀ r, nxt t2 r =
      if r = prv t1 pos then .slot x else if r = .slot x then pos else nxt t1 r :=
    fun r => by
      rw [ht2]
      exact link_between_nxt t1 pos r hvx1 hvA1 hxA1
  have hp2 : ∀ r, prv t2 r =
      if r = pos then .slot x else if r = .slot x then prv t1 pos else prv t1 r :=
    fun r => by
      rw [ht2]
      exact link_between_prv t1 (prv t1 pos) r hvx1 hvpos1 hxpos
  have hsplice : splice s pos (.slot x) = t2 := by
    unfold splice
    rw [if_neg hxpos]
  have hnd1m : (Ptr.sent :: (m1.map Ptr.slot ++ m2.map Ptr.slot)).Nodup := by
    rw [← hmm]
    have hsub : List.Sublist
        (Ptr.sent :: (u.map Ptr.slot ++ v.map Ptr.slot))
        (Ptr.sent :: (u.map Ptr.slot ++ Ptr.slot x :: v.map Ptr.slot)) :=
      (List.Sublist.append_left (List.sublist_cons_self _ _) _).cons₂ _
    exact hptrnd.sublist hsub
  have hchain2 : cycleB (nxt t2) (prv t2)
      (m1.map Ptr.slot ++ Ptr.slot x :: m2.map Ptr.slot) = true := by
    refine cycle_insert hcy1m hnd1m
      (fun hc => hxslot (List.mem_cons_of_mem _ hc))
      (fun hc => Ptr.noConfusion hc) ?_ ?_ ?_ ?_
    · rw [hn2, if_neg (fun hc => hxA1 hc), if_pos rfl, hpos]
    · rw [hp2, if_neg hxpos, if_pos rfl, hA1]
    · intro r hr
      rw [hn2 r, hA1]
      rcases eq_or_ne r (lastD (m1.map Ptr.slot) .sent) with h1 | h1
      · rw [if_pos h1, if_pos h1]
      · rw [if_neg h1, if_neg h1, if_neg hr]
    · intro r hr
      rw [hp2 r, ← hpos]
      rcases eq_or_ne r pos with h1 | h1
      · rw [if_pos h1, if_pos h1]
      · rw [if_neg h1, if_neg h1, if_neg hr]
  have hvals : ∀ r, val t2 r = val s r := fun r => by
    rw [ht2, link_between_val, ht1, unlink_val]
  have hfree2 : t2.free = s.free := by
    rw [ht2, link_between_free, ht1, unlink_free]
  have hsize2 : t2.size = s.size := by
    rw [ht2, link_between_size, ht1, unlink_size]
  have hlen2 : t2.slab.length = s.slab.length := by
    rw [ht2, link_between_slabLen, ht1, unlink_slabLen]
  have hmemiff : ∀ i, i ∈ m1 ++ x :: m2 ↔ i ∈ u ++ x :: v := by
    intro i
    have hm2 : i ∈ u ++ v ↔ i ∈ m1 ++ m2 := by rw [hm]
    simp only [List.mem_append, List.mem_cons] at hm2 ⊢
    constructor
    · intro hh
      rcases hh with hh | hh | hh
      · rcases hm2.mpr (Or.inl hh) with h2 | h2
        · exact Or.inl h2
        · exact Or.inr (Or.inr h2)
      · exact Or.inr (Or.inl hh)
      · rcases hm2.mpr (Or.inr hh) with h2 | h2
        · exact Or.inl h2
        · exact Or.inr (Or.inr h2)
    · intro hh
      rcases hh with hh | hh | hh
      · rcases hm2.mp (Or.inl hh) with h2 | h2
        · exact Or.inl h2
        · exact Or.inr (Or.inr h2)
      · exact Or.inr (Or.inl hh)
      · rcases hm2.mp (Or.inr hh) with h2 | h2
        · exact Or.inl h2
        · exact Or.inr (Or.inr h2)
  have hfmaps : ∀ i ∈ fs, nxt t2 (.slot i) = nxt s (.slot i) := by
    intro i hi
    have hdisj2 : ∀ j ∈ u ++ x :: v, j ∉ fs := fun j hj hjf =>
      (List.nodup_append.mp hndAll).2.2 hj hjf
    have hne_chain : ∀ q ∈ Ptr.sent :: (u.map Ptr.slot ++ Ptr.slot x :: v.map Ptr.slot),
        Ptr.slot i ≠ q := by
      intro q hq hc
      rcases List.mem_cons.mp hq with hq | hq
      · exact Ptr.noConfusion (hc.trans hq)
      · rw [← List.map_cons, ← List.map_append] at hq
        rcases List.mem_map.mp hq with ⟨j, hj, hje⟩
        have hji : j = i := slot_injective (hje.trans hc.symm)
        exact hdisj2 j hj (by rw [hji]; exact hi)
    have ne1 : Ptr.slot i ≠ lastD (m1.map Ptr.slot) .sent :=
      hne_chain _ (hmem_m _ (hmem_m1 _ (lastD_mem_cons _ _)))
    have ne2 : Ptr.slot i ≠ Ptr.slot x :=
      hne_chain _ (List.mem_cons_of_mem _
        (List.mem_append.mpr (Or.inr (List.mem_cons_self _ _))))
    have ne3 : Ptr.slot i ≠ lastD (u.map Ptr.slot) .sent :=
      hne_chain _ (hmem_u _ (lastD_mem_cons _ _))
    rw [hn2, hA1, if_neg ne1, if_neg ne2, hn1, hA0, if_neg ne3]
  rw [hsplice]
  refine ⟨⟨?_, ?_, ?_, ?_, ?_, ?_⟩, hvals, ?_, ?_, hsize2, hlen2⟩
  · rw [List.map_append, List.map_cons]
    exact hchain2
  · rw [hfree2, freeChainB_congr hfmaps]
    exact h.freec
  · rw [hlen2]
    refine List.Perm.trans (List.Perm.append_right fs ?_) h.perm
    refine List.Perm.trans List.perm_middle ?_
    rw [← hm]
    exact List.perm_middle.symm
  · rw [hsize2, h.sizeEq]
    have hlm := congrArg List.length hm
    simp only [List.length_append] at hlm
    simp only [List.length_append, List.length_cons]
    omega
  · intro i hi
    rw [hvals]
    exact h.vals i ((hmemiff i).mp hi)
  · intro i hi
    rw [hvals]
    exact h.fvals i hi
  · intro r
    rw [hn2 r, hA1, hn1 r, hA0, hB0]
  · intro r
    rw [hp2 r, hA1, hp1 r, hA0, hB0]

/-- Identification of the pre-call predecessor of the destination: when
the destination `pos` (head of `m2` in the remainder split) is not
preceded by the moved element `x` itself, its predecessor in the original
list is already the tail of `m1`. -/
theorem old_prv_pos (s : ll_list_pool V) {xs fs u v m1 m2 : List Nat} {x : Nat} {pos : Ptr}
    (h : Rep s xs fs) (hxs : xs = u ++ x :: v) (hm : u ++ v = m1 ++ m2)
    (hpos : pos = firstD (m2.map Ptr.slot) .sent)
    (hCx : prv s pos ≠ .slot x) :
    prv s pos = lastD (m1.map Ptr.slot) .sent := by
  subst hxs
  have hchain : cycleB (nxt s) (prv s) (u.map Ptr.slot ++ Ptr.slot x :: v.map Ptr.slot)
      = true := by
    have hc := h.chain
    rw [List.map_append, List.map_cons] at hc
    exact hc
  cases m2 with
  | nil =>
    have hpos2 : pos = Ptr.sent := by simpa using hpos
    subst hpos2
    have hlast : prv s .sent =
        lastD (u.map Ptr.slot ++ Ptr.slot x :: v.map Ptr.slot) .sent :=
      cycle_prv_sent hchain
    rcases List.eq_nil_or_concat v with rfl | ⟨w, lv, hv⟩
    · exfalso
      apply hCx
      rw [hlast]
      rw [lastD_append]
      rfl
    · rw [List.concat_eq_append] at hv
      subst hv
      have hm1 : m1 = u ++ (w ++ [lv]) := by simpa using hm.symm
      subst hm1
      rw [hlast]
      rw [lastD_append, List.map_append, List.map_append]
      simp [lastD_append]
  | cons c m2' =>
    have hpos2 : pos = Ptr.slot c := by simpa using hpos
    subst hpos2
    rcases List.append_eq_append_iff.mp hm with ⟨w, hw1, hw2⟩ | ⟨w, hw1, hw2⟩
    · -- m1 = u ++ w, v = w ++ c :: m2'
      subst hw1
      subst hw2
      rcases List.eq_nil_or_concat w with rfl | ⟨w2, lw, hw⟩
      · exfalso
        apply hCx
        have hsplit : u.map Ptr.slot ++ Ptr.slot x :: ([] ++ c :: m2').map Ptr.slot =
            (u.map Ptr.slot ++ [Ptr.slot x]) ++ Ptr.slot c :: m2'.map Ptr.slot := by
          simp
        rw [hsplit] at hchain
        have := (cycle_mem_reads hchain).1
        rw [this]
        simp
      · rw [List.concat_eq_append] at hw
        subst hw
        have hsplit : u.map Ptr.slot ++ Ptr.slot x :: ((w2 ++ [lw]) ++ c :: m2').map Ptr.slot
            = (u.map Ptr.slot ++ Ptr.slot x :: (w2.map Ptr.slot ++ [Ptr.slot lw])) ++
              Ptr.slot c :: m2'.map Ptr.slot := by
          simp
        rw [hsplit] at hchain
        have := (cycle_mem_reads hchain).1
        rw [this]
        rw [lastD_append, List.map_append, List.map_append]
        simp [lastD_append]
    · -- u = m1 ++ w, c :: m2' = w ++ v
      subst hw1
      cases w with
      | nil =>
        exfalso
        apply hCx
        have hv : v = c :: m2' := by simpa using hw2.symm
        subst hv
        have hsplit : (m1 ++ []).map Ptr.slot ++ Ptr.slot x :: (c :: m2').map Ptr.slot =
            ((m1 ++ []).map Ptr.slot ++ [Ptr.slot x]) ++ Ptr.slot c :: m2'.map Ptr.slot := by
          simp
        rw [hsplit] at hchain
        have := (cycle_mem_reads hchain).1
        rw [this]
        simp
      | cons cw w' =>
        have hw2' : c :: m2' = cw :: (w' ++ v) := by simpa using hw2
        injection hw2' with h1 _
        rw [h1]
        have hsplit : (m1 ++ cw :: w').map Ptr.slot ++ Ptr.slot x :: v.map Ptr.slot =
            m1.map Ptr.slot ++ Ptr.slot cw ::
              (w'.map Ptr.slot ++ Ptr.slot x :: v.map Ptr.slot) := by
          simp
        rw [hsplit] at hchain
        exact (cycle_mem_reads hchain).1

/-- `erase(slot x)` on a well-formed list: it returns an iterator to the
element after `x`, unlinks `x`, destroys its value, pushes the slot onto
the free chain and decrements the size, preserving the invariant. -/
theorem erase_spec (s : ll_list_pool V) {xs fs u v : List Nat} {x : Nat}
    (h : Rep s xs fs) (hxs : xs = u ++ x :: v) :
    (erase s (.slot x)).1 = firstD (v.map Ptr.slot) .sent ∧
      Rep (erase s (.slot x)).2 (u ++ v) (x :: fs) := by
  subst hxs
  have hndAll := h.nodupAll
  have hxsnd : (u ++ x :: v).Nodup := (List.nodup_append.mp hndAll).1
  have hnd3 := List.nodup_append.mp hxsnd
  have hxu : x ∉ u := fun hc => hnd3.2.2 hc (List.mem_cons_self x v)
  have hxv : x ∉ v := (List.nodup_cons.mp hnd3.2.1).1
  have hxfs : x ∉ fs := fun hc =>
    (List.nodup_append.mp hndAll).2.2
      (List.mem_append.mpr (Or.inr (List.mem_cons_self x v))) hc
  have hchain : cycleB (nxt s) (prv s) (u.map Ptr.slot ++ Ptr.slot x :: v.map Ptr.slot)
      = true := by
    have hc := h.chain
    rw [List.map_append, List.map_cons] at hc
    exact hc
  have hptrnd :
      (Ptr.sent :: (u.map Ptr.slot ++ Ptr.slot x :: v.map Ptr.slot)).Nodup := by
    have hp := h.ptrNodup
    rw [List.map_append, List.map_cons] at hp
    exact hp
  have hvalid_chain : ∀ q ∈ Ptr.sent :: (u.map Ptr.slot ++ Ptr.slot x :: v.map Ptr.slot),
      validB s q = true := by
    have hv := h.chain_valid
    rw [List.map_append, List.map_cons] at hv
    exact hv
  have hmem_u : ∀ q ∈ Ptr.sent :: u.map Ptr.slot,
      q ∈ Ptr.sent :: (u.map Ptr.slot ++ Ptr.slot x :: v.map Ptr.slot) := by
    intro q hq
    rcases List.mem_cons.mp hq with hq | hq
    · rw [hq]; exact List.mem_cons_self _ _
    · exact List.mem_cons_of_mem _ (List.mem_append.mpr (Or.inl hq))
  have hmem_v : ∀ q ∈ Ptr.sent :: v.map Ptr.slot,
      q ∈ Ptr.sent :: (u.map Ptr.slot ++ Ptr.slot x :: v.map Ptr.slot) := by
    intro q hq
    rcases List.mem_cons.mp hq with hq | hq
    · rw [hq]; exact List.mem_cons_self _ _
    · exact List.mem_cons_of_mem _
        (List.mem_append.mpr (Or.inr (List.mem_cons_of_mem _ hq)))
  have hxcu : Ptr.slot x ∉ Ptr.sent :: u.map Ptr.slot := by
    intro hc
    rcases List.mem_cons.mp hc with hc | hc
    · exact Ptr.noConfusion hc
    · rcases List.mem_map.mp hc with ⟨j, hj, hje⟩
      exact hxu (slot_injective hje ▸ hj)
  have hA0 : prv s (.slot x) = lastD (u.map Ptr.slot) .sent := (cycle_mem_reads hchain).1
  have hB0 : nxt s (.slot x) = firstD (v.map Ptr.slot) .sent := (cycle_mem_reads hchain).2
  have hvA0 : validB s (prv s (.slot x)) = true := by
    rw [hA0]
    exact hvalid_chain _ (hmem_u _ (lastD_mem_cons _ _))
  have hvB0 : validB s (nxt s (.slot x)) = true := by
    rw [hB0]
    exact hvalid_chain _ (hmem_v _ (firstD_mem_cons _ _))
  have hax : Ptr.slot x ≠ prv s (.slot x) := by
    rw [hA0]
    exact fun hc => hxcu (hc ▸ lastD_mem_cons _ _)
  have hxlt : x < s.slab.length :=
    h.mem_lt x (List.mem_append.mpr (Or.inl (List.mem_append.mpr
      (Or.inr (List.mem_cons_self x v)))))
  set t1 : ll_list_pool V := unlink s (.slot x) with ht1
  set t2 : ll_list_pool V := setVal t1 (.slot x) none with ht2
  set t3 : ll_list_pool V := free_node t2 (.slot x) with ht3
  have hres : erase s (.slot x) =
      (nxt s (.slot x), { t3 with size := t3.size - 1 }) := by
    unfold erase
    rfl
  have hn1 : ∀ r, nxt t1 r =
      if r = prv s (.slot x) then nxt s (.slot x) else nxt s r :=
    fun r => unlink_nxt s r hvA0
  have hp1 : ∀ r, prv t1 r =
      if r = nxt s (.slot x) then prv s (.slot x) else prv s r :=
    fun r => unlink_prv s r hvB0 hax
  have hn2 : ∀ r, nxt t2 r = nxt t1 r := fun r => by rw [ht2, nxt_setVal]
  have hp2 : ∀ r, prv t2 r = prv t1 r := fun r => by rw [ht2, prv_setVal]
  have hlen2 : t2.slab.length = s.slab.length := by
    rw [ht2, setVal_slabLen, ht1, unlink_slabLen]
  have hn3 : ∀ r, nxt t3 r = if r = .slot x then s.free else nxt t2 r := by
    intro r
    have hfree2 : t2.free = s.free := by
      rw [ht2, setVal_free, ht1, unlink_free]
    rw [ht3]
    show nxt { setNext t2 (.slot x) t2.free with free := .slot x } r = _
    rw [nxt_updFree]
    rcases eq_or_ne r (Ptr.slot x) with h1 | h1
    · subst h1
      rw [nxt_setNext_self _ _ (by simp [validB, hlen2, hxlt]), if_pos rfl, hfree2]
    · rw [if_neg h1, nxt_setNext_ne _ _ h1]
  have hp3 : ∀ r, prv t3 r = prv t2 r := by
    intro r
    rw [ht3]
    show prv { setNext t2 (.slot x) t2.free with free := .slot x } r = _
    rw [prv_updFree, prv_setNext]
  have hval3 : ∀ r, r ≠ .slot x → val t3 r = val s r := by
    intro r hr
    rw [ht3]
    show val { setNext t2 (.slot x) t2.free with free := .slot x } r = _
    rw [val_updFree, val_setNext, ht2, val_setVal_ne _ _ hr, ht1, unlink_val]
  have hvalx : val t3 (.slot x) = none := by
    rw [ht3]
    show val { setNext t2 (.slot x) t2.free with free := .slot x } (.slot x) = _
    rw [val_updFree, val_setNext, ht2]
    exact val_setVal_self t1 none (by rw [ht1, unlink_slabLen]; exact hxlt)
  have hfree3 : t3.free = .slot x := by
    rw [ht3]
    rfl
  have hlen3 : t3.slab.length = s.slab.length := by
    rw [ht3]
    show (setNext t2 (.slot x) t2.free).slab.length = s.slab.length
    rw [setNext_slabLen, hlen2]
  have hsize3 : t3.size = s.size := by
    rw [ht3]
    show (setNext t2 (.slot x) t2.free).size = s.size
    rw [setNext_size, ht2, setVal_size, ht1, unlink_size]
  have hchain3 : cycleB (nxt t3) (prv t3) (u.map Ptr.slot ++ v.map Ptr.slot) = true := by
    refine cycle_remove hchain hptrnd ?_ ?_
    · intro r hr
      rw [hn3 r, if_neg hr, hn2, hn1 r, hA0, hB0]
    · intro r _
      rw [hp3 r, hp2, hp1 r, hA0, hB0]
  rw [hres]
  refine ⟨by rw [hB0], ⟨?_, ?_, ?_, ?_, ?_, ?_⟩⟩
  · rw [List.map_append]
    have en : nxt { t3 with size := t3.size - 1 } = nxt t3 := funext fun r => by
      rw [nxt_updSize]
    have ep : prv { t3 with size := t3.size - 1 } = prv t3 := funext fun r => by
      rw [prv_updSize]
    rw [en, ep]
    exact hchain3
  · refine freeChainB_cons.mpr ⟨hfree3, ?_⟩
    have hnx : nxt { t3 with size := t3.size - 1 } (.slot x) = s.free := by
      rw [nxt_updSize, hn3, if_pos rfl]
    rw [hnx]
    have hcg : ∀ i ∈ fs,
        nxt { t3 with size := t3.size - 1 } (.slot i) = nxt s (.slot i) := by
      intro i hi
      have hdisj2 : ∀ j ∈ u ++ x :: v, j ∉ fs := fun j hj hjf =>
        (List.nodup_append.mp hndAll).2.2 hj hjf
      have hix : Ptr.slot i ≠ Ptr.slot x := by
        intro hc
        exact hdisj2 x (List.mem_append.mpr (Or.inr (List.mem_cons_self x v)))
          (slot_injective hc ▸ hi)
      have hiA : Ptr.slot i ≠ prv s (.slot x) := by
        rw [hA0]
        intro hc
        have hmem := hc ▸ lastD_mem_cons (u.map Ptr.slot) Ptr.sent
        rcases List.mem_cons.mp hmem with hc2 | hc2
        · exact Ptr.noConfusion hc2
        · rcases List.mem_map.mp hc2 with ⟨j, hj, hje⟩
          exact hdisj2 j (List.mem_append.mpr (Or.inl hj))
            (slot_injective hje ▸ hi)
      rw [nxt_updSize, hn3, if_neg hix, hn2, hn1, if_neg hiA]
    rw [freeChainB_congr hcg]
    exact h.freec
  · have hlen4 : ({ t3 with size := t3.size - 1 } : ll_list_pool V).slab.length =
        s.slab.length := hlen3
    rw [hlen4]
    refine List.Perm.trans ?_ h.perm
    refine List.Perm.trans List.perm_middle ?_
    have h1 : (u ++ x :: v) ++ fs = u ++ x :: (v ++ fs) := by simp
    have h2 : u ++ v ++ fs = u ++ (v ++ fs) := List.append_assoc u v fs
    rw [h1, h2]
    exact List.perm_middle.symm
  · show t3.size - 1 = (u ++ v).length
    rw [hsize3, h.sizeEq]
    simp only [List.length_append, List.length_cons]
    omega
  · intro i hi
    have hix : Ptr.slot i ≠ Ptr.slot x := by
      intro hc
      have : i = x := slot_injective hc
      subst this
      rcases List.mem_append.mp hi with hi | hi
      · exact hxu hi
      · exact hxv hi
    rw [val_updSize, hval3 _ hix]
    refine h.vals i ?_
    rcases List.mem_append.mp hi with hi | hi
    · exact List.mem_append.mpr (Or.inl hi)
    · exact List.mem_append.mpr (Or.inr (List.mem_cons_of_mem _ hi))
  · intro i hi
    rcases List.mem_cons.mp hi with hi | hi
    · subst hi
      rw [val_updSize]
      exact hvalx
    · have hix : Ptr.slot i ≠ Ptr.slot x := by
        intro hc
        exact hxfs (slot_injective hc ▸ hi)
      rw [val_updSize, hval3 _ hix]
      exact h.fvals i hi

/-- Range `splice(pos, first, last)` on a well-formed list: decompose the
element list as `l1 ++ (r0 :: rr) ++ l2` (the range `[first, last)` being
`r0 :: rr`, with `first` at `r0` and `last` at the head of `l2`) and the
remaining elements as `m1 ++ m2` with `pos` at the head of `m2`.  The
whole range moves before `pos` with its internal order intact; values,
free chain and size are untouched, and the only rewritten links sit at the
six boundary nodes. -/
theorem spliceRange_spec (s : ll_list_pool V)
    {xs fs l1 rr l2 m1 m2 : List Nat} {r0 : Nat} {pos lst : Ptr}
    (h : Rep s xs fs) (hxs : xs = l1 ++ (r0 :: rr) ++ l2) (hm : l1 ++ l2 = m1 ++ m2)
    (hpos : pos = firstD (m2.map Ptr.slot) .sent)
    (hlst : lst = firstD (l2.map Ptr.slot) .sent) :
    Rep (spliceRange s pos (.slot r0) lst) (m1 ++ (r0 :: rr) ++ m2) fs ∧
      (∀ q, val (spliceRange s pos (.slot r0) lst) q = val s q) ∧
      (∀ q, nxt (spliceRange s pos (.slot r0) lst) q =
        if q = lastD (rr.map Ptr.slot) (Ptr.slot r0) then pos
        else if q = lastD (m1.map Ptr.slot) .sent then .slot r0
        else if q = lastD (l1.map Ptr.slot) .sent then lst
        else nxt s q) ∧
      (∀ q, prv (spliceRange s pos (.slot r0) lst) q =
        if q = pos then lastD (rr.map Ptr.slot) (Ptr.slot r0)
        else if q = .slot r0 then lastD (m1.map Ptr.slot) .sent
        else if q = lst then lastD (l1.map Ptr.slot) .sent
        else prv s q) ∧
      (spliceRange s pos (.slot r0) lst).size = s.size ∧
      (spliceRange s pos (.slot r0) lst).slab.length = s.slab.length := by
  subst hxs
  have hndAll := h.nodupAll
  have hchain : cycleB (nxt s) (prv s)
      ((l1.map Ptr.slot ++ (Ptr.slot r0 :: rr.map Ptr.slot)) ++ l2.map Ptr.slot)
      = true := by
    have hc := h.chain
    rw [List.map_append, List.map_append, List.map_cons] at hc
    exact hc
  have hptrnd : (Ptr.sent ::
      ((l1.map Ptr.slot ++ (Ptr.slot r0 :: rr.map Ptr.slot)) ++ l2.map Ptr.slot)).Nodup := by
    have hp := h.ptrNodup
    rw [List.map_append, List.map_append, List.map_cons] at hp
    exact hp
  have hvalid : ∀ q ∈ Ptr.sent ::
      ((l1.map Ptr.slot ++ (Ptr.slot r0 :: rr.map Ptr.slot)) ++ l2.map Ptr.slot),
      validB s q = true := by
    have hv := h.chain_valid
    rw [List.map_append, List.map_append, List.map_cons] at hv
    exact hv
  have hmm2 : l1.map Ptr.slot ++ l2.map Ptr.slot = m1.map Ptr.slot ++ m2.map Ptr.slot := by
    rw [← List.map_append, ← List.map_append, hm]
  have hndL := (List.nodup_cons.mp hptrnd).2
  have hsL : Ptr.sent ∉ (l1.map Ptr.slot ++ (Ptr.slot r0 :: rr.map Ptr.slot))
      ++ l2.map Ptr.slot := (List.nodup_cons.mp hptrnd).1
  have hnd12 := List.nodup_append.mp hndL
  have hnd1R := List.nodup_append.mp hnd12.1
  have hndMl1 : (l1.map Ptr.slot).Nodup := hnd1R.1
  have hndRL : (Ptr.slot r0 :: rr.map Ptr.slot).Nodup := hnd1R.2.1
  have hndMl2 : (l2.map Ptr.slot).Nodup := hnd12.2.1
  have hdisj1R : (l1.map Ptr.slot).Disjoint (Ptr.slot r0 :: rr.map Ptr.slot) := hnd1R.2.2
  have hdisj12 : (l1.map Ptr.slot).Disjoint (l2.map Ptr.slot) := fun a ha hb =>
    hnd12.2.2 (List.mem_append.mpr (Or.inl ha)) hb
  have hdisjR2 : (Ptr.slot r0 :: rr.map Ptr.slot).Disjoint (l2.map Ptr.slot) :=
    fun a ha hb => hnd12.2.2 (List.mem_append.mpr (Or.inr ha)) hb
  have hsl1 : Ptr.sent ∉ l1.map Ptr.slot := fun hh =>
    hsL (List.mem_append.mpr (Or.inl (List.mem_append.mpr (Or.inl hh))))
  have hsR : Ptr.sent ∉ Ptr.slot r0 :: rr.map Ptr.slot := fun hh =>
    hsL (List.mem_append.mpr (Or.inl (List.mem_append.mpr (Or.inr hh))))
  have hsl2 : Ptr.sent ∉ l2.map Ptr.slot := fun hh =>
    hsL (List.mem_append.mpr (Or.inr hh))
  have hmem12 : ∀ q, q ∈ Ptr.sent :: (l1.map Ptr.slot ++ l2.map Ptr.slot) →
      q ∈ Ptr.sent ::
        ((l1.map Ptr.slot ++ (Ptr.slot r0 :: rr.map Ptr.slot)) ++ l2.map Ptr.slot) := by
    intro q hq
    rcases List.mem_cons.mp hq with hq | hq
    · rw [hq]; exact List.mem_cons_self _ _
    · rcases List.mem_append.mp hq with hq | hq
      · exact List.mem_cons_of_mem _
          (List.mem_append.mpr (Or.inl (List.mem_append.mpr (Or.inl hq))))
      · exact List.mem_cons_of_mem _ (List.mem_append.mpr (Or.inr hq))
  have hmemR : ∀ q ∈ Ptr.slot r0 :: rr.map Ptr.slot,
      q ∈ Ptr.sent ::
        ((l1.map Ptr.slot ++ (Ptr.slot r0 :: rr.map Ptr.slot)) ++ l2.map Ptr.slot) :=
    fun q hq => List.mem_cons_of_mem _
      (List.mem_append.mpr (Or.inl (List.mem_append.mpr (Or.inr hq))))
  have h12R : ∀ q, q ∈ Ptr.sent :: (l1.map Ptr.slot ++ l2.map Ptr.slot) →
      q ∉ Ptr.slot r0 :: rr.map Ptr.slot := by
    intro q hq hqR
    rcases List.mem_cons.mp hq with hq | hq
    · rw [hq] at hqR; exact hsR hqR
    · rcases List.mem_append.mp hq with hq | hq
      · exact hdisj1R hq hqR
      · exact hdisjR2 hqR hq
  have hAmem : lastD (l1.map Ptr.slot) .sent ∈ Ptr.sent :: l1.map Ptr.slot :=
    lastD_mem_cons _ _
  have hA12 : lastD (l1.map Ptr.slot) .sent ∈
      Ptr.sent :: (l1.map Ptr.slot ++ l2.map Ptr.slot) := by
    rcases List.mem_cons.mp hAmem with hq | hq
    · rw [hq]; exact List.mem_cons_self _ _
    · exact List.mem_cons_of_mem _ (List.mem_append.mpr (Or.inl hq))
  have hlstmem : lst ∈ Ptr.sent :: (l1.map Ptr.slot ++ l2.map Ptr.slot) := by
    rw [hlst]
    rcases List.mem_cons.mp (firstD_mem_cons (l2.map Ptr.slot) .sent) with hq | hq
    · rw [hq]; exact List.mem_cons_self _ _
    · exact List.mem_cons_of_mem _ (List.mem_append.mpr (Or.inr hq))
  have hB0mem : lastD (m1.map Ptr.slot) .sent ∈
      Ptr.sent :: (l1.map Ptr.slot ++ l2.map Ptr.slot) := by
    rw [hmm2]
    rcases List.mem_cons.mp (lastD_mem_cons (m1.map Ptr.slot) .sent) with hq | hq
    · rw [hq]; exact List.mem_cons_self _ _
    · exact List.mem_cons_of_mem _ (List.mem_append.mpr (Or.inl hq))
  have hposmem : pos ∈ Ptr.sent :: (l1.map Ptr.slot ++ l2.map Ptr.slot) := by
    rw [hpos, hmm2]
    rcases List.mem_cons.mp (firstD_mem_cons (m2.map Ptr.slot) .sent) with hq | hq
    · rw [hq]; exact List.mem_cons_self _ _
    · exact List.mem_cons_of_mem _ (List.mem_append.mpr (Or.inr hq))
  have hTLmem : lastD (rr.map Ptr.slot) (Ptr.slot r0) ∈ Ptr.slot r0 :: rr.map Ptr.slot :=
    lastD_mem_cons _ _
  have hvA : validB s (lastD (l1.map Ptr.slot) .sent) = true :=
    hvalid _ (hmem12 _ hA12)
  have hvlst : validB s lst = true := hvalid _ (hmem12 _ hlstmem)
  have hvB0 : validB s (lastD (m1.map Ptr.slot) .sent) = true :=
    hvalid _ (hmem12 _ hB0mem)
  have hvpos : validB s pos = true := hvalid _ (hmem12 _ hposmem)
  have hvTL : validB s (lastD (rr.map Ptr.slot) (Ptr.slot r0)) = true :=
    hvalid _ (hmemR _ hTLmem)
  have hvF : validB s (.slot r0) = true :=
    hvalid _ (hmemR _ (List.mem_cons_self _ _))
  have hFlst : Ptr.slot r0 ≠ lst :=
    fun hc => h12R _ hlstmem (hc ▸ List.mem_cons_self _ _)
  have hFpos : Ptr.slot r0 ≠ pos :=
    fun hc => h12R _ hposmem (hc ▸ List.mem_cons_self _ _)
  have hTLnot12 : lastD (rr.map Ptr.slot) (Ptr.slot r0) ∉
      Ptr.sent :: (l1.map Ptr.slot ++ l2.map Ptr.slot) :=
    fun hc => h12R _ hc hTLmem
  have hAeq : prv s (.slot r0) = lastD (l1.map Ptr.slot) .sent := by
    have hc2 : cycleB (nxt s) (prv s) (l1.map Ptr.slot ++ Ptr.slot r0 ::
        (rr.map Ptr.slot ++ l2.map Ptr.slot)) = true := by
      have e : (l1.map Ptr.slot ++ (Ptr.slot r0 :: rr.map Ptr.slot)) ++ l2.map Ptr.slot =
          l1.map Ptr.slot ++ Ptr.slot r0 :: (rr.map Ptr.slot ++ l2.map Ptr.slot) := by
        simp
      rw [e] at hchain
      exact hchain
    exact (cycle_mem_reads hc2).1
  have hTLeq : prv s lst = lastD (rr.map Ptr.slot) (Ptr.slot r0) := by
    rw [hlst]
    have := (cycle_seam hchain).2
    rw [lastD_append, lastD_cons] at this
    exact this
  set F : Ptr := Ptr.slot r0 with hF
  set s1 : ll_list_pool V := setNext s (prv s F) lst with hs1
  set s2 : ll_list_pool V := setPrev s1 lst (prv s1 F) with hs2
  have hn1 : ∀ q, nxt s1 q =
      if q = lastD (l1.map Ptr.slot) .sent then lst else nxt s q := by
    intro q
    rw [hs1, hAeq]
    rcases eq_or_ne q (lastD (l1.map Ptr.slot) .sent) with h1 | h1
    · rw [if_pos h1, h1, nxt_setNext_self _ _ hvA]
    · rw [if_neg h1, nxt_setNext_ne _ _ h1]
  have hp1 : ∀ q, prv s1 q = prv s q := fun q => by rw [hs1, prv_setNext]
  have hval1 : ∀ q, val s1 q = val s q := fun q => by rw [hs1, val_setNext]
  have hlen1 : s1.slab.length = s.slab.length := by rw [hs1, setNext_slabLen]
  have hn2 : ∀ q, nxt s2 q = nxt s1 q := fun q => by rw [hs2, nxt_setPrev]
  have hp2 : ∀ q, prv s2 q =
      if q = lst then lastD (l1.map Ptr.slot) .sent else prv s q := by
    intro q
    rw [hs2, hp1, hAeq]
    rcases eq_or_ne q lst with h1 | h1
    · rw [if_pos h1, h1, prv_setPrev_self _ _ (by rw [hs1, validB_setNext]; exact hvlst)]
    · rw [if_neg h1, prv_setPrev_ne _ _ h1, hp1]
  have hval2 : ∀ q, val s2 q = val s q := fun q => by rw [hs2, val_setPrev, hval1]
  have hlen2 : s2.slab.length = s.slab.length := by rw [hs2, setPrev_slabLen, hlen1]
  have hv2 : ∀ q, validB s2 q = validB s q := validB_of_len hlen2
  have hcyrem : cycleB (nxt s2) (prv s2) (l1.map Ptr.slot ++ l2.map Ptr.slot) = true := by
    refine cycle_remove_seg hchain hptrnd ?_ ?_
    · intro q hq
      rw [hn2 q, hn1 q, hlst]
    · intro q hq
      rw [hp2 q, hlst]
  have hcyrem2 : cycleB (nxt s2) (prv s2) (m1.map Ptr.slot ++ m2.map Ptr.slot) = true := by
    rw [← hmm2]
    exact hcyrem
  have hB0eq : prv s2 pos = lastD (m1.map Ptr.slot) .sent := by
    rw [hpos]
    exact (cycle_seam hcyrem2).2
  have hsegR : segB (nxt s2) (prv s2) F (rr.map Ptr.slot) = true := by
    have hsegR0 : segB (nxt s) (prv s) F (rr.map Ptr.slot) = true := by
      rcases cycleB_iff.mp hchain with ⟨hseg, _, _⟩
      rcases segB_append.mp hseg with ⟨hseg1R, _⟩
      rcases segB_append.mp hseg1R with ⟨_, hsegR1⟩
      exact (segB_cons.mp hsegR1).2.2
    refine segB_of_congr hsegR0 ?_ ?_
    · intro q hq
      have hqR : q ∈ F :: rr.map Ptr.slot := (List.dropLast_sublist _).mem hq
      have hqA : q ≠ lastD (l1.map Ptr.slot) .sent := by
        intro hc
        exact h12R _ hA12 (hc ▸ hqR)
      rw [hn2 q, hn1 q, if_neg hqA]
    · intro q hq
      have hqR : q ∈ F :: rr.map Ptr.slot := List.mem_cons_of_mem _ hq
      have hqlst : q ≠ lst := by
        intro hc
        exact h12R _ hlstmem (hc ▸ hqR)
      rw [hp2 q, if_neg hqlst]
  set s3 : ll_list_pool V := setNext s2 (prv s2 pos) F with hs3
  set s4 : ll_list_pool V := setPrev s3 F (prv s2 pos) with hs4
  set s5 : ll_list_pool V := setNext s4 (prv s lst) pos with hs5
  set t : ll_list_pool V := setPrev s5 pos (prv s lst) with ht
  have hn3 : ∀ q, nxt s3 q =
      if q = lastD (m1.map Ptr.slot) .sent then F else nxt s2 q := by
    intro q
    rw [hs3, hB0eq]
    rcases eq_or_ne q (lastD (m1.map Ptr.slot) .sent) with h1 | h1
    · rw [if_pos h1, h1, nxt_setNext_self _ _ (by rw [hv2]; exact hvB0)]
    · rw [if_neg h1, nxt_setNext_ne _ _ h1]
  have hp3 : ∀ q, prv s3 q = prv s2 q := fun q => by rw [hs3, prv_setNext]
  have hlen3 : s3.slab.length = s.slab.length := by rw [hs3, setNext_slabLen, hlen2]
  have hn4 : ∀ q, nxt s4 q = nxt s3 q := fun q => by rw [hs4, nxt_setPrev]
  have hp4 : ∀ q, prv s4 q =
      if q = F then lastD (m1.map Ptr.slot) .sent else prv s2 q := by
    intro q
    rw [hs4, hB0eq]
    rcases eq_or_ne q F with h1 | h1
    · rw [if_pos h1, h1,
        prv_setPrev_self _ _ (by rw [validB_of_len hlen3]; exact hvF)]
    · rw [if_neg h1, prv_setPrev_ne _ _ h1, hp3]
  have hlen4 : s4.slab.length = s.slab.length := by rw [hs4, setPrev_slabLen, hlen3]
  have hn5 : ∀ q, nxt s5 q =
      if q = lastD (rr.map Ptr.slot) F then pos else nxt s3 q := by
    intro q
    rw [hs5, hTLeq]
    rcases eq_or_ne q (lastD (rr.map Ptr.slot) F) with h1 | h1
    · rw [if_pos h1, h1,
        nxt_setNext_self _ _ (by rw [validB_of_len hlen4]; exact hvTL)]
    · rw [if_neg h1, nxt_setNext_ne _ _ h1, hn4]
  have hp5 : ∀ q, prv s5 q = prv s4 q := fun q => by rw [hs5, prv_setNext]
  have hlen5 : s5.slab.length = s.slab.length := by rw [hs5, setNext_slabLen, hlen4]
  have hnt : ∀ q, nxt t q =
      if q = lastD (rr.map Ptr.slot) F then pos
      else if q = lastD (m1.map Ptr.slot) .sent then F
      else if q = lastD (l1.map Ptr.slot) .sent then lst
      else nxt s q := by
    intro q
    rw [ht, nxt_setPrev, hn5 q, hn3 q, hn2 q, hn1 q]
  have hpt : ∀ q, prv t q =
      if q = pos then lastD (rr.map Ptr.slot) F
      else if q = F then lastD (m1.map Ptr.slot) .sent
      else if q = lst then lastD (l1.map Ptr.slot) .sent
      else prv s q := by
    intro q
    rw [ht, hTLeq]
    rcases eq_or_ne q pos with h1 | h1
    · rw [if_pos h1, h1,
        prv_setPrev_self _ _ (by rw [validB_of_len hlen5]; exact hvpos)]
    · rw [if_neg h1, prv_setPrev_ne _ _ h1, hp5, hp4, hp2]
  have hval : ∀ q, val t q = val s q := by
    intro q
    rw [ht]
    show val (setPrev s5 pos (prv s lst)) q = val s q
    rw [val_setPrev, hs5, val_setNext, hs4, val_setPrev, hs3, val_setNext, hval2]
  have hlent : t.slab.length = s.slab.length := by
    rw [ht, setPrev_slabLen, hlen5]
  have hfreet : t.free = s.free := by
    rw [ht, setPrev_free, hs5, setNext_free, hs4, setPrev_free, hs3, setNext_free,
      hs2, setPrev_free, hs1, setNext_free]
  have hsizet : t.size = s.size := by
    rw [ht, setPrev_size, hs5, setNext_size, hs4, setPrev_size, hs3, setNext_size,
      hs2, setPrev_size, hs1, setNext_size]
  have hndnew : (Ptr.sent :: ((m1.map Ptr.slot ++ (F :: rr.map Ptr.slot)) ++
      m2.map Ptr.slot)).Nodup := by
    have hperm : ((l1.map Ptr.slot ++ (F :: rr.map Ptr.slot)) ++ l2.map Ptr.slot).Perm
        ((m1.map Ptr.slot ++ (F :: rr.map Ptr.slot)) ++ m2.map Ptr.slot) := by
      have e1 : (l1.map Ptr.slot ++ (F :: rr.map Ptr.slot)) ++ l2.map Ptr.slot =
          l1.map Ptr.slot ++ ((F :: rr.map Ptr.slot) ++ l2.map Ptr.slot) :=
        List.append_assoc _ _ _
      have e2 : (m1.map Ptr.slot ++ (F :: rr.map Ptr.slot)) ++ m2.map Ptr.slot =
          m1.map Ptr.slot ++ ((F :: rr.map Ptr.slot) ++ m2.map Ptr.slot) :=
        List.append_assoc _ _ _
      rw [e1, e2]
      refine List.Perm.trans (List.perm_append_comm_assoc _ _ _) ?_
      refine List.Perm.trans ?_ (List.perm_append_comm_assoc _ _ _).symm
      refine List.Perm.append_left _ ?_
      rw [hmm2]
    exact (List.Perm.nodup_iff (List.Perm.cons _ hperm)).mp hptrnd
  have hchainNew : cycleB (nxt t) (prv t)
      ((m1.map Ptr.slot ++ (F :: rr.map Ptr.slot)) ++ m2.map Ptr.slot) = true := by
    refine cycle_insert_seg hcyrem2 hndnew hsegR ?_ ?_ ?_ ?_ ?_ ?_
    · intro q hq
      have hTLin : lastD (rr.map Ptr.slot) F ∈ F :: rr.map Ptr.slot := lastD_mem_cons _ _
      have hqTL : q ≠ lastD (rr.map Ptr.slot) F := fun hc => hq (hc ▸ hTLin)
      rw [hnt q, if_neg hqTL]
      rcases eq_or_ne q (lastD (m1.map Ptr.slot) .sent) with h1 | h1
      · rw [if_pos h1, if_pos h1]
      · rw [if_neg h1, if_neg h1, hn2 q, hn1 q]
    · intro q hq
      have hqF : q ≠ F := fun hc => hq (hc ▸ List.mem_cons_self _ _)
      rw [hpt q, ← hpos]
      rcases eq_or_ne q pos with h1 | h1
      · rw [if_pos h1, if_pos h1]
      · rw [if_neg h1, if_neg h1, if_neg hqF, hp2 q]
    · intro q hq hqTL
      have hqB0 : q ≠ lastD (m1.map Ptr.slot) .sent := fun hc =>
        h12R _ hB0mem (hc ▸ hq)
      have hqA : q ≠ lastD (l1.map Ptr.slot) .sent := fun hc =>
        h12R _ hA12 (hc ▸ hq)
      rw [hnt q, if_neg hqTL, if_neg hqB0, if_neg hqA, hn2 q, hn1 q, if_neg hqA]
    · rw [hnt, if_pos rfl, hpos]
    · intro q hq hqF
      have hqpos : q ≠ pos := fun hc => h12R _ hposmem (hc ▸ hq)
      have hqlst : q ≠ lst := fun hc => h12R _ hlstmem (hc ▸ hq)
      rw [hpt q, if_neg hqpos, if_neg hqF, if_neg hqlst, hp2 q, if_neg hqlst]
    · rw [hpt, if_neg hFpos, if_pos rfl]
  have hop : spliceRange s pos F lst = t := by
    unfold spliceRange
    rw [if_neg hFlst]
  rw [hop]
  have hmemiff : ∀ i, i ∈ (m1 ++ (r0 :: rr) ++ m2) ↔ i ∈ (l1 ++ (r0 :: rr) ++ l2) := by
    intro i
    have hm3 : i ∈ l1 ++ l2 ↔ i ∈ m1 ++ m2 := by rw [hm]
    simp only [List.mem_append, List.mem_cons] at hm3 ⊢
    constructor
    · intro hh
      rcases hh with (hh | hh) | hh
      · rcases hm3.mpr (Or.inl hh) with h2 | h2
        · exact Or.inl (Or.inl h2)
        · exact Or.inr h2
      · exact Or.inl (Or.inr hh)
      · rcases hm3.mpr (Or.inr hh) with h2 | h2
        · exact Or.inl (Or.inl h2)
        · exact Or.inr h2
    · intro hh
      rcases hh with (hh | hh) | hh
      · rcases hm3.mp (Or.inl hh) with h2 | h2
        · exact Or.inl (Or.inl h2)
        · exact Or.inr h2
      · exact Or.inl (Or.inr hh)
      · rcases hm3.mp (Or.inr hh) with h2 | h2
        · exact Or.inl (Or.inl h2)
        · exact Or.inr h2
  refine ⟨⟨?_, ?_, ?_, ?_, ?_, ?_⟩, hval, hnt, hpt, hsizet, hlent⟩
  · rw [List.map_append, List.map_append, List.map_cons]
    exact hchainNew
  · rw [hfreet]
    have hcg : ∀ i ∈ fs, nxt t (.slot i) = nxt s (.slot i) := by
      intro i hi
      have hdisjf : ∀ j ∈ l1 ++ (r0 :: rr) ++ l2, j ∉ fs := fun j hj hjf =>
        (List.nodup_append.mp hndAll).2.2 hj hjf
      have hne : ∀ q, q ∈ Ptr.sent ::
          ((l1.map Ptr.slot ++ (Ptr.slot r0 :: rr.map Ptr.slot)) ++ l2.map Ptr.slot) →
          Ptr.slot i ≠ q := by
        intro q hq hc
        rcases List.mem_cons.mp hq with hq | hq
        · exact Ptr.noConfusion (hc.trans hq)
        · have : q ∈ ((l1 ++ (r0 :: rr)) ++ l2).map Ptr.slot := by
            rw [List.map_append, List.map_append, List.map_cons]
            exact hq
          rcases List.mem_map.mp this with ⟨j, hj, hje⟩
          have hji : j = i := slot_injective (hje.trans hc.symm)
          exact hdisjf j hj (by rw [hji]; exact hi)
      rw [hnt]
      rw [if_neg (hne _ (hmemR _ hTLmem)), if_neg (hne _ (hmem12 _ hB0mem)),
        if_neg (hne _ (hmem12 _ hA12))]
    rw [freeChainB_congr hcg]
    exact h.freec
  · rw [hlent]
    refine List.Perm.trans (List.Perm.append_right fs ?_) h.perm
    have e1 : m1 ++ (r0 :: rr) ++ m2 = m1 ++ ((r0 :: rr) ++ m2) := List.append_assoc _ _ _
    have e2 : l1 ++ (r0 :: rr) ++ l2 = l1 ++ ((r0 :: rr) ++ l2) := List.append_assoc _ _ _
    rw [e1, e2]
    refine List.Perm.trans (List.perm_append_comm_assoc _ _ _) ?_
    refine List.Perm.trans ?_ (List.perm_append_comm_assoc _ _ _).symm
    refine List.Perm.append_left _ ?_
    rw [← hm]
  · rw [hsizet, h.sizeEq]
    have hlm := congrArg List.length hm
    simp only [List.length_append] at hlm
    simp only [List.length_append, List.length_cons]
    omega
  · intro i hi
    rw [hval]
    exact h.vals i ((hmemiff i).mp hi)
  · intro i hi
    rw [hval]
    exact h.fvals i hi

/-- Forward-only walk: from `p`, following `next`, the slots `l` appear in
order and the walk ends at the sentinel.  This is exactly what the
`clear()` loop consumes. -/
def fwdB (s : ll_list_pool V) : Ptr → List Nat → Bool
  | p, [] => p == .sent
  | p, i :: l => p == .slot i && fwdB s (nxt s (.slot i)) l

theorem fwdB_congr {s s2 : ll_list_pool V} {l : List Nat}
    (h : ∀ i ∈ l, nxt s2 (.slot i) = nxt s (.slot i)) :
    ∀ p, fwdB s2 p l = fwdB s p l := by
  induction l with
  | nil => intro p; rfl
  | cons i l ih =>
    intro p
    have hi : nxt s2 (.slot i) = nxt s (.slot i) := h i (by simp)
    have ht : ∀ j ∈ l, nxt s2 (.slot j) = nxt s (.slot j) :=
      fun j hj => h j (List.mem_cons_of_mem i hj)
    simp [fwdB, hi, ih ht]

theorem segB_fwdB {s : ll_list_pool V} :
    ∀ (l : List Nat) (a : Ptr), segB (nxt s) (prv s) a (l.map Ptr.slot) = true →
      nxt s (lastD (l.map Ptr.slot) a) = .sent → fwdB s (nxt s a) l = true := by
  intro l
  induction l with
  | nil =>
    intro a _ hc
    simpa [fwdB] using hc
  | cons i l ih =>
    intro a hseg hlast
    rcases segB_cons.mp hseg with ⟨hna, _, hrest⟩
    have := ih (Ptr.slot i) hrest (by simpa using hlast)
    simp [fwdB, hna, this]

/-- The `clear()` loop: walking a forward chain `rest`, it destroys every
value on it and pushes each slot onto the free chain (reversing the
order), leaving every other value, the size and the slab length alone. -/
theorem clearLoop_spec :
    ∀ (rest : List Nat) (s : ll_list_pool V) (cur : Ptr) (fuel : Nat) (fs0 : List Nat),
      fwdB s cur rest = true →
      freeChainB s s.free fs0 = true →
      (∀ i ∈ rest, i ∉ fs0) →
      rest.Nodup →
      (∀ i ∈ rest, i < s.slab.length) →
      rest.length < fuel →
      freeChainB (clearLoop s cur fuel) (clearLoop s cur fuel).free
          (rest.reverse ++ fs0) = true ∧
        (∀ i ∈ rest, val (clearLoop s cur fuel) (.slot i) = none) ∧
        (∀ i, i ∉ rest → val (clearLoop s cur fuel) (.slot i) = val s (.slot i)) ∧
        (clearLoop s cur fuel).size = s.size ∧
        (clearLoop s cur fuel).slab.length = s.slab.length := by
  intro rest
  induction rest with
  | nil =>
    intro s cur fuel fs0 hfwd hfree _ _ _ hfuel
    cases fuel with
    | zero => omega
    | succ f =>
      have hcur : cur = Ptr.sent := by simpa [fwdB] using hfwd
      subst hcur
      show freeChainB (clearLoop s .sent (f + 1)) _ _ = true ∧ _
      rw [clearLoop, if_pos rfl]
      exact ⟨by simpa using hfree, by simp, fun i _ => rfl, rfl, rfl⟩
  | cons i rest ih =>
    intro s cur fuel fs0 hfwd hfree hdisj hnd hlt hfuel
    cases fuel with
    | zero => simp at hfuel
    | succ f =>
      have hcur : cur = Ptr.slot i ∧ fwdB s (nxt s (.slot i)) rest = true := by
        rw [fwdB] at hfwd
        simp only [Bool.and_eq_true, beq_iff_eq] at hfwd
        exact hfwd
      rcases hcur with ⟨rfl, hfwd2⟩
      have hilt : i < s.slab.length := hlt i (by simp)
      have hifs0 : i ∉ fs0 := hdisj i (by simp)
      have hirest : i ∉ rest := (List.nodup_cons.mp hnd).1
      rw [clearLoop, if_neg (fun hc => Ptr.noConfusion hc)]
      set s1 : ll_list_pool V := setVal s (.slot i) none with hs1
      set s2 : ll_list_pool V := free_node s1 (.slot i) with hs2
      have hn2 : ∀ q, nxt s2 q = if q = .slot i then s.free else nxt s q := by
        intro q
        rw [hs2]
        show nxt { setNext s1 (.slot i) s1.free with free := .slot i } q = _
        rw [nxt_updFree]
        rcases eq_or_ne q (Ptr.slot i) with h1 | h1
        · rw [if_pos h1, h1,
            nxt_setNext_self _ _ (by rw [hs1, validB_setVal]; simp [validB, hilt])]
          rw [hs1, setVal_free]
        · rw [if_neg h1, nxt_setNext_ne _ _ h1, hs1, nxt_setVal]
      have hv2 : ∀ q, q ≠ .slot i → val s2 q = val s q := by
        intro q hq
        rw [hs2]
        show val { setNext s1 (.slot i) s1.free with free := .slot i } q = _
        rw [val_updFree, val_setNext, hs1, val_setVal_ne _ _ hq]
      have hv2i : val s2 (.slot i) = none := by
        rw [hs2]
        show val { setNext s1 (.slot i) s1.free with free := .slot i } (.slot i) = _
        rw [val_updFree, val_setNext, hs1]
        exact val_setVal_self s none hilt
      have hfree2 : s2.free = Ptr.slot i := by
        rw [hs2]
        rfl
      have hlen2 : s2.slab.length = s.slab.length := by
        rw [hs2]
        show (setNext s1 (.slot i) s1.free).slab.length = s.slab.length
        rw [setNext_slabLen, hs1, setVal_slabLen]
      have hsize2 : s2.size = s.size := by
        rw [hs2]
        show (setNext s1 (.slot i) s1.free).size = s.size
        rw [setNext_size, hs1, setVal_size]
      have hcg2 : ∀ j ∈ rest, nxt s2 (.slot j) = nxt s (.slot j) := by
        intro j hj
        rw [hn2]
        exact if_neg (fun hc => hirest (by rw [← slot_injective hc]; exact hj))
      have hcg3 : ∀ j ∈ fs0, nxt s2 (.slot j) = nxt s (.slot j) := by
        intro j hj
        rw [hn2]
        exact if_neg (fun hc => hifs0 (by rw [← slot_injective hc]; exact hj))
      have hfwd3 : fwdB s2 (nxt s (.slot i)) rest = true := by
        rw [fwdB_congr hcg2]
        exact hfwd2
      have hfree3 : freeChainB s2 s2.free (i :: fs0) = true := by
        refine freeChainB_cons.mpr ⟨hfree2, ?_⟩
        rw [hn2, if_pos rfl]
        rw [freeChainB_congr hcg3]
        exact hfree
      have hrec := ih s2 (nxt s (.slot i)) f (i :: fs0) hfwd3 hfree3
        (fun j hj hjm => by
          rcases List.mem_cons.mp hjm with hc | hc
          · exact hirest (hc ▸ hj)
          · exact hdisj j (List.mem_cons_of_mem i hj) hc)
        (List.nodup_cons.mp hnd).2
        (fun j hj => by rw [hlen2]; exact hlt j (List.mem_cons_of_mem i hj))
        (by simpa using Nat.lt_of_succ_lt_succ hfuel)
      have hrev : (i :: rest).reverse ++ fs0 = rest.reverse ++ (i :: fs0) := by
        simp
      refine ⟨?_, ?_, ?_, ?_, ?_⟩
      · rw [hrev]
        exact hrec.1
      · intro j hj
        rcases List.mem_cons.mp hj with rfl | hj
        · rw [hrec.2.2.1 j hirest, hv2i]
        · exact hrec.2.1 j hj
      · intro j hj
        have hji : j ≠ i := fun hc => hj (hc ▸ List.mem_cons_self i rest)
        have hjrest : j ∉ rest := fun hc => hj (List.mem_cons_of_mem i hc)
        rw [hrec.2.2.1 j hjrest, hv2 _ (fun hc => hji (slot_injective hc))]
      · rw [hrec.2.2.2.1, hsize2]
      · rw [hrec.2.2.2.2, hlen2]

/-- `clear()` on a well-formed list: every value destroyed, every node on
the free chain (the walked elements in reverse order first), the sentinel
self-linked, the size zero. -/
theorem clear_spec (s : ll_list_pool V) {xs fs : List Nat} (h : Rep s xs fs) :
    Rep (clear s) [] (xs.reverse ++ fs) ∧
      (∀ i ∈ xs ++ fs, val (clear s) (.slot i) = none) ∧
      (clear s).size = 0 ∧
      prv (clear s) .sent = .sent ∧ nxt (clear s) .sent = .sent ∧
      (clear s).slab.length = s.slab.length := by
  have hchain := h.chain
  rcases cycleB_iff.mp hchain with ⟨hseg, hclose, _⟩
  have hfwd : fwdB s (nxt s .sent) xs = true := segB_fwdB xs .sent hseg hclose
  have hdisj : ∀ i ∈ xs, i ∉ fs := fun i hi hif =>
    (List.nodup_append.mp h.nodupAll).2.2 hi hif
  have hndxs : xs.Nodup := (List.nodup_append.mp h.nodupAll).1
  have hltxs : ∀ i ∈ xs, i < s.slab.length :=
    fun i hi => h.mem_lt i (List.mem_append.mpr (Or.inl hi))
  have hloop := clearLoop_spec xs s (nxt s .sent) (s.size + 1) fs hfwd h.freec
    hdisj hndxs hltxs (by rw [h.sizeEq]; omega)
  set t : ll_list_pool V := clearLoop s (nxt s .sent) (s.size + 1) with htdef
  set t2 : ll_list_pool V := setNext (setPrev t .sent .sent) .sent .sent with ht2
  have hop : clear s = { t2 with size := 0 } := by
    unfold clear
    rw [ht2, htdef]
  have hnt2 : ∀ q, q ≠ .sent → nxt t2 q = nxt t q := by
    intro q hq
    rw [ht2, nxt_setNext_ne _ _ hq, nxt_setPrev]
  have hvt2 : ∀ q, val t2 q = val t q := by
    intro q
    rw [ht2, val_setNext, val_setPrev]
  have hft2 : t2.free = t.free := by
    rw [ht2, setNext_free, setPrev_free]
  have hlent2 : t2.slab.length = t.slab.length := by
    rw [ht2, setNext_slabLen, setPrev_slabLen]
  have hsent_n : nxt t2 .sent = .sent := by
    have hv : validB (setPrev t .sent .sent) Ptr.sent = true := rfl
    rw [ht2, nxt_setNext_self _ _ hv]
  have hsent_p : prv t2 .sent = .sent := by
    have hv : validB t Ptr.sent = true := rfl
    rw [ht2, prv_setNext]
    exact prv_setPrev_self _ _ hv
  rw [hop]
  have hvala : ∀ i ∈ xs ++ fs, val { t2 with size := 0 } (.slot i) = none := by
    intro i hi
    rw [val_updSize, hvt2]
    rcases List.mem_append.mp hi with hi | hi
    · exact hloop.2.1 i hi
    · rw [hloop.2.2.1 i (fun hc => hdisj i hc hi)]
      exact h.fvals i hi
  refine ⟨⟨?_, ?_, ?_, ?_, ?_, ?_⟩, hvala, rfl, ?_, ?_, ?_⟩
  · refine cycleB_iff.mpr ⟨segB_nil _ _ _, ?_, ?_⟩
    · show nxt { t2 with size := 0 } .sent = .sent
      rw [nxt_updSize]
      exact hsent_n
    · show prv { t2 with size := 0 } .sent = .sent
      rw [prv_updSize]
      exact hsent_p
  · have hfr : ({ t2 with size := 0 } : ll_list_pool V).free = t.free := hft2
    have hcg : ∀ i ∈ xs.reverse ++ fs,
        nxt { t2 with size := 0 } (.slot i) = nxt t (.slot i) := by
      intro i _
      rw [nxt_updSize, hnt2 _ (fun hc => Ptr.noConfusion hc)]
    rw [freeChainB_congr hcg, hfr]
    exact hloop.1
  · show (([] : List Nat) ++ (xs.reverse ++ fs)).Perm
        (List.range ({ t2 with size := 0 } : ll_list_pool V).slab.length)
    have hlen : ({ t2 with size := 0 } : ll_list_pool V).slab.length = s.slab.length := by
      show t2.slab.length = s.slab.length
      rw [hlent2, hloop.2.2.2.2]
    rw [hlen]
    refine List.Perm.trans ?_ h.perm
    exact List.Perm.append_right fs (List.reverse_perm xs)
  · rfl
  · intro i hi
    simp at hi
  · intro i hi
    exact hvala i (by
      rcases List.mem_append.mp hi with hi | hi
      · exact List.mem_append.mpr (Or.inl (List.mem_reverse.mp hi))
      · exact List.mem_append.mpr (Or.inr hi))
  · show prv { t2 with size := 0 } .sent = .sent
    rw [prv_updSize]
    exact hsent_p
  · show nxt { t2 with size := 0 } .sent = .sent
    rw [nxt_updSize]
    exact hsent_n
  · show t2.slab.length = s.slab.length
    rw [hlent2, hloop.2.2.2.2]

/-- An emplace against an exhausted pool fails with PoolExhausted before
touching any state. -/
theorem emplace_exhausted (s : ll_list_pool V) (v : V) {xs : List Nat}
    (h : Rep s xs []) :
    emplace_back s v = Except.error .PoolExhausted ∧
      emplace_front s v = Except.error .PoolExhausted := by
  have hfree : s.free = .null := freeChainB_nil.mp h.freec
  constructor
  · unfold emplace_back alloc_node
    rw [if_pos hfree]
  · unfold emplace_front alloc_node
    rw [if_pos hfree]

end ll_list_pool


theorem get_set_self {α : Type} {l : List α} {i : Nat} {a : α} (h : i < l.length) :
    (l.set i a)[i]? = some a := by
  simp [List.getElem?_set_self', List.getElem?_eq_getElem h]

namespace intrusive_list

variable {P : Type}

/-- Pointer validity for the intrusive variant: the sentinel or an
in-range hook. -/
def validB (s : intrusive_list P) : Ptr → Bool
  | .sent => true
  | .null => false
  | .slot i => decide (i < s.heap.length)

@[simp] theorem setPrev_heapLen (s : intrusive_list P) (p q : Ptr) :
    (setPrev s p q).heap.length = s.heap.length := by
  cases p with
  | null => rfl
  | sent => rfl
  | slot i => cases hh : s.heap[i]? <;> simp [setPrev, hh]

@[simp] theorem setNext_heapLen (s : intrusive_list P) (p q : Ptr) :
    (setNext s p q).heap.length = s.heap.length := by
  cases p with
  | null => rfl
  | sent => rfl
  | slot i => cases hh : s.heap[i]? <;> simp [setNext, hh]

@[simp] theorem validB_setPrevH (s : intrusive_list P) (p q r : Ptr) :
    validB (setPrev s p q) r = validB s r := by
  cases r <;> simp [validB]

@[simp] theorem validB_setNextH (s : intrusive_list P) (p q r : Ptr) :
    validB (setNext s p q) r = validB s r := by
  cases r <;> simp [validB]

theorem lt_of_get_some {α : Type} {l : List α} {i : Nat} {a : α}
    (h : l[i]? = some a) : i < l.length := by
  by_contra hc
  rw [List.getElem?_eq_none (Nat.le_of_not_lt hc)] at h
  exact Option.noConfusion h

@[simp] theorem nxt_setPrevH (s : intrusive_list P) (p q r : Ptr) :
    nxt (setPrev s p q) r = nxt s r := by
  cases p with
  | null => rfl
  | sent => cases r <;> rfl
  | slot i =>
    cases hh : s.heap[i]? with
    | none => simp [setPrev, hh]
    | some h0 =>
      have hl : i < s.heap.length := lt_of_get_some hh
      cases r with
      | null => rfl
      | sent => simp [setPrev, hh, nxt]
      | slot j =>
        rcases eq_or_ne i j with he | he
        · subst he
          simp [setPrev, hh, nxt, get_set_self hl]
        · simp [setPrev, hh, nxt, List.getElem?_set_ne he]

@[simp] theorem prv_setNextH (s : intrusive_list P) (p q r : Ptr) :
    prv (setNext s p q) r = prv s r := by
  cases p with
  | null => rfl
  | sent => cases r <;> rfl
  | slot i =>
    cases hh : s.heap[i]? with
    | none => simp [setNext, hh]
    | some h0 =>
      have hl : i < s.heap.length := lt_of_get_some hh
      cases r with
      | null => rfl
      | sent => simp [setNext, hh, prv]
      | slot j =>
        rcases eq_or_ne i j with he | he
        · subst he
          simp [setNext, hh, prv, get_set_self hl]
        · simp [setNext, hh, prv, List.getElem?_set_ne he]

@[simp] theorem payload_setPrev (s : intrusive_list P) (p q : Ptr) (j : Nat) :
    payload (setPrev s p q) j = payload s j := by
  cases p with
  | null => rfl
  | sent => rfl
  | slot i =>
    cases hh : s.heap[i]? with
    | none => simp [setPrev, hh]
    | some h0 =>
      have hl : i < s.heap.length := lt_of_get_some hh
      rcases eq_or_ne i j with he | he
      · subst he
        simp [setPrev, hh, payload, get_set_self hl]
      · simp [setPrev, hh, payload, List.getElem?_set_ne he]

@[simp] theorem payload_setNext (s : intrusive_list P) (p q : Ptr) (j : Nat) :
    payload (setNext s p q) j = payload s j := by
  cases p with
  | null => rfl
  | sent => rfl
  | slot i =>
    cases hh : s.heap[i]? with
    | none => simp [setNext, hh]
    | some h0 =>
      have hl : i < s.heap.length := lt_of_get_some hh
      rcases eq_or_ne i j with he | he
      · subst he
        simp [setNext, hh, payload, get_set_self hl]
      · simp [setNext, hh, payload, List.getElem?_set_ne he]

theorem prv_setPrev_selfH (s : intrusive_list P) {p : Ptr} (q : Ptr)
    (h : validB s p = true) : prv (setPrev s p q) p = q := by
  cases p with
  | null => simp [validB] at h
  | sent => rfl
  | slot i =>
    have hl : i < s.heap.length := by simpa [validB] using h
    have hh : s.heap[i]? = some (s.heap.get ⟨i, hl⟩) := List.getElem?_eq_getElem hl
    simp [setPrev, hh, prv, get_set_self hl]

theorem prv_setPrev_neH (s : intrusive_list P) {p r : Ptr} (q : Ptr)
    (h : r ≠ p) : prv (setPrev s p q) r = prv s r := by
  cases p with
  | null => rfl
  | sent =>
    cases r with
    | sent => exact absurd rfl h
    | null => rfl
    | slot j => rfl
  | slot i =>
    cases hh : s.heap[i]? with
    | none => simp [setPrev, hh]
    | some h0 =>
      cases r with
      | null => rfl
      | sent => simp [setPrev, hh, prv]
      | slot j =>
        have hij : i ≠ j := fun hc => h (congrArg Ptr.slot hc.symm)
        simp [setPrev, hh, prv, List.getElem?_set_ne hij]

theorem nxt_setNext_selfH (s : intrusive_list P) {p : Ptr} (q : Ptr)
    (h : validB s p = true) : nxt (setNext s p q) p = q := by
  cases p with
  | null => simp [validB] at h
  | sent => rfl
  | slot i =>
    have hl : i < s.heap.length := by simpa [validB] using h
    have hh : s.heap[i]? = some (s.heap.get ⟨i, hl⟩) := List.getElem?_eq_getElem hl
    simp [setNext, hh, nxt, get_set_self hl]

theorem nxt_setNext_neH (s : intrusive_list P) {p r : Ptr} (q : Ptr)
    (h : r ≠ p) : nxt (setNext s p q) r = nxt s r := by
  cases p with
  | null => rfl
  | sent =>
    cases r with
    | sent => exact absurd rfl h
    | null => rfl
    | slot j => rfl
  | slot i =>
    cases hh : s.heap[i]? with
    | none => simp [setNext, hh]
    | some h0 =>
      cases r with
      | null => rfl
      | sent => simp [setNext, hh, nxt]
      | slot j =>
        have hij : i ≠ j := fun hc => h (congrArg Ptr.slot hc.symm)
        simp [setNext, hh, nxt, List.getElem?_set_ne hij]

end intrusive_list

namespace intrusive_list

variable {P : Type}

theorem validB_of_lenH {s t : intrusive_list P} (hl : t.heap.length = s.heap.length)
    (r : Ptr) : validB t r = validB s r := by
  cases r <;> simp [validB, hl]

/-- Forward reads after `link_between(x, a, b)`: `a` points at `x`, `x`
points at `b`, everything else is untouched. -/
theorem link_between_nxtH (s : intrusive_list P) {x a : Ptr} (b r : Ptr)
    (hvx : validB s x = true) (hva : validB s a = true) (hxa : x ≠ a) :
    nxt (link_between s x a b) r = if r = a then x else if r = x then b else nxt s r := by
  have hv1 : validB (setPrev s x a) x = true := by simpa using hvx
  have hv2 : validB (setNext (setPrev s x a) x b) a = true := by simpa using hva
  unfold link_between
  rcases eq_or_ne r a with h1 | h1
  · subst h1
    rw [nxt_setPrevH, nxt_setNext_selfH _ x hv2, if_pos rfl]
  · rw [if_neg h1, nxt_setPrevH, nxt_setNext_neH _ x h1]
    rcases eq_or_ne r x with h2 | h2
    · subst h2
      rw [nxt_setNext_selfH _ b hv1, if_pos rfl]
    · rw [if_neg h2, nxt_setNext_neH _ b h2, nxt_setPrevH]

/-- Backward reads after `link_between(x, a, b)`: `b` points back at `x`,
`x` points back at `a`, everything else is untouched. -/
theorem link_between_prvH (s : intrusive_list P) {x b : Ptr} (a r : Ptr)
    (hvx : validB s x = true) (hvb : validB s b = true) (hxb : x ≠ b) :
    prv (link_between s x a b) r = if r = b then x else if r = x then a else prv s r := by
  have hv3 : validB (setNext (setNext (setPrev s x a) x b) a x) b = true := by simpa using hvb
  unfold link_between
  rcases eq_or_ne r b with h1 | h1
  · subst h1
    rw [prv_setPrev_selfH _ x hv3, if_pos rfl]
  · rw [if_neg h1, prv_setPrev_neH _ x h1, prv_setNextH, prv_setNextH]
    rcases eq_or_ne r x with h2 | h2
    · subst h2
      rw [prv_setPrev_selfH _ a (by simpa using hvx), if_pos rfl]
    · rw [if_neg h2, prv_setPrev_neH _ a h2]

@[simp] theorem link_between_payload (s : intrusive_list P) (x a b : Ptr) (j : Nat) :
    payload (link_between s x a b) j = payload s j := by
  unfold link_between
  rw [payload_setPrev, payload_setNext, payload_setNext, payload_setPrev]

@[simp] theorem link_between_heapLen (s : intrusive_list P) (x a b : Ptr) :
    (link_between s x a b).heap.length = s.heap.length := by
  unfold link_between; simp

theorem is_linked_iff {s : intrusive_list P} {h : Ptr} :
    is_linked s h = true ↔ prv s h ≠ .null ∧ nxt s h ≠ .null := by
  simp [is_linked]

theorem is_linked_false_of_prv_null {s : intrusive_list P} {h : Ptr}
    (hp : prv s h = .null) : is_linked s h = false := by
  simp [is_linked, hp]

/-- `unlink(x)` of a hook that is not linked: the early return leaves the
state byte for byte unchanged. -/
theorem unlink_not_linked (s : intrusive_list P) (x : Ptr)
    (h : is_linked s x = false) : unlink s x = s := by
  rw [unlink, if_pos h]

/-- Forward reads after `unlink(x)` of a linked hook: `x`'s own forward
link is nulled, the node before `x` points past it, everything else is
untouched. -/
theorem unlink_nxt_linked (s : intrusive_list P) {x : Ptr} (r : Ptr)
    (hL : is_linked s x = true) (hvx : validB s x = true)
    (hva : validB s (prv s x) = true) (hax : x ≠ prv s x) :
    nxt (unlink s x) r =
      if r = x then .null else if r = prv s x then nxt s x else nxt s r := by
  rw [unlink, if_neg (by simp [hL])]
  show nxt (setNext (setPrev
      (setPrev (setNext s (prv s x) (nxt s x))
        (nxt (setNext s (prv s x) (nxt s x)) x)
        (prv (setNext s (prv s x) (nxt s x)) x)) x .null) x .null) r = _
  have e1 : nxt (setNext s (prv s x) (nxt s x)) x = nxt s x := nxt_setNext_neH _ _ hax
  have e2 : prv (setNext s (prv s x) (nxt s x)) x = prv s x := prv_setNextH s _ _ x
  rw [e1, e2]
  rcases eq_or_ne r x with h1 | h1
  · subst h1
    have hv : validB (setPrev (setPrev (setNext s (prv s r) (nxt s r))
        (nxt s r) (prv s r)) r .null) r = true := by simpa using hvx
    rw [nxt_setNext_selfH _ _ hv, if_pos rfl]
  · rw [if_neg h1, nxt_setNext_neH _ _ h1, nxt_setPrevH, nxt_setPrevH]
    rcases eq_or_ne r (prv s x) with h2 | h2
    · subst h2
      rw [nxt_setNext_selfH _ _ hva, if_pos rfl]
    · rw [if_neg h2, nxt_setNext_neH _ _ h2]

/-- Backward reads after `unlink(x)` of a linked hook: `x`'s own backward
link is nulled, the node after `x` points back past it, everything else is
untouched. -/
theorem unlink_prv_linked (s : intrusive_list P) {x : Ptr} (r : Ptr)
    (hL : is_linked s x = true) (hvx : validB s x = true)
    (hvb : validB s (nxt s x) = true) (hax : x ≠ prv s x) :
    prv (unlink s x) r =
      if r = x then .null else if r = nxt s x then prv s x else prv s r := by
  rw [unlink, if_neg (by simp [hL])]
  show prv (setNext (setPrev
      (setPrev (setNext s (prv s x) (nxt s x))
        (nxt (setNext s (prv s x) (nxt s x)) x)
        (prv (setNext s (prv s x) (nxt s x)) x)) x .null) x .null) r = _
  have e1 : nxt (setNext s (prv s x) (nxt s x)) x = nxt s x := nxt_setNext_neH _ _ hax
  have e2 : prv (setNext s (prv s x) (nxt s x)) x = prv s x := prv_setNextH s _ _ x
  rw [e1, e2, prv_setNextH]
  rcases eq_or_ne r x with h1 | h1
  · subst h1
    have hv : validB (setPrev (setNext s (prv s r) (nxt s r))
        (nxt s r) (prv s r)) r = true := by simpa using hvx
    rw [prv_setPrev_selfH _ _ hv, if_pos rfl]
  · rw [if_neg h1, prv_setPrev_neH _ _ h1]
    rcases eq_or_ne r (nxt s x) with h2 | h2
    · subst h2
      rw [prv_setPrev_selfH _ _ (by simpa using hvb), if_pos rfl]
    · rw [if_neg h2, prv_setPrev_neH _ _ h2, prv_setNextH]

@[simp] theorem unlink_payload (s : intrusive_list P) (x : Ptr) (j : Nat) :
    payload (unlink s x) j = payload s j := by
  rw [unlink]
  split
  · rfl
  · simp

@[simp] theorem unlink_heapLen (s : intrusive_list P) (x : Ptr) :
    (unlink s x).heap.length = s.heap.length := by
  rw [unlink]
  split
  · rfl
  · simp

end intrusive_list

/-- Following the backward link and then the forward link of any node of a
cycle comes back to the node. -/
theorem cycle_nxt_prv {n p : Ptr → Ptr} {L : List Ptr} (h : cycleB n p L = true) :
    ∀ q ∈ Ptr.sent :: L, n (p q) = q := by
  intro q hq
  rcases List.mem_cons.mp hq with hq | hq
  · subst hq
    rw [cycle_prv_sent h]
    exact (cycleB_iff.mp h).2.1
  · rcases List.append_of_mem hq with ⟨L1, L2, rfl⟩
    rw [(cycle_mem_reads h).1]
    have h2 : cycleB n p (L1 ++ q :: L2) = true := h
    simpa using (cycle_seam h2).1

/-- The backward read at any node of a cycle stays inside the cycle. -/
theorem cycle_prv_mem {n p : Ptr → Ptr} {L : List Ptr} (h : cycleB n p L = true) :
    ∀ q ∈ Ptr.sent :: L, p q ∈ Ptr.sent :: L := by
  intro q hq
  rcases List.mem_cons.mp hq with hq | hq
  · subst hq
    rw [cycle_prv_sent h]
    exact lastD_mem_cons L .sent
  · rcases List.append_of_mem hq with ⟨L1, L2, rfl⟩
    rw [(cycle_mem_reads h).1]
    rcases List.mem_cons.mp (lastD_mem_cons L1 .sent) with hm | hm
    · rw [hm]; exact List.mem_cons_self _ _
    · exact List.mem_cons_of_mem _ (List.mem_append.mpr (Or.inl hm))

/-- The forward read at any node of a cycle stays inside the cycle. -/
theorem cycle_nxt_mem {n p : Ptr → Ptr} {L : List Ptr} (h : cycleB n p L = true) :
    ∀ q ∈ Ptr.sent :: L, n q ∈ Ptr.sent :: L := by
  intro q hq
  rcases List.mem_cons.mp hq with hq | hq
  · subst hq
    rw [cycle_nxt_sent h]
    exact firstD_mem_cons L .sent
  · rcases List.append_of_mem hq with ⟨L1, L2, rfl⟩
    rw [(cycle_mem_reads h).2]
    rcases List.mem_cons.mp (firstD_mem_cons L2 .sent) with hm | hm
    · rw [hm]; exact List.mem_cons_self _ _
    · exact List.mem_cons_of_mem _
        (List.mem_append.mpr (Or.inr (List.mem_cons_of_mem _ hm)))

/-- A pointer of the sentinel-rooted chain is never the null pointer. -/
theorem ne_null_of_mem_chain {L : List Nat} {q : Ptr}
    (h : q ∈ Ptr.sent :: L.map Ptr.slot) : q ≠ .null := by
  rcases List.mem_cons.mp h with h | h
  · rw [h]; exact fun hc => Ptr.noConfusion hc
  · rcases List.mem_map.mp h with ⟨i, _, rfl⟩
    exact fun hc => Ptr.noConfusion hc

namespace intrusive_list

variable {P : Type}

/-- Representation invariant of `intrusive_list`: `xs` lists the heap
indices of the linked hooks in list order; their hooks form the circular
chain around the sentinel, and the hook of every other heap index has both
link fields null (the value-initialised, unlinked state). -/
structure RepH (s : intrusive_list P) (xs : List Nat) : Prop where
  chain : cycleB (nxt s) (prv s) (xs.map Ptr.slot) = true
  bound : ∀ i ∈ xs, i < s.heap.length
  nodup : xs.Nodup
  offNull : ∀ i, i ∉ xs → prv s (.slot i) = .null ∧ nxt s (.slot i) = .null

theorem RepH.ptrNodupH {s : intrusive_list P} {xs : List Nat} (h : RepH s xs) :
    (Ptr.sent :: xs.map Ptr.slot).Nodup := by
  refine List.nodup_cons.mpr ⟨?_, ?_⟩
  · intro hc
    rcases List.mem_map.mp hc with ⟨i, _, hi⟩
    cases hi
  · exact h.nodup.map ll_list_pool.slot_injective

theorem RepH.valid_memH {s : intrusive_list P} {xs : List Nat} (h : RepH s xs) :
    ∀ i ∈ xs, validB s (.slot i) = true := by
  intro i hi
  simpa [validB] using h.bound i hi

theorem RepH.chain_validH {s : intrusive_list P} {xs : List Nat} (h : RepH s xs) :
    ∀ q ∈ Ptr.sent :: xs.map Ptr.slot, validB s q = true := by
  intro q hq
  rcases List.mem_cons.mp hq with hq | hq
  · rw [hq]; rfl
  · rcases List.mem_map.mp hq with ⟨i, hi, rfl⟩
    exact h.valid_memH i hi

/-- A freshly constructed intrusive list: sentinel self-linked, every hook
unlinked, every payload as supplied. -/
theorem construct_unlinked (hosts : List P) (i : Nat) :
    prv (construct hosts) (.slot i) = .null ∧ nxt (construct hosts) (.slot i) = .null := by
  have hm : (construct hosts).heap[i]? =
      (hosts[i]?).map fun p => (⟨.null, .null, p⟩ : HookObj P) := by
    simp [construct]
  cases hh : hosts[i]? with
  | none => rw [hh] at hm; simp [prv, nxt, hm]
  | some p0 => rw [hh] at hm; simp [prv, nxt, hm]

theorem construct_payload (hosts : List P) (i : Nat) :
    payload (construct hosts) i = hosts[i]? := by
  have hm : (construct hosts).heap[i]? =
      (hosts[i]?).map fun p => (⟨.null, .null, p⟩ : HookObj P) := by
    simp [construct]
  cases hh : hosts[i]? with
  | none => rw [hh] at hm; simp [payload, hm]
  | some p0 => rw [hh] at hm; simp [payload, hm]

theorem construct_repH (hosts : List P) : RepH (construct hosts) [] := by
  refine ⟨rfl, by simp, List.nodup_nil, ?_⟩
  intro i _
  exact construct_unlinked hosts i

/-- `push_front` of a fresh unlinked hook: the hook becomes the first
element and is linked afterwards; no payload moves. -/
theorem push_front_spec (s : intrusive_list P) {xs : List Nat} {x : Nat}
    (h : RepH s xs) (hx : x ∉ xs) (hl : x < s.heap.length) :
    RepH (push_front s (.slot x)) (x :: xs) ∧
      is_linked (push_front s (.slot x)) (.slot x) = true ∧
      (∀ j, payload (push_front s (.slot x)) j = payload s j) ∧
      (push_front s (.slot x)).heap.length = s.heap.length := by
  have hb : s.snext = firstD (xs.map Ptr.slot) .sent := cycle_nxt_sent h.chain
  have hxmem : Ptr.slot x ∉ Ptr.sent :: xs.map Ptr.slot := by
    intro hc
    rcases List.mem_cons.mp hc with hc | hc
    · exact Ptr.noConfusion hc
    · rcases List.mem_map.mp hc with ⟨j, hj, hje⟩
      exact hx (ll_list_pool.slot_injective hje ▸ hj)
  have hbmem : s.snext ∈ Ptr.sent :: xs.map Ptr.slot := by
    rw [hb]; exact firstD_mem_cons _ _
  have hvx : validB s (.slot x) = true := by simpa [validB] using hl
  have hxa : Ptr.slot x ≠ Ptr.sent := fun hc => Ptr.noConfusion hc
  have hxb : Ptr.slot x ≠ s.snext := ne_of_mem_of_not_mem hbmem hxmem |>.symm
  have hop : push_front s (.slot x) = link_between s (.slot x) .sent s.snext := rfl
  have hmn : ∀ r, nxt (push_front s (.slot x)) r =
      if r = .sent then .slot x else if r = .slot x then s.snext else nxt s r := by
    intro r
    rw [hop, link_between_nxtH s s.snext r hvx (show validB s Ptr.sent = true from rfl) hxa]
  have hmp : ∀ r, prv (push_front s (.slot x)) r =
      if r = s.snext then .slot x else if r = .slot x then .sent else prv s r := by
    intro r
    rw [hop, link_between_prvH s .sent r hvx (h.chain_validH _ hbmem) hxb]
  have hchain : cycleB (nxt (push_front s (.slot x))) (prv (push_front s (.slot x)))
      ((x :: xs).map Ptr.slot) = true := by
    rw [List.map_cons]
    have hins := @cycle_insert (nxt s) (prv s)
      (nxt (push_front s (.slot x))) (prv (push_front s (.slot x)))
      [] (xs.map Ptr.slot) (Ptr.slot x)
      (by simpa using h.chain) (by simpa using h.ptrNodupH)
      (by simpa using hxmem) hxa ?_ ?_ ?_ ?_
    · simpa using hins
    · rw [hmn, if_neg hxa, if_pos rfl, hb]
    · rw [hmp, if_neg hxb, if_pos rfl]; rfl
    · intro r hr
      rw [hmn, lastD_nil]
      rcases eq_or_ne r .sent with h1 | h1
      · rw [if_pos h1, if_pos h1]
      · rw [if_neg h1, if_neg h1, if_neg hr]
    · intro r hr
      rw [hmp, hb]
      rcases eq_or_ne r (firstD (xs.map Ptr.slot) .sent) with h1 | h1
      · rw [if_pos h1, if_pos h1]
      · rw [if_neg h1, if_neg h1, if_neg hr]
  have hlen : (push_front s (.slot x)).heap.length = s.heap.length := by
    rw [hop, link_between_heapLen]
  refine ⟨⟨hchain, ?_, List.nodup_cons.mpr ⟨hx, h.nodup⟩, ?_⟩, ?_, ?_, hlen⟩
  · intro i hi
    rw [hlen]
    rcases List.mem_cons.mp hi with hi | hi
    · rw [hi]; exact hl
    · exact h.bound i hi
  · intro i hi
    have hix : i ≠ x := fun hc => hi (hc ▸ List.mem_cons_self i xs)
    have hixs : i ∉ xs := fun hc => hi (List.mem_cons_of_mem x hc)
    have hslot : Ptr.slot i ≠ Ptr.slot x := fun hc => hix (ll_list_pool.slot_injective hc)
    have himem : Ptr.slot i ∉ Ptr.sent :: xs.map Ptr.slot := by
      intro hc
      rcases List.mem_cons.mp hc with hc | hc
      · exact Ptr.noConfusion hc
      · rcases List.mem_map.mp hc with ⟨j, hj, hje⟩
        exact hixs (ll_list_pool.slot_injective hje ▸ hj)
    constructor
    · rw [hmp, if_neg (ne_of_mem_of_not_mem hbmem himem).symm, if_neg hslot]
      exact (h.offNull i hixs).1
    · rw [hmn, if_neg (fun hc => Ptr.noConfusion hc), if_neg hslot]
      exact (h.offNull i hixs).2
  · rw [is_linked]
    have h1 : prv (push_front s (.slot x)) (.slot x) = .sent := by
      rw [hmp, if_neg hxb, if_pos rfl]
    have h2 : nxt (push_front s (.slot x)) (.slot x) = s.snext := by
      rw [hmn, if_neg hxa, if_pos rfl]
    rw [h1, h2]
    simp [ne_null_of_mem_chain hbmem]
  · intro j
    rw [hop, link_between_payload]

/-- `push_back` of a fresh unlinked hook: the hook becomes the last
element and is linked afterwards; no payload moves. -/
theorem push_back_spec (s : intrusive_list P) {xs : List Nat} {x : Nat}
    (h : RepH s xs) (hx : x ∉ xs) (hl : x < s.heap.length) :
    RepH (push_back s (.slot x)) (xs ++ [x]) ∧
      is_linked (push_back s (.slot x)) (.slot x) = true ∧
      (∀ j, payload (push_back s (.slot x)) j = payload s j) ∧
      (push_back s (.slot x)).heap.length = s.heap.length := by
  have ha : s.sprev = lastD (xs.map Ptr.slot) .sent := cycle_prv_sent h.chain
  have hxmem : Ptr.slot x ∉ Ptr.sent :: xs.map Ptr.slot := by
    intro hc
    rcases List.mem_cons.mp hc with hc | hc
    · exact Ptr.noConfusion hc
    · rcases List.mem_map.mp hc with ⟨j, hj, hje⟩
      exact hx (ll_list_pool.slot_injective hje ▸ hj)
  have hamem : s.sprev ∈ Ptr.sent :: xs.map Ptr.slot := by
    rw [ha]; exact lastD_mem_cons _ _
  have hvx : validB s (.slot x) = true := by simpa [validB] using hl
  have hxb : Ptr.slot x ≠ Ptr.sent := fun hc => Ptr.noConfusion hc
  have hxa : Ptr.slot x ≠ s.sprev := ne_of_mem_of_not_mem hamem hxmem |>.symm
  have hop : push_back s (.slot x) = link_between s (.slot x) s.sprev .sent := rfl
  have hmn : ∀ r, nxt (push_back s (.slot x)) r =
      if r = s.sprev then .slot x else if r = .slot x then .sent else nxt s r := by
    intro r
    rw [hop, link_between_nxtH s .sent r hvx (h.chain_validH _ hamem) hxa]
  have hmp : ∀ r, prv (push_back s (.slot x)) r =
      if r = .sent then .slot x else if r = .slot x then s.sprev else prv s r := by
    intro r
    rw [hop, link_between_prvH s s.sprev r hvx (show validB s Ptr.sent = true from rfl) hxb]
  have hchain : cycleB (nxt (push_back s (.slot x))) (prv (push_back s (.slot x)))
      ((xs ++ [x]).map Ptr.slot) = true := by
    rw [List.map_append]
    have hins := @cycle_insert (nxt s) (prv s)
      (nxt (push_back s (.slot x))) (prv (push_back s (.slot x)))
      (xs.map Ptr.slot) [] (Ptr.slot x)
      (by simpa using h.chain) (by simpa using h.ptrNodupH)
      (by simpa using hxmem) hxb ?_ ?_ ?_ ?_
    · simpa using hins
    · rw [hmn, if_neg hxa, if_pos rfl]; rfl
    · rw [hmp, if_neg hxb, if_pos rfl, ha]
    · intro r hr
      rw [hmn, ← ha]
      rcases eq_or_ne r s.sprev with h1 | h1
      · rw [if_pos h1, if_pos h1]
      · rw [if_neg h1, if_neg h1, if_neg hr]
    · intro r hr
      rw [hmp, firstD_nil]
      rcases eq_or_ne r .sent with h1 | h1
      · rw [if_pos h1, if_pos h1]
      · rw [if_neg h1, if_neg h1, if_neg hr]
  have hlen : (push_back s (.slot x)).heap.length = s.heap.length := by
    rw [hop, link_between_heapLen]
  refine ⟨⟨hchain, ?_, ?_, ?_⟩, ?_, ?_, hlen⟩
  · intro i hi
    rw [hlen]
    rcases List.mem_append.mp hi with hi | hi
    · exact h.bound i hi
    · rw [List.mem_singleton.mp hi]; exact hl
  · rw [List.nodup_append]
    exact ⟨h.nodup, List.nodup_singleton x,
      fun a ha hb => hx (List.mem_singleton.mp hb ▸ ha)⟩
  · intro i hi
    have hix : i ≠ x := fun hc => hi (List.mem_append.mpr (Or.inr (by simp [hc])))
    have hixs : i ∉ xs := fun hc => hi (List.mem_append.mpr (Or.inl hc))
    have hslot : Ptr.slot i ≠ Ptr.slot x := fun hc => hix (ll_list_pool.slot_injective hc)
    have himem : Ptr.slot i ∉ Ptr.sent :: xs.map Ptr.slot := by
      intro hc
      rcases List.mem_cons.mp hc with hc | hc
      · exact Ptr.noConfusion hc
      · rcases List.mem_map.mp hc with ⟨j, hj, hje⟩
        exact hixs (ll_list_pool.slot_injective hje ▸ hj)
    constructor
    · rw [hmp, if_neg (fun hc => Ptr.noConfusion hc), if_neg hslot]
      exact (h.offNull i hixs).1
    · rw [hmn, if_neg (ne_of_mem_of_not_mem hamem himem).symm, if_neg hslot]
      exact (h.offNull i hixs).2
  · rw [is_linked]
    have h1 : prv (push_back s (.slot x)) (.slot x) = s.sprev := by
      rw [hmp, if_neg hxb, if_pos rfl]
    have h2 : nxt (push_back s (.slot x)) (.slot x) = .sent := by
      rw [hmn, if_neg hxa, if_pos rfl]
    rw [h1, h2]
    simp [ne_null_of_mem_chain hamem]
  · intro j
    rw [hop, link_between_payload]

end intrusive_list

/-- Identification of the pre-call predecessor of the destination inside a
cycle: when the destination `pos` (head of `m2` in the remainder split) is
not preceded by the moved element `x` itself, its predecessor is already
the tail of `m1`. -/
theorem chain_prv_pos {n p : Ptr → Ptr} {u v m1 m2 : List Nat} {x : Nat} {pos : Ptr}
    (hchain : cycleB n p (u.map Ptr.slot ++ Ptr.slot x :: v.map Ptr.slot) = true)
    (hm : u ++ v = m1 ++ m2)
    (hpos : pos = firstD (m2.map Ptr.slot) .sent)
    (hCx : p pos ≠ .slot x) :
    p pos = lastD (m1.map Ptr.slot) .sent := by
  cases m2 with
  | nil =>
    have hpos2 : pos = Ptr.sent := by simpa using hpos
    subst hpos2
    have hlast : p .sent =
        lastD (u.map Ptr.slot ++ Ptr.slot x :: v.map Ptr.slot) .sent :=
      cycle_prv_sent hchain
    rcases List.eq_nil_or_concat v with rfl | ⟨w, lv, hv⟩
    · exfalso
      apply hCx
      rw [hlast]
      rw [lastD_append]
      rfl
    · rw [List.concat_eq_append] at hv
      subst hv
      have hm1 : m1 = u ++ (w ++ [lv]) := by simpa using hm.symm
      subst hm1
      rw [hlast]
      rw [lastD_append, List.map_append, List.map_append]
      simp [lastD_append]
  | cons c m2' =>
    have hpos2 : pos = Ptr.slot c := by simpa using hpos
    subst hpos2
    rcases List.append_eq_append_iff.mp hm with ⟨w, hw1, hw2⟩ | ⟨w, hw1, hw2⟩
    · subst hw1
      subst hw2
      rcases List.eq_nil_or_concat w with rfl | ⟨w2, lw, hw⟩
      · exfalso
        apply hCx
        have hsplit : u.map Ptr.slot ++ Ptr.slot x :: ([] ++ c :: m2').map Ptr.slot =
            (u.map Ptr.slot ++ [Ptr.slot x]) ++ Ptr.slot c :: m2'.map Ptr.slot := by
          simp
        rw [hsplit] at hchain
        have := (cycle_mem_reads hchain).1
        rw [this]
        simp
      · rw [List.concat_eq_append] at hw
        subst hw
        have hsplit : u.map Ptr.slot ++ Ptr.slot x :: ((w2 ++ [lw]) ++ c :: m2').map Ptr.slot
            = (u.map Ptr.slot ++ Ptr.slot x :: (w2.map Ptr.slot ++ [Ptr.slot lw])) ++
              Ptr.slot c :: m2'.map Ptr.slot := by
          simp
        rw [hsplit] at hchain
        have := (cycle_mem_reads hchain).1
        rw [this]
        rw [lastD_append, List.map_append, List.map_append]
        simp [lastD_append]
    · subst hw1
      cases w with
      | nil =>
        exfalso
        apply hCx
        have hv : v = c :: m2' := by simpa using hw2.symm
        subst hv
        have hsplit : (m1 ++ []).map Ptr.slot ++ Ptr.slot x :: (c :: m2').map Ptr.slot =
            ((m1 ++ []).map Ptr.slot ++ [Ptr.slot x]) ++ Ptr.slot c :: m2'.map Ptr.slot := by
          simp
        rw [hsplit] at hchain
        have := (cycle_mem_reads hchain).1
        rw [this]
        simp
      | cons cw w2 =>
        have hw2a : c :: m2' = cw :: (w2 ++ v) := by simpa using hw2
        injection hw2a with h1 _
        rw [h1]
        have hsplit : (m1 ++ cw :: w2).map Ptr.slot ++ Ptr.slot x :: v.map Ptr.slot =
            m1.map Ptr.slot ++ Ptr.slot cw ::
              (w2.map Ptr.slot ++ Ptr.slot x :: v.map Ptr.slot) := by
          simp
        rw [hsplit] at hchain
        exact (cycle_mem_reads hchain).1

namespace intrusive_list

variable {P : Type}

theorem old_prv_posH (s : intrusive_list P) {xs u v m1 m2 : List Nat} {x : Nat} {pos : Ptr}
    (h : RepH s xs) (hxs : xs = u ++ x :: v) (hm : u ++ v = m1 ++ m2)
    (hpos : pos = firstD (m2.map Ptr.slot) .sent)
    (hCx : prv s pos ≠ .slot x) :
    prv s pos = lastD (m1.map Ptr.slot) .sent := by
  subst hxs
  have hchain : cycleB (nxt s) (prv s) (u.map Ptr.slot ++ Ptr.slot x :: v.map Ptr.slot)
      = true := by
    have hc := h.chain
    rw [List.map_append, List.map_cons] at hc
    exact hc
  exact chain_prv_pos hchain hm hpos hCx

/-- `remove(slot x)` of a linked element: the element leaves the chain,
both its link fields become null (so `is_linked` goes false), and no
payload byte moves. -/
theorem remove_spec (s : intrusive_list P) {xs u v : List Nat} {x : Nat}
    (h : RepH s xs) (hxs : xs = u ++ x :: v) :
    RepH (remove s (.slot x)) (u ++ v) ∧
      is_linked (remove s (.slot x)) (.slot x) = false ∧
      prv (remove s (.slot x)) (.slot x) = .null ∧
      nxt (remove s (.slot x)) (.slot x) = .null ∧
      (∀ r, r ≠ .slot x → r ≠ prv s (.slot x) → nxt (remove s (.slot x)) r = nxt s r) ∧
      (∀ r, r ≠ .slot x → r ≠ nxt s (.slot x) → prv (remove s (.slot x)) r = prv s r) ∧
      (∀ j, payload (remove s (.slot x)) j = payload s j) ∧
      (remove s (.slot x)).heap.length = s.heap.length := by
  subst hxs
  have hxsnd := h.nodup
  have hnd3 := List.nodup_append.mp hxsnd
  have hxu : x ∉ u := fun hc => hnd3.2.2 hc (List.mem_cons_self x v)
  have hxv : x ∉ v := (List.nodup_cons.mp hnd3.2.1).1
  have hchain : cycleB (nxt s) (prv s) (u.map Ptr.slot ++ Ptr.slot x :: v.map Ptr.slot)
      = true := by
    have hc := h.chain
    rw [List.map_append, List.map_cons] at hc
    exact hc
  have hptrnd :
      (Ptr.sent :: (u.map Ptr.slot ++ Ptr.slot x :: v.map Ptr.slot)).Nodup := by
    have hp := h.ptrNodupH
    rw [List.map_append, List.map_cons] at hp
    exact hp
  have hvalid_chain : ∀ q ∈ Ptr.sent :: (u.map Ptr.slot ++ Ptr.slot x :: v.map Ptr.slot),
      validB s q = true := by
    have hv := h.chain_validH
    rw [List.map_append, List.map_cons] at hv
    exact hv
  have hmem_u : ∀ q ∈ Ptr.sent :: u.map Ptr.slot,
      q ∈ Ptr.sent :: (u.map Ptr.slot ++ Ptr.slot x :: v.map Ptr.slot) := by
    intro q hq
    rcases List.mem_cons.mp hq with hq | hq
    · rw [hq]; exact List.mem_cons_self _ _
    · exact List.mem_cons_of_mem _ (List.mem_append.mpr (Or.inl hq))
  have hmem_v : ∀ q ∈ Ptr.sent :: v.map Ptr.slot,
      q ∈ Ptr.sent :: (u.map Ptr.slot ++ Ptr.slot x :: v.map Ptr.slot) := by
    intro q hq
    rcases List.mem_cons.mp hq with hq | hq
    · rw [hq]; exact List.mem_cons_self _ _
    · exact List.mem_cons_of_mem _
        (List.mem_append.mpr (Or.inr (List.mem_cons_of_mem _ hq)))
  have hxcu : Ptr.slot x ∉ Ptr.sent :: u.map Ptr.slot := by
    intro hc
    rcases List.mem_cons.mp hc with hc | hc
    · exact Ptr.noConfusion hc
    · rcases List.mem_map.mp hc with ⟨j, hj, hje⟩
      exact hxu (ll_list_pool.slot_injective hje ▸ hj)
  have hxcv : Ptr.slot x ∉ Ptr.sent :: v.map Ptr.slot := by
    intro hc
    rcases List.mem_cons.mp hc with hc | hc
    · exact Ptr.noConfusion hc
    · rcases List.mem_map.mp hc with ⟨j, hj, hje⟩
      exact hxv (ll_list_pool.slot_injective hje ▸ hj)
  have hA0 : prv s (.slot x) = lastD (u.map Ptr.slot) .sent := (cycle_mem_reads hchain).1
  have hB0 : nxt s (.slot x) = firstD (v.map Ptr.slot) .sent := (cycle_mem_reads hchain).2
  have hvA0 : validB s (prv s (.slot x)) = true := by
    rw [hA0]
    exact hvalid_chain _ (hmem_u _ (lastD_mem_cons _ _))
  have hvB0 : validB s (nxt s (.slot x)) = true := by
    rw [hB0]
    exact hvalid_chain _ (hmem_v _ (firstD_mem_cons _ _))
  have hvx : validB s (.slot x) = true :=
    hvalid_chain _ (List.mem_cons_of_mem _
      (List.mem_append.mpr (Or.inr (List.mem_cons_self _ _))))
  have hax : Ptr.slot x ≠ prv s (.slot x) := by
    rw [hA0]
    exact fun hc => hxcu (hc ▸ lastD_mem_cons _ _)
  have hL : is_linked s (.slot x) = true := by
    rw [is_linked]
    have h1 : prv s (.slot x) ≠ .null := by
      rw [hA0]
      refine ne_null_of_mem_chain (L := u ++ x :: v) ?_
      rw [List.map_append, List.map_cons]
      exact hmem_u _ (lastD_mem_cons _ _)
    have h2 : nxt s (.slot x) ≠ .null := by
      rw [hB0]
      refine ne_null_of_mem_chain (L := u ++ x :: v) ?_
      rw [List.map_append, List.map_cons]
      exact hmem_v _ (firstD_mem_cons _ _)
    simp [h1, h2]
  have hop : remove s (.slot x) = unlink s (.slot x) := rfl
  have hn1 : ∀ r, nxt (remove s (.slot x)) r =
      if r = .slot x then .null
      else if r = prv s (.slot x) then nxt s (.slot x) else nxt s r := by
    intro r
    rw [hop]
    exact unlink_nxt_linked s r hL hvx hvA0 hax
  have hp1 : ∀ r, prv (remove s (.slot x)) r =
      if r = .slot x then .null
      else if r = nxt s (.slot x) then prv s (.slot x) else prv s r := by
    intro r
    rw [hop]
    exact unlink_prv_linked s r hL hvx hvB0 hax
  have hchain1 : cycleB (nxt (remove s (.slot x))) (prv (remove s (.slot x)))
      ((u ++ v).map Ptr.slot) = true := by
    rw [List.map_append]
    refine cycle_remove hchain hptrnd ?_ ?_
    · intro r hr
      rw [hn1 r, if_neg hr, hA0, hB0]
    · intro r hr
      rw [hp1 r, if_neg hr, hA0, hB0]
  have hpx : prv (remove s (.slot x)) (.slot x) = .null := by
    rw [hp1, if_pos rfl]
  have hnx : nxt (remove s (.slot x)) (.slot x) = .null := by
    rw [hn1, if_pos rfl]
  have hlen : (remove s (.slot x)).heap.length = s.heap.length := by
    rw [hop, unlink_heapLen]
  refine ⟨⟨hchain1, ?_, ?_, ?_⟩, ?_, hpx, hnx, ?_, ?_, ?_, hlen⟩
  · intro i hi
    rw [hlen]
    refine h.bound i ?_
    rcases List.mem_append.mp hi with hi | hi
    · exact List.mem_append.mpr (Or.inl hi)
    · exact List.mem_append.mpr (Or.inr (List.mem_cons_of_mem _ hi))
  · exact hxsnd.sublist ((List.sublist_cons_self x v).append_left u)
  · intro i hi
    have hiuv : i ∉ u ++ v := hi
    rcases eq_or_ne i x with rfl | hix
    · exact ⟨hpx, hnx⟩
    · have hiu : i ∉ u := fun hc => hiuv (List.mem_append.mpr (Or.inl hc))
      have hiv : i ∉ v := fun hc => hiuv (List.mem_append.mpr (Or.inr hc))
      have hinot : i ∉ u ++ x :: v := by
        intro hc
        rcases List.mem_append.mp hc with hc | hc
        · exact hiu hc
        · rcases List.mem_cons.mp hc with hc | hc
          · exact hix hc
          · exact hiv hc
      have hslotx : Ptr.slot i ≠ Ptr.slot x :=
        fun hc => hix (ll_list_pool.slot_injective hc)
      have himem : Ptr.slot i ∉ Ptr.sent :: (u.map Ptr.slot ++ Ptr.slot x :: v.map Ptr.slot) := by
        intro hc
        rcases List.mem_cons.mp hc with hc | hc
        · exact Ptr.noConfusion hc
        · rw [← List.map_cons, ← List.map_append] at hc
          rcases List.mem_map.mp hc with ⟨j, hj, hje⟩
          exact hinot (ll_list_pool.slot_injective hje ▸ hj)
      have hiA : Ptr.slot i ≠ prv s (.slot x) := by
        rw [hA0]
        exact fun hc => himem (hc ▸ hmem_u _ (lastD_mem_cons _ _))
      have hiB : Ptr.slot i ≠ nxt s (.slot x) := by
        rw [hB0]
        exact fun hc => himem (hc ▸ hmem_v _ (firstD_mem_cons _ _))
      constructor
      · rw [hp1, if_neg hslotx, if_neg hiB]
        exact (h.offNull i hinot).1
      · rw [hn1, if_neg hslotx, if_neg hiA]
        exact (h.offNull i hinot).2
  · rw [is_linked, hpx]
    simp
  · intro r hr hrA
    rw [hn1, if_neg hr, if_neg hrA]
  · intro r hr hrB
    rw [hp1, if_neg hr, if_neg hrB]
  · intro j
    rw [hop, unlink_payload]

end intrusive_list

namespace intrusive_list

variable {P : Type}

/-- `splice(pos, slot x)` moving a linked element of a well-formed
intrusive list: decompose the element list as `u ++ x :: v` and the
remaining elements as `m1 ++ m2` with `pos` at the head of `m2` (the
sentinel when `m2` is empty).  The element moves before `pos`, payloads
are untouched, and the only rewritten links are at `x`, at the two old
neighbours and at the destination. -/
theorem splice_specH (s : intrusive_list P) {xs u v m1 m2 : List Nat} {x : Nat} {pos : Ptr}
    (h : RepH s xs) (hxs : xs = u ++ x :: v) (hm : u ++ v = m1 ++ m2)
    (hpos : pos = firstD (m2.map Ptr.slot) .sent) :
    RepH (splice s pos (.slot x)) (m1 ++ x :: m2) ∧
      (∀ j, payload (splice s pos (.slot x)) j = payload s j) ∧
      (∀ r, nxt (splice s pos (.slot x)) r =
        if r = lastD (m1.map Ptr.slot) .sent then .slot x
        else if r = .slot x then pos
        else if r = lastD (u.map Ptr.slot) .sent then firstD (v.map Ptr.slot) .sent
        else nxt s r) ∧
      (∀ r, prv (splice s pos (.slot x)) r =
        if r = pos then .slot x
        else if r = .slot x then lastD (m1.map Ptr.slot) .sent
        else if r = firstD (v.map Ptr.slot) .sent then lastD (u.map Ptr.slot) .sent
        else prv s r) ∧
      is_linked (splice s pos (.slot x)) (.slot x) = true ∧
      (splice s pos (.slot x)).heap.length = s.heap.length := by
  subst hxs
  have hxsnd := h.nodup
  have hnd3 := List.nodup_append.mp hxsnd
  have hxu : x ∉ u := fun hc => hnd3.2.2 hc (List.mem_cons_self x v)
  have hxv : x ∉ v := (List.nodup_cons.mp hnd3.2.1).1
  have hxm12 : x ∉ m1 ++ m2 := by
    rw [← hm]
    intro hc
    rcases List.mem_append.mp hc with hc | hc
    · exact hxu hc
    · exact hxv hc
  have hchain : cycleB (nxt s) (prv s) (u.map Ptr.slot ++ Ptr.slot x :: v.map Ptr.slot)
      = true := by
    have hc := h.chain
    rw [List.map_append, List.map_cons] at hc
    exact hc
  have hptrnd :
      (Ptr.sent :: (u.map Ptr.slot ++ Ptr.slot x :: v.map Ptr.slot)).Nodup := by
    have hp := h.ptrNodupH
    rw [List.map_append, List.map_cons] at hp
    exact hp
  have hmm : u.map Ptr.slot ++ v.map Ptr.slot = m1.map Ptr.slot ++ m2.map Ptr.slot := by
    rw [← List.map_append, ← List.map_append, hm]
  have hvalid_chain : ∀ q ∈ Ptr.sent :: (u.map Ptr.slot ++ Ptr.slot x :: v.map Ptr.slot),
      validB s q = true := by
    have hv := h.chain_validH
    rw [List.map_append, List.map_cons] at hv
    exact hv
  have hmem_u : ∀ q ∈ Ptr.sent :: u.map Ptr.slot,
      q ∈ Ptr.sent :: (u.map Ptr.slot ++ Ptr.slot x :: v.map Ptr.slot) := by
    intro q hq
    rcases List.mem_cons.mp hq with hq | hq
    · rw [hq]; exact List.mem_cons_self _ _
    · exact List.mem_cons_of_mem _ (List.mem_append.mpr (Or.inl hq))
  have hmem_v : ∀ q ∈ Ptr.sent :: v.map Ptr.slot,
      q ∈ Ptr.sent :: (u.map Ptr.slot ++ Ptr.slot x :: v.map Ptr.slot) := by
    intro q hq
    rcases List.mem_cons.mp hq with hq | hq
    · rw [hq]; exact List.mem_cons_self _ _
    · exact List.mem_cons_of_mem _
        (List.mem_append.mpr (Or.inr (List.mem_cons_of_mem _ hq)))
  have hmem_m : ∀ q ∈ Ptr.sent :: (m1.map Ptr.slot ++ m2.map Ptr.slot),
      q ∈ Ptr.sent :: (u.map Ptr.slot ++ Ptr.slot x :: v.map Ptr.slot) := by
    intro q hq
    rcases List.mem_cons.mp hq with hq | hq
    · rw [hq]; exact List.mem_cons_self _ _
    · rw [← hmm] at hq
      rcases List.mem_append.mp hq with hq | hq
      · exact hmem_u _ (List.mem_cons_of_mem _ hq)
      · exact hmem_v _ (List.mem_cons_of_mem _ hq)
  have hmem_m1 : ∀ q ∈ Ptr.sent :: m1.map Ptr.slot,
      q ∈ Ptr.sent :: (m1.map Ptr.slot ++ m2.map Ptr.slot) := by
    intro q hq
    rcases List.mem_cons.mp hq with hq | hq
    · rw [hq]; exact List.mem_cons_self _ _
    · exact List.mem_cons_of_mem _ (List.mem_append.mpr (Or.inl hq))
  have hmem_m2 : ∀ q ∈ Ptr.sent :: m2.map Ptr.slot,
      q ∈ Ptr.sent :: (m1.map Ptr.slot ++ m2.map Ptr.slot) := by
    intro q hq
    rcases List.mem_cons.mp hq with hq | hq
    · rw [hq]; exact List.mem_cons_self _ _
    · exact List.mem_cons_of_mem _ (List.mem_append.mpr (Or.inr hq))
  have hxslot : Ptr.slot x ∉ Ptr.sent :: (m1.map Ptr.slot ++ m2.map Ptr.slot) := by
    intro hc
    rcases List.mem_cons.mp hc with hc | hc
    · exact Ptr.noConfusion hc
    · rcases List.mem_append.mp hc with hc | hc
      · rcases List.mem_map.mp hc with ⟨j, hj, hje⟩
        exact hxm12 (List.mem_append.mpr (Or.inl (ll_list_pool.slot_injective hje ▸ hj)))
      · rcases List.mem_map.mp hc with ⟨j, hj, hje⟩
        exact hxm12 (List.mem_append.mpr (Or.inr (ll_list_pool.slot_injective hje ▸ hj)))
  have hxcu : Ptr.slot x ∉ Ptr.sent :: u.map Ptr.slot := by
    intro hc
    rcases List.mem_cons.mp hc with hc | hc
    · exact Ptr.noConfusion hc
    · rcases List.mem_map.mp hc with ⟨j, hj, hje⟩
      exact hxu (ll_list_pool.slot_injective hje ▸ hj)
  have hxcv : Ptr.slot x ∉ Ptr.sent :: v.map Ptr.slot := by
    intro hc
    rcases List.mem_cons.mp hc with hc | hc
    · exact Ptr.noConfusion hc
    · rcases List.mem_map.mp hc with ⟨j, hj, hje⟩
      exact hxv (ll_list_pool.slot_injective hje ▸ hj)
  have hA0 : prv s (.slot x) = lastD (u.map Ptr.slot) .sent := (cycle_mem_reads hchain).1
  have hB0 : nxt s (.slot x) = firstD (v.map Ptr.slot) .sent := (cycle_mem_reads hchain).2
  have hvA0 : validB s (prv s (.slot x)) = true := by
    rw [hA0]
    exact hvalid_chain _ (hmem_u _ (lastD_mem_cons _ _))
  have hvB0 : validB s (nxt s (.slot x)) = true := by
    rw [hB0]
    exact hvalid_chain _ (hmem_v _ (firstD_mem_cons _ _))
  have hvx0 : validB s (.slot x) = true :=
    hvalid_chain _ (List.mem_cons_of_mem _
      (List.mem_append.mpr (Or.inr (List.mem_cons_self _ _))))
  have hax : Ptr.slot x ≠ prv s (.slot x) := by
    rw [hA0]
    exact fun hc => hxcu (hc ▸ lastD_mem_cons _ _)
  have hL : is_linked s (.slot x) = true := by
    rw [is_linked]
    have h1 : prv s (.slot x) ≠ .null := by
      rw [hA0]
      refine ne_null_of_mem_chain (L := u ++ x :: v) ?_
      rw [List.map_append, List.map_cons]
      exact hmem_u _ (lastD_mem_cons _ _)
    have h2 : nxt s (.slot x) ≠ .null := by
      rw [hB0]
      refine ne_null_of_mem_chain (L := u ++ x :: v) ?_
      rw [List.map_append, List.map_cons]
      exact hmem_v _ (firstD_mem_cons _ _)
    simp [h1, h2]
  set t1 : intrusive_list P := unlink s (.slot x) with ht1
  have hn1 : ∀ r, nxt t1 r =
      if r = .slot x then .null
      else if r = prv s (.slot x) then nxt s (.slot x) else nxt s r := by
    intro r
    rw [ht1]
    exact unlink_nxt_linked s r hL hvx0 hvA0 hax
  have hp1 : ∀ r, prv t1 r =
      if r = .slot x then .null
      else if r = nxt s (.slot x) then prv s (.slot x) else prv s r := by
    intro r
    rw [ht1]
    exact unlink_prv_linked s r hL hvx0 hvB0 hax
  have hcy1 : cycleB (nxt t1) (prv t1) (u.map Ptr.slot ++ v.map Ptr.slot) = true := by
    refine cycle_remove hchain hptrnd ?_ ?_
    · intro r hr
      rw [hn1 r, if_neg hr, hA0, hB0]
    · intro r hr
      rw [hp1 r, if_neg hr, hA0, hB0]
  have hcy1m : cycleB (nxt t1) (prv t1) (m1.map Ptr.slot ++ m2.map Ptr.slot) = true := by
    rw [← hmm]
    exact hcy1
  have hA1 : prv t1 pos = lastD (m1.map Ptr.slot) .sent := by
    rw [hpos]
    exact (cycle_seam hcy1m).2
  have hvt1 : ∀ r, validB t1 r = validB s r :=
    validB_of_lenH (by rw [ht1, unlink_heapLen])
  have hvx1 : validB t1 (.slot x) = true := by
    rw [hvt1]
    exact hvx0
  have hvA1 : validB t1 (prv t1 pos) = true := by
    rw [hA1, hvt1]
    exact hvalid_chain _ (hmem_m _ (hmem_m1 _ (lastD_mem_cons _ _)))
  have hxA1 : Ptr.slot x ≠ prv t1 pos := by
    rw [hA1]
    exact fun hc => hxslot (hc ▸ hmem_m1 _ (lastD_mem_cons _ _))
  have hvpos1 : validB t1 pos = true := by
    rw [hvt1, hpos]
    exact hvalid_chain _ (hmem_m _ (hmem_m2 _ (firstD_mem_cons _ _)))
  have hxpos : Ptr.slot x ≠ pos := by
    rw [hpos]
    exact fun hc => hxslot (hc ▸ hmem_m2 _ (firstD_mem_cons _ _))
  set t2 : intrusive_list P := link_between t1 (.slot x) (prv t1 pos) pos with ht2
  have hn2 : ∀ r, nxt t2 r =
      if r = prv t1 pos then .slot x else if r = .slot x then pos else nxt t1 r := by
    intro r
    rw [ht2]
    exact link_between_nxtH t1 pos r hvx1 hvA1 hxA1
  have hp2 : ∀ r, prv t2 r =
      if r = pos then .slot x else if r = .slot x then prv t1 pos else prv t1 r := by
    intro r
    rw [ht2]
    exact link_between_prvH t1 (prv t1 pos) r hvx1 hvpos1 hxpos
  have hsplice : splice s pos (.slot x) = t2 := by
    unfold splice
    rw [if_neg hxpos, ht2, ht1]
  have hnd1m : (Ptr.sent :: (m1.map Ptr.slot ++ m2.map Ptr.slot)).Nodup := by
    rw [← hmm]
    have hsub : List.Sublist
        (Ptr.sent :: (u.map Ptr.slot ++ v.map Ptr.slot))
        (Ptr.sent :: (u.map Ptr.slot ++ Ptr.slot x :: v.map Ptr.slot)) :=
      (List.Sublist.append_left (List.sublist_cons_self _ _) _).cons₂ _
    exact hptrnd.sublist hsub
  have hchain2 : cycleB (nxt t2) (prv t2)
      (m1.map Ptr.slot ++ Ptr.slot x :: m2.map Ptr.slot) = true := by
    refine cycle_insert hcy1m hnd1m
      (fun hc => hxslot (List.mem_cons_of_mem _ hc))
      (fun hc => Ptr.noConfusion hc) ?_ ?_ ?_ ?_
    · rw [hn2, if_neg (fun hc => hxA1 hc), if_pos rfl, hpos]
    · rw [hp2, if_neg hxpos, if_pos rfl, hA1]
    · intro r hr
      rw [hn2 r, hA1]
      rcases eq_or_ne r (lastD (m1.map Ptr.slot) .sent) with h1 | h1
      · rw [if_pos h1, if_pos h1]
      · rw [if_neg h1, if_neg h1, if_neg hr]
    · intro r hr
      rw [hp2 r, ← hpos]
      rcases eq_or_ne r pos with h1 | h1
      · rw [if_pos h1, if_pos h1]
      · rw [if_neg h1, if_neg h1, if_neg hr]
  have hpays : ∀ j, payload t2 j = payload s j := fun j => by
    rw [ht2, link_between_payload, ht1, unlink_payload]
  have hlen2 : t2.heap.length = s.heap.length := by
    rw [ht2, link_between_heapLen, ht1, unlink_heapLen]
  have hmemiff : ∀ i, i ∈ m1 ++ x :: m2 ↔ i ∈ u ++ x :: v := by
    intro i
    have hm2 : i ∈ u ++ v ↔ i ∈ m1 ++ m2 := by rw [hm]
    simp only [List.mem_append, List.mem_cons] at hm2 ⊢
    constructor
    · intro hh
      rcases hh with hh | hh | hh
      · rcases hm2.mpr (Or.inl hh) with h2 | h2
        · exact Or.inl h2
        · exact Or.inr (Or.inr h2)
      · exact Or.inr (Or.inl hh)
      · rcases hm2.mpr (Or.inr hh) with h2 | h2
        · exact Or.inl h2
        · exact Or.inr (Or.inr h2)
    · intro hh
      rcases hh with hh | hh | hh
      · rcases hm2.mp (Or.inl hh) with h2 | h2
        · exact Or.inl h2
        · exact Or.inr (Or.inr h2)
      · exact Or.inr (Or.inl hh)
      · rcases hm2.mp (Or.inr hh) with h2 | h2
        · exact Or.inl h2
        · exact Or.inr (Or.inr h2)
  have hnmap : ∀ r, nxt t2 r =
      if r = lastD (m1.map Ptr.slot) .sent then .slot x
      else if r = .slot x then pos
      else if r = lastD (u.map Ptr.slot) .sent then firstD (v.map Ptr.slot) .sent
      else nxt s r := by
    intro r
    rw [hn2 r, hA1]
    rcases eq_or_ne r (lastD (m1.map Ptr.slot) .sent) with h1 | h1
    · rw [if_pos h1, if_pos h1]
    · rw [if_neg h1, if_neg h1]
      rcases eq_or_ne r (Ptr.slot x) with h2 | h2
      · rw [if_pos h2, if_pos h2]
      · rw [if_neg h2, if_neg h2, hn1 r, if_neg h2, hA0, hB0]
  have hpmap : ∀ r, prv t2 r =
      if r = pos then .slot x
      else if r = .slot x then lastD (m1.map Ptr.slot) .sent
      else if r = firstD (v.map Ptr.slot) .sent then lastD (u.map Ptr.slot) .sent
      else prv s r := by
    intro r
    rw [hp2 r, hA1]
    rcases eq_or_ne r pos with h1 | h1
    · rw [if_pos h1, if_pos h1]
    · rw [if_neg h1, if_neg h1]
      rcases eq_or_ne r (Ptr.slot x) with h2 | h2
      · rw [if_pos h2, if_pos h2]
      · rw [if_neg h2, if_neg h2, hp1 r, if_neg h2, hA0, hB0]
  rw [hsplice]
  refine ⟨⟨?_, ?_, ?_, ?_⟩, hpays, hnmap, hpmap, ?_, hlen2⟩
  · rw [List.map_append, List.map_cons]
    exact hchain2
  · intro i hi
    rw [hlen2]
    exact h.bound i ((hmemiff i).mp hi)
  · have hnd12 : (u ++ v).Nodup :=
      hxsnd.sublist ((List.sublist_cons_self x v).append_left u)
    have hndm : (m1 ++ m2).Nodup := by rw [← hm]; exact hnd12
    exact List.nodup_middle.mpr (List.nodup_cons.mpr ⟨hxm12, hndm⟩)
  · intro i hi
    have hinot : i ∉ u ++ x :: v := fun hc => hi ((hmemiff i).mpr hc)
    have hix : i ≠ x := fun hc =>
      hinot (List.mem_append.mpr (Or.inr (hc ▸ List.mem_cons_self _ _)))
    have hslotx : Ptr.slot i ≠ Ptr.slot x :=
      fun hc => hix (ll_list_pool.slot_injective hc)
    have himem : Ptr.slot i ∉
        Ptr.sent :: (u.map Ptr.slot ++ Ptr.slot x :: v.map Ptr.slot) := by
      intro hc
      rcases List.mem_cons.mp hc with hc | hc
      · exact Ptr.noConfusion hc
      · rw [← List.map_cons, ← List.map_append] at hc
        rcases List.mem_map.mp hc with ⟨j, hj, hje⟩
        exact hinot (ll_list_pool.slot_injective hje ▸ hj)
    have hiM1 : Ptr.slot i ≠ lastD (m1.map Ptr.slot) .sent :=
      fun hc => himem (hc ▸ hmem_m _ (hmem_m1 _ (lastD_mem_cons _ _)))
    have hipos : Ptr.slot i ≠ pos := by
      rw [hpos]
      exact fun hc => himem (hc ▸ hmem_m _ (hmem_m2 _ (firstD_mem_cons _ _)))
    have hiU : Ptr.slot i ≠ lastD (u.map Ptr.slot) .sent :=
      fun hc => himem (hc ▸ hmem_u _ (lastD_mem_cons _ _))
    have hiV : Ptr.slot i ≠ firstD (v.map Ptr.slot) .sent :=
      fun hc => himem (hc ▸ hmem_v _ (firstD_mem_cons _ _))
    constructor
    · rw [hpmap, if_neg hipos, if_neg hslotx, if_neg hiV]
      exact (h.offNull i hinot).1
    · rw [hnmap, if_neg hiM1, if_neg hslotx, if_neg hiU]
      exact (h.offNull i hinot).2
  · rw [is_linked]
    have hpx2 : prv t2 (.slot x) = lastD (m1.map Ptr.slot) .sent := by
      rw [hpmap, if_neg hxpos, if_pos rfl]
    have hnx2 : nxt t2 (.slot x) = pos := by
      rw [hnmap]
      rcases eq_or_ne (Ptr.slot x) (lastD (m1.map Ptr.slot) .sent) with hc | hc
      · exact absurd hc (fun hc2 => hxslot (hc2 ▸ hmem_m1 _ (lastD_mem_cons _ _)))
      · rw [if_neg hc, if_pos rfl]
    have h1 : prv t2 (.slot x) ≠ .null := by
      rw [hpx2]
      refine ne_null_of_mem_chain (L := m1) ?_
      exact lastD_mem_cons _ _
    have h2 : nxt t2 (.slot x) ≠ .null := by
      rw [hnx2, hpos]
      refine ne_null_of_mem_chain (L := m2) ?_
      exact firstD_mem_cons _ _
    simp [h1, h2]

end intrusive_list

namespace intrusive_list

variable {P : Type}

/-- `splice(pos, slot x)` of an unlinked hook (both link fields null):
the early-return guard of `unlink` makes the detach step a no-op, so the
call simply inserts the hook before `pos`; afterwards the hook is linked.
Decompose the element list as `m1 ++ m2` with `pos` at the head of `m2`
(the sentinel when `m2` is empty). -/
theorem splice_unlinked_spec (s : intrusive_list P) {xs m1 m2 : List Nat} {x : Nat}
    {pos : Ptr}
    (h : RepH s xs) (hx : x ∉ xs) (hl : x < s.heap.length)
    (hm : xs = m1 ++ m2) (hpos : pos = firstD (m2.map Ptr.slot) .sent) :
    RepH (splice s pos (.slot x)) (m1 ++ x :: m2) ∧
      is_linked (splice s pos (.slot x)) (.slot x) = true ∧
      nxt (splice s pos (.slot x)) (.slot x) = pos ∧
      prv (splice s pos (.slot x)) pos = .slot x ∧
      (∀ r, r ≠ .slot x → r ≠ prv s pos → r ≠ pos →
        nxt (splice s pos (.slot x)) r = nxt s r ∧
        prv (splice s pos (.slot x)) r = prv s r) ∧
      (∀ j, payload (splice s pos (.slot x)) j = payload s j) ∧
      (splice s pos (.slot x)).heap.length = s.heap.length := by
  subst hm
  have hxm1 : x ∉ m1 := fun hc => hx (List.mem_append.mpr (Or.inl hc))
  have hxm2 : x ∉ m2 := fun hc => hx (List.mem_append.mpr (Or.inr hc))
  have hchain : cycleB (nxt s) (prv s) (m1.map Ptr.slot ++ m2.map Ptr.slot) = true := by
    have hc := h.chain
    rw [List.map_append] at hc
    exact hc
  have hptrnd : (Ptr.sent :: (m1.map Ptr.slot ++ m2.map Ptr.slot)).Nodup := by
    have hp := h.ptrNodupH
    rw [List.map_append] at hp
    exact hp
  have hvalid_chain : ∀ q ∈ Ptr.sent :: (m1.map Ptr.slot ++ m2.map Ptr.slot),
      validB s q = true := by
    have hv := h.chain_validH
    rw [List.map_append] at hv
    exact hv
  have hmem_m1 : ∀ q ∈ Ptr.sent :: m1.map Ptr.slot,
      q ∈ Ptr.sent :: (m1.map Ptr.slot ++ m2.map Ptr.slot) := by
    intro q hq
    rcases List.mem_cons.mp hq with hq | hq
    · rw [hq]; exact List.mem_cons_self _ _
    · exact List.mem_cons_of_mem _ (List.mem_append.mpr (Or.inl hq))
  have hmem_m2 : ∀ q ∈ Ptr.sent :: m2.map Ptr.slot,
      q ∈ Ptr.sent :: (m1.map Ptr.slot ++ m2.map Ptr.slot) := by
    intro q hq
    rcases List.mem_cons.mp hq with hq | hq
    · rw [hq]; exact List.mem_cons_self _ _
    · exact List.mem_cons_of_mem _ (List.mem_append.mpr (Or.inr hq))
  have hxslot : Ptr.slot x ∉ Ptr.sent :: (m1.map Ptr.slot ++ m2.map Ptr.slot) := by
    intro hc
    rcases List.mem_cons.mp hc with hc | hc
    · exact Ptr.noConfusion hc
    · rw [← List.map_append] at hc
      rcases List.mem_map.mp hc with ⟨j, hj, hje⟩
      exact hx (ll_list_pool.slot_injective hje ▸ hj)
  have hxpos : Ptr.slot x ≠ pos := by
    rw [hpos]
    exact fun hc => hxslot (hc ▸ hmem_m2 _ (firstD_mem_cons _ _))
  have hA : prv s pos = lastD (m1.map Ptr.slot) .sent := by
    rw [hpos]
    exact (cycle_seam hchain).2
  have hoff := h.offNull x hx
  have hnolink : is_linked s (.slot x) = false := is_linked_false_of_prv_null hoff.1
  have hs1 : unlink s (.slot x) = s := unlink_not_linked s _ hnolink
  have hsplice : splice s pos (.slot x) = link_between s (.slot x) (prv s pos) pos := by
    unfold splice
    rw [if_neg hxpos, hs1]
  have hvx : validB s (.slot x) = true := by simpa [validB] using hl
  have hvA : validB s (prv s pos) = true := by
    rw [hA]
    exact hvalid_chain _ (hmem_m1 _ (lastD_mem_cons _ _))
  have hvpos : validB s pos = true := by
    rw [hpos]
    exact hvalid_chain _ (hmem_m2 _ (firstD_mem_cons _ _))
  have hxA : Ptr.slot x ≠ prv s pos := by
    rw [hA]
    exact fun hc => hxslot (hc ▸ hmem_m1 _ (lastD_mem_cons _ _))
  have hmn : ∀ r, nxt (splice s pos (.slot x)) r =
      if r = prv s pos then .slot x else if r = .slot x then pos else nxt s r := by
    intro r
    rw [hsplice]
    exact link_between_nxtH s pos r hvx hvA hxA
  have hmp : ∀ r, prv (splice s pos (.slot x)) r =
      if r = pos then .slot x else if r = .slot x then prv s pos else prv s r := by
    intro r
    rw [hsplice]
    exact link_between_prvH s (prv s pos) r hvx hvpos hxpos
  have hchain2 : cycleB (nxt (splice s pos (.slot x))) (prv (splice s pos (.slot x)))
      ((m1 ++ x :: m2).map Ptr.slot) = true := by
    rw [List.map_append, List.map_cons]
    refine cycle_insert hchain hptrnd
      (fun hc => hxslot (List.mem_cons_of_mem _ hc))
      (fun hc => Ptr.noConfusion hc) ?_ ?_ ?_ ?_
    · rw [hmn, if_neg (fun hc => hxA hc), if_pos rfl, hpos]
    · rw [hmp, if_neg hxpos, if_pos rfl, hA]
    · intro r hr
      rw [hmn r, hA]
      rcases eq_or_ne r (lastD (m1.map Ptr.slot) .sent) with h1 | h1
      · rw [if_pos h1, if_pos h1]
      · rw [if_neg h1, if_neg h1, if_neg hr]
    · intro r hr
      rw [hmp r, ← hpos]
      rcases eq_or_ne r pos with h1 | h1
      · rw [if_pos h1, if_pos h1]
      · rw [if_neg h1, if_neg h1, if_neg hr]
  have hnx : nxt (splice s pos (.slot x)) (.slot x) = pos := by
    rw [hmn, if_neg hxA, if_pos rfl]
  have hpp : prv (splice s pos (.slot x)) pos = .slot x := by
    rw [hmp, if_pos rfl]
  have hlen : (splice s pos (.slot x)).heap.length = s.heap.length := by
    rw [hsplice, link_between_heapLen]
  refine ⟨⟨hchain2, ?_, ?_, ?_⟩, ?_, hnx, hpp, ?_, ?_, hlen⟩
  · intro i hi
    rw [hlen]
    rcases List.mem_append.mp hi with hi | hi
    · exact h.bound i (List.mem_append.mpr (Or.inl hi))
    · rcases List.mem_cons.mp hi with hi | hi
      · rw [hi]; exact hl
      · exact h.bound i (List.mem_append.mpr (Or.inr hi))
  · have hndm : (m1 ++ m2).Nodup := h.nodup
    exact List.nodup_middle.mpr (List.nodup_cons.mpr ⟨fun hc => hx hc, hndm⟩)
  · intro i hi
    have hix : i ≠ x := fun hc =>
      hi (List.mem_append.mpr (Or.inr (hc ▸ List.mem_cons_self _ _)))
    have hixs : i ∉ m1 ++ m2 := by
      intro hc
      rcases List.mem_append.mp hc with hc | hc
      · exact hi (List.mem_append.mpr (Or.inl hc))
      · exact hi (List.mem_append.mpr (Or.inr (List.mem_cons_of_mem _ hc)))
    have hslotx : Ptr.slot i ≠ Ptr.slot x :=
      fun hc => hix (ll_list_pool.slot_injective hc)
    have himem : Ptr.slot i ∉ Ptr.sent :: (m1.map Ptr.slot ++ m2.map Ptr.slot) := by
      intro hc
      rcases List.mem_cons.mp hc with hc | hc
      · exact Ptr.noConfusion hc
      · rw [← List.map_append] at hc
        rcases List.mem_map.mp hc with ⟨j, hj, hje⟩
        exact hixs (ll_list_pool.slot_injective hje ▸ hj)
    have hiA : Ptr.slot i ≠ prv s pos := by
      rw [hA]
      exact fun hc => himem (hc ▸ hmem_m1 _ (lastD_mem_cons _ _))
    have hipos : Ptr.slot i ≠ pos := by
      rw [hpos]
      exact fun hc => himem (hc ▸ hmem_m2 _ (firstD_mem_cons _ _))
    constructor
    · rw [hmp, if_neg hipos, if_neg hslotx]
      exact (h.offNull i hixs).1
    · rw [hmn, if_neg hiA, if_neg hslotx]
      exact (h.offNull i hixs).2
  · rw [is_linked]
    have h1 : prv (splice s pos (.slot x)) (.slot x) ≠ .null := by
      rw [hmp, if_neg hxpos, if_pos rfl, hA]
      refine ne_null_of_mem_chain (L := m1) ?_
      exact lastD_mem_cons _ _
    have h2 : nxt (splice s pos (.slot x)) (.slot x) ≠ .null := by
      rw [hnx, hpos]
      refine ne_null_of_mem_chain (L := m2) ?_
      exact firstD_mem_cons _ _
    simp [h1, h2]
  · intro r hr hrA hrpos
    constructor
    · rw [hmn, if_neg hrA, if_neg hr]
    · rw [hmp, if_neg hrpos, if_neg hr]
  · intro j
    rw [hsplice, link_between_payload]

end intrusive_list

namespace intrusive_list

variable {P : Type}

/-- Range `splice(pos, first, last)` on a well-formed intrusive list:
decompose the element list as `l1 ++ (r0 :: rr) ++ l2` (the range
`[first, last)` being `r0 :: rr`, with `first` at `r0` and `last` at the
head of `l2`) and the remaining elements as `m1 ++ m2` with `pos` at the
head of `m2`.  The whole range moves before `pos` with its internal order
intact; payloads are untouched, and the only rewritten links sit at the
six boundary nodes. -/
theorem spliceRange_specH (s : intrusive_list P)
    {xs l1 rr l2 m1 m2 : List Nat} {r0 : Nat} {pos lst : Ptr}
    (h : RepH s xs) (hxs : xs = l1 ++ (r0 :: rr) ++ l2) (hm : l1 ++ l2 = m1 ++ m2)
    (hpos : pos = firstD (m2.map Ptr.slot) .sent)
    (hlst : lst = firstD (l2.map Ptr.slot) .sent) :
    RepH (spliceRange s pos (.slot r0) lst) (m1 ++ (r0 :: rr) ++ m2) ∧
      (∀ j, payload (spliceRange s pos (.slot r0) lst) j = payload s j) ∧
      (∀ q, nxt (spliceRange s pos (.slot r0) lst) q =
        if q = lastD (rr.map Ptr.slot) (Ptr.slot r0) then pos
        else if q = lastD (m1.map Ptr.slot) .sent then .slot r0
        else if q = lastD (l1.map Ptr.slot) .sent then lst
        else nxt s q) ∧
      (∀ q, prv (spliceRange s pos (.slot r0) lst) q =
        if q = pos then lastD (rr.map Ptr.slot) (Ptr.slot r0)
        else if q = .slot r0 then lastD (m1.map Ptr.slot) .sent
        else if q = lst then lastD (l1.map Ptr.slot) .sent
        else prv s q) ∧
      (spliceRange s pos (.slot r0) lst).heap.length = s.heap.length := by
  subst hxs
  have hchain : cycleB (nxt s) (prv s)
      ((l1.map Ptr.slot ++ (Ptr.slot r0 :: rr.map Ptr.slot)) ++ l2.map Ptr.slot)
      = true := by
    have hc := h.chain
    rw [List.map_append, List.map_append, List.map_cons] at hc
    exact hc
  have hptrnd : (Ptr.sent ::
      ((l1.map Ptr.slot ++ (Ptr.slot r0 :: rr.map Ptr.slot)) ++ l2.map Ptr.slot)).Nodup := by
    have hp := h.ptrNodupH
    rw [List.map_append, List.map_append, List.map_cons] at hp
    exact hp
  have hvalid : ∀ q ∈ Ptr.sent ::
      ((l1.map Ptr.slot ++ (Ptr.slot r0 :: rr.map Ptr.slot)) ++ l2.map Ptr.slot),
      validB s q = true := by
    have hv := h.chain_validH
    rw [List.map_append, List.map_append, List.map_cons] at hv
    exact hv
  have hmm2 : l1.map Ptr.slot ++ l2.map Ptr.slot = m1.map Ptr.slot ++ m2.map Ptr.slot := by
    rw [← List.map_append, ← List.map_append, hm]
  have hndL := (List.nodup_cons.mp hptrnd).2
  have hsL : Ptr.sent ∉ (l1.map Ptr.slot ++ (Ptr.slot r0 :: rr.map Ptr.slot))
      ++ l2.map Ptr.slot := (List.nodup_cons.mp hptrnd).1
  have hnd12 := List.nodup_append.mp hndL
  have hnd1R := List.nodup_append.mp hnd12.1
  have hndMl1 : (l1.map Ptr.slot).Nodup := hnd1R.1
  have hndRL : (Ptr.slot r0 :: rr.map Ptr.slot).Nodup := hnd1R.2.1
  have hndMl2 : (l2.map Ptr.slot).Nodup := hnd12.2.1
  have hdisj1R : (l1.map Ptr.slot).Disjoint (Ptr.slot r0 :: rr.map Ptr.slot) := hnd1R.2.2
  have hdisj12 : (l1.map Ptr.slot).Disjoint (l2.map Ptr.slot) := fun a ha hb =>
    hnd12.2.2 (List.mem_append.mpr (Or.inl ha)) hb
  have hdisjR2 : (Ptr.slot r0 :: rr.map Ptr.slot).Disjoint (l2.map Ptr.slot) :=
    fun a ha hb => hnd12.2.2 (List.mem_append.mpr (Or.inr ha)) hb
  have hsl1 : Ptr.sent ∉ l1.map Ptr.slot := fun hh =>
    hsL (List.mem_append.mpr (Or.inl (List.mem_append.mpr (Or.inl hh))))
  have hsR : Ptr.sent ∉ Ptr.slot r0 :: rr.map Ptr.slot := fun hh =>
    hsL (List.mem_append.mpr (Or.inl (List.mem_append.mpr (Or.inr hh))))
  have hsl2 : Ptr.sent ∉ l2.map Ptr.slot := fun hh =>
    hsL (List.mem_append.mpr (Or.inr hh))
  have hmem12 : ∀ q, q ∈ Ptr.sent :: (l1.map Ptr.slot ++ l2.map Ptr.slot) →
      q ∈ Ptr.sent ::
        ((l1.map Ptr.slot ++ (Ptr.slot r0 :: rr.map Ptr.slot)) ++ l2.map Ptr.slot) := by
    intro q hq
    rcases List.mem_cons.mp hq with hq | hq
    · rw [hq]; exact List.mem_cons_self _ _
    · rcases List.mem_append.mp hq with hq | hq
      · exact List.mem_cons_of_mem _
          (List.mem_append.mpr (Or.inl (List.mem_append.mpr (Or.inl hq))))
      · exact List.mem_cons_of_mem _ (List.mem_append.mpr (Or.inr hq))
  have hmemR : ∀ q ∈ Ptr.slot r0 :: rr.map Ptr.slot,
      q ∈ Ptr.sent ::
        ((l1.map Ptr.slot ++ (Ptr.slot r0 :: rr.map Ptr.slot)) ++ l2.map Ptr.slot) :=
    fun q hq => List.mem_cons_of_mem _
      (List.mem_append.mpr (Or.inl (List.mem_append.mpr (Or.inr hq))))
  have h12R : ∀ q, q ∈ Ptr.sent :: (l1.map Ptr.slot ++ l2.map Ptr.slot) →
      q ∉ Ptr.slot r0 :: rr.map Ptr.slot := by
    intro q hq hqR
    rcases List.mem_cons.mp hq with hq | hq
    · rw [hq] at hqR; exact hsR hqR
    · rcases List.mem_append.mp hq with hq | hq
      · exact hdisj1R hq hqR
      · exact hdisjR2 hqR hq
  have hAmem : lastD (l1.map Ptr.slot) .sent ∈ Ptr.sent :: l1.map Ptr.slot :=
    lastD_mem_cons _ _
  have hA12 : lastD (l1.map Ptr.slot) .sent ∈
      Ptr.sent :: (l1.map Ptr.slot ++ l2.map Ptr.slot) := by
    rcases List.mem_cons.mp hAmem with hq | hq
    · rw [hq]; exact List.mem_cons_self _ _
    · exact List.mem_cons_of_mem _ (List.mem_append.mpr (Or.inl hq))
  have hlstmem : lst ∈ Ptr.sent :: (l1.map Ptr.slot ++ l2.map Ptr.slot) := by
    rw [hlst]
    rcases List.mem_cons.mp (firstD_mem_cons (l2.map Ptr.slot) .sent) with hq | hq
    · rw [hq]; exact List.mem_cons_self _ _
    · exact List.mem_cons_of_mem _ (List.mem_append.mpr (Or.inr hq))
  have hB0mem : lastD (m1.map Ptr.slot) .sent ∈
      Ptr.sent :: (l1.map Ptr.slot ++ l2.map Ptr.slot) := by
    rw [hmm2]
    rcases List.mem_cons.mp (lastD_mem_cons (m1.map Ptr.slot) .sent) with hq | hq
    · rw [hq]; exact List.mem_cons_self _ _
    · exact List.mem_cons_of_mem _ (List.mem_append.mpr (Or.inl hq))
  have hposmem : pos ∈ Ptr.sent :: (l1.map Ptr.slot ++ l2.map Ptr.slot) := by
    rw [hpos, hmm2]
    rcases List.mem_cons.mp (firstD_mem_cons (m2.map Ptr.slot) .sent) with hq | hq
    · rw [hq]; exact List.mem_cons_self _ _
    · exact List.mem_cons_of_mem _ (List.mem_append.mpr (Or.inr hq))
  have hTLmem : lastD (rr.map Ptr.slot) (Ptr.slot r0) ∈ Ptr.slot r0 :: rr.map Ptr.slot :=
    lastD_mem_cons _ _
  have hvA : validB s (lastD (l1.map Ptr.slot) .sent) = true :=
    hvalid _ (hmem12 _ hA12)
  have hvlst : validB s lst = true := hvalid _ (hmem12 _ hlstmem)
  have hvB0 : validB s (lastD (m1.map Ptr.slot) .sent) = true :=
    hvalid _ (hmem12 _ hB0mem)
  have hvpos : validB s pos = true := hvalid _ (hmem12 _ hposmem)
  have hvTL : validB s (lastD (rr.map Ptr.slot) (Ptr.slot r0)) = true :=
    hvalid _ (hmemR _ hTLmem)
  have hvF : validB s (.slot r0) = true :=
    hvalid _ (hmemR _ (List.mem_cons_self _ _))
  have hFlst : Ptr.slot r0 ≠ lst :=
    fun hc => h12R _ hlstmem (hc ▸ List.mem_cons_self _ _)
  have hFpos : Ptr.slot r0 ≠ pos :=
    fun hc => h12R _ hposmem (hc ▸ List.mem_cons_self _ _)
  have hTLnot12 : lastD (rr.map Ptr.slot) (Ptr.slot r0) ∉
      Ptr.sent :: (l1.map Ptr.slot ++ l2.map Ptr.slot) :=
    fun hc => h12R _ hc hTLmem
  have hAeq : prv s (.slot r0) = lastD (l1.map Ptr.slot) .sent := by
    have hc2 : cycleB (nxt s) (prv s) (l1.map Ptr.slot ++ Ptr.slot r0 ::
        (rr.map Ptr.slot ++ l2.map Ptr.slot)) = true := by
      have e : (l1.map Ptr.slot ++ (Ptr.slot r0 :: rr.map Ptr.slot)) ++ l2.map Ptr.slot =
          l1.map Ptr.slot ++ Ptr.slot r0 :: (rr.map Ptr.slot ++ l2.map Ptr.slot) := by
        simp
      rw [e] at hchain
      exact hchain
    exact (cycle_mem_reads hc2).1
  have hTLeq : prv s lst = lastD (rr.map Ptr.slot) (Ptr.slot r0) := by
    rw [hlst]
    have := (cycle_seam hchain).2
    rw [lastD_append, lastD_cons] at this
    exact this
  set F : Ptr := Ptr.slot r0 with hF
  set s1 : intrusive_list P := setNext s (prv s F) lst with hs1
  set s2 : intrusive_list P := setPrev s1 lst (prv s1 F) with hs2
  have hn1 : ∀ q, nxt s1 q =
      if q = lastD (l1.map Ptr.slot) .sent then lst else nxt s q := by
    intro q
    rw [hs1, hAeq]
    rcases eq_or_ne q (lastD (l1.map Ptr.slot) .sent) with h1 | h1
    · rw [if_pos h1, h1, nxt_setNext_selfH _ _ hvA]
    · rw [if_neg h1, nxt_setNext_neH _ _ h1]
  have hp1 : ∀ q, prv s1 q = prv s q := fun q => by rw [hs1, prv_setNextH]
  have hval1 : ∀ j, payload s1 j = payload s j := fun j => by rw [hs1, payload_setNext]
  have hlen1 : s1.heap.length = s.heap.length := by rw [hs1, setNext_heapLen]
  have hn2 : ∀ q, nxt s2 q = nxt s1 q := fun q => by rw [hs2, nxt_setPrevH]
  have hp2 : ∀ q, prv s2 q =
      if q = lst then lastD (l1.map Ptr.slot) .sent else prv s q := by
    intro q
    rw [hs2, hp1, hAeq]
    rcases eq_or_ne q lst with h1 | h1
    · rw [if_pos h1, h1, prv_setPrev_selfH _ _ (by rw [hs1, validB_setNextH]; exact hvlst)]
    · rw [if_neg h1, prv_setPrev_neH _ _ h1, hp1]
  have hval2 : ∀ j, payload s2 j = payload s j := fun j => by
    rw [hs2, payload_setPrev, hval1]
  have hlen2 : s2.heap.length = s.heap.length := by rw [hs2, setPrev_heapLen, hlen1]
  have hv2 : ∀ q, validB s2 q = validB s q := validB_of_lenH hlen2
  have hcyrem : cycleB (nxt s2) (prv s2) (l1.map Ptr.slot ++ l2.map Ptr.slot) = true := by
    refine cycle_remove_seg hchain hptrnd ?_ ?_
    · intro q hq
      rw [hn2 q, hn1 q, hlst]
    · intro q hq
      rw [hp2 q, hlst]
  have hcyrem2 : cycleB (nxt s2) (prv s2) (m1.map Ptr.slot ++ m2.map Ptr.slot) = true := by
    rw [← hmm2]
    exact hcyrem
  have hB0eq : prv s2 pos = lastD (m1.map Ptr.slot) .sent := by
    rw [hpos]
    exact (cycle_seam hcyrem2).2
  have hsegR : segB (nxt s2) (prv s2) F (rr.map Ptr.slot) = true := by
    have hsegR0 : segB (nxt s) (prv s) F (rr.map Ptr.slot) = true := by
      rcases cycleB_iff.mp hchain with ⟨hseg, _, _⟩
      rcases segB_append.mp hseg with ⟨hseg1R, _⟩
      rcases segB_append.mp hseg1R with ⟨_, hsegR1⟩
      exact (segB_cons.mp hsegR1).2.2
    refine segB_of_congr hsegR0 ?_ ?_
    · intro q hq
      have hqR : q ∈ F :: rr.map Ptr.slot := (List.dropLast_sublist _).mem hq
      have hqA : q ≠ lastD (l1.map Ptr.slot) .sent := by
        intro hc
        exact h12R _ hA12 (hc ▸ hqR)
      rw [hn2 q, hn1 q, if_neg hqA]
    · intro q hq
      have hqR : q ∈ F :: rr.map Ptr.slot := List.mem_cons_of_mem _ hq
      have hqlst : q ≠ lst := by
        intro hc
        exact h12R _ hlstmem (hc ▸ hqR)
      rw [hp2 q, if_neg hqlst]
  set s3 : intrusive_list P := setNext s2 (prv s2 pos) F with hs3
  set s4 : intrusive_list P := setPrev s3 F (prv s2 pos) with hs4
  set s5 : intrusive_list P := setNext s4 (prv s lst) pos with hs5
  set t : intrusive_list P := setPrev s5 pos (prv s lst) with ht
  have hn3 : ∀ q, nxt s3 q =
      if q = lastD (m1.map Ptr.slot) .sent then F else nxt s2 q := by
    intro q
    rw [hs3, hB0eq]
    rcases eq_or_ne q (lastD (m1.map Ptr.slot) .sent) with h1 | h1
    · rw [if_pos h1, h1, nxt_setNext_selfH _ _ (by rw [hv2]; exact hvB0)]
    · rw [if_neg h1, nxt_setNext_neH _ _ h1]
  have hp3 : ∀ q, prv s3 q = prv s2 q := fun q => by rw [hs3, prv_setNextH]
  have hlen3 : s3.heap.length = s.heap.length := by rw [hs3, setNext_heapLen, hlen2]
  have hn4 : ∀ q, nxt s4 q = nxt s3 q := fun q => by rw [hs4, nxt_setPrevH]
  have hp4 : ∀ q, prv s4 q =
      if q = F then lastD (m1.map Ptr.slot) .sent else prv s2 q := by
    intro q
    rw [hs4, hB0eq]
    rcases eq_or_ne q F with h1 | h1
    · rw [if_pos h1, h1,
        prv_setPrev_selfH _ _ (by rw [validB_of_lenH hlen3]; exact hvF)]
    · rw [if_neg h1, prv_setPrev_neH _ _ h1, hp3]
  have hlen4 : s4.heap.length = s.heap.length := by rw [hs4, setPrev_heapLen, hlen3]
  have hn5 : ∀ q, nxt s5 q =
      if q = lastD (rr.map Ptr.slot) F then pos else nxt s3 q := by
    intro q
    rw [hs5, hTLeq]
    rcases eq_or_ne q (lastD (rr.map Ptr.slot) F) with h1 | h1
    · rw [if_pos h1, h1,
        nxt_setNext_selfH _ _ (by rw [validB_of_lenH hlen4]; exact hvTL)]
    · rw [if_neg h1, nxt_setNext_neH _ _ h1, hn4]
  have hp5 : ∀ q, prv s5 q = prv s4 q := fun q => by rw [hs5, prv_setNextH]
  have hlen5 : s5.heap.length = s.heap.length := by rw [hs5, setNext_heapLen, hlen4]
  have hnt : ∀ q, nxt t q =
      if q = lastD (rr.map Ptr.slot) F then pos
      else if q = lastD (m1.map Ptr.slot) .sent then F
      else if q = lastD (l1.map Ptr.slot) .sent then lst
      else nxt s q := by
    intro q
    rw [ht, nxt_setPrevH, hn5 q, hn3 q, hn2 q, hn1 q]
  have hpt : ∀ q, prv t q =
      if q = pos then lastD (rr.map Ptr.slot) F
      else if q = F then lastD (m1.map Ptr.slot) .sent
      else if q = lst then lastD (l1.map Ptr.slot) .sent
      else prv s q := by
    intro q
    rw [ht, hTLeq]
    rcases eq_or_ne q pos with h1 | h1
    · rw [if_pos h1, h1,
        prv_setPrev_selfH _ _ (by rw [validB_of_lenH hlen5]; exact hvpos)]
    · rw [if_neg h1, prv_setPrev_neH _ _ h1, hp5, hp4, hp2]
  have hval : ∀ j, payload t j = payload s j := by
    intro j
    rw [ht]
    show payload (setPrev s5 pos (prv s lst)) j = payload s j
    rw [payload_setPrev, hs5, payload_setNext, hs4, payload_setPrev, hs3,
      payload_setNext, hval2]
  have hlent : t.heap.length = s.heap.length := by
    rw [ht, setPrev_heapLen, hlen5]
  have hndnew : (Ptr.sent :: ((m1.map Ptr.slot ++ (F :: rr.map Ptr.slot)) ++
      m2.map Ptr.slot)).Nodup := by
    have hperm : ((l1.map Ptr.slot ++ (F :: rr.map Ptr.slot)) ++ l2.map Ptr.slot).Perm
        ((m1.map Ptr.slot ++ (F :: rr.map Ptr.slot)) ++ m2.map Ptr.slot) := by
      have e1 : (l1.map Ptr.slot ++ (F :: rr.map Ptr.slot)) ++ l2.map Ptr.slot =
          l1.map Ptr.slot ++ ((F :: rr.map Ptr.slot) ++ l2.map Ptr.slot) :=
        List.append_assoc _ _ _
      have e2 : (m1.map Ptr.slot ++ (F :: rr.map Ptr.slot)) ++ m2.map Ptr.slot =
          m1.map Ptr.slot ++ ((F :: rr.map Ptr.slot) ++ m2.map Ptr.slot) :=
        List.append_assoc _ _ _
      rw [e1, e2]
      refine List.Perm.trans (List.perm_append_comm_assoc _ _ _) ?_
      refine List.Perm.trans ?_ (List.perm_append_comm_assoc _ _ _).symm
      refine List.Perm.append_left _ ?_
      rw [hmm2]
    exact (List.Perm.nodup_iff (List.Perm.cons _ hperm)).mp hptrnd
  have hchainNew : cycleB (nxt t) (prv t)
      ((m1.map Ptr.slot ++ (F :: rr.map Ptr.slot)) ++ m2.map Ptr.slot) = true := by
    refine cycle_insert_seg hcyrem2 hndnew hsegR ?_ ?_ ?_ ?_ ?_ ?_
    · intro q hq
      have hTLin : lastD (rr.map Ptr.slot) F ∈ F :: rr.map Ptr.slot := lastD_mem_cons _ _
      have hqTL : q ≠ lastD (rr.map Ptr.slot) F := fun hc => hq (hc ▸ hTLin)
      rw [hnt q, if_neg hqTL]
      rcases eq_or_ne q (lastD (m1.map Ptr.slot) .sent) with h1 | h1
      · rw [if_pos h1, if_pos h1]
      · rw [if_neg h1, if_neg h1, hn2 q, hn1 q]
    · intro q hq
      have hqF : q ≠ F := fun hc => hq (hc ▸ List.mem_cons_self _ _)
      rw [hpt q, ← hpos]
      rcases eq_or_ne q pos with h1 | h1
      · rw [if_pos h1, if_pos h1]
      · rw [if_neg h1, if_neg h1, if_neg hqF, hp2 q]
    · intro q hq hqTL
      have hqB0 : q ≠ lastD (m1.map Ptr.slot) .sent := fun hc =>
        h12R _ hB0mem (hc ▸ hq)
      have hqA : q ≠ lastD (l1.map Ptr.slot) .sent := fun hc =>
        h12R _ hA12 (hc ▸ hq)
      rw [hnt q, if_neg hqTL, if_neg hqB0, if_neg hqA, hn2 q, hn1 q, if_neg hqA]
    · rw [hnt, if_pos rfl, hpos]
    · intro q hq hqF
      have hqpos : q ≠ pos := fun hc => h12R _ hposmem (hc ▸ hq)
      have hqlst : q ≠ lst := fun hc => h12R _ hlstmem (hc ▸ hq)
      rw [hpt q, if_neg hqpos, if_neg hqF, if_neg hqlst, hp2 q, if_neg hqlst]
    · rw [hpt, if_neg hFpos, if_pos rfl]
  have hop : spliceRange s pos F lst = t := by
    unfold spliceRange
    rw [if_neg hFlst]
  rw [hop]
  have hmemiff : ∀ i, i ∈ (m1 ++ (r0 :: rr) ++ m2) ↔ i ∈ (l1 ++ (r0 :: rr) ++ l2) := by
    intro i
    have hm3 : i ∈ l1 ++ l2 ↔ i ∈ m1 ++ m2 := by rw [hm]
    simp only [List.mem_append, List.mem_cons] at hm3 ⊢
    constructor
    · intro hh
      rcases hh with (hh | hh) | hh
      · rcases hm3.mpr (Or.inl hh) with h2 | h2
        · exact Or.inl (Or.inl h2)
        · exact Or.inr h2
      · exact Or.inl (Or.inr hh)
      · rcases hm3.mpr (Or.inr hh) with h2 | h2
        · exact Or.inl (Or.inl h2)
        · exact Or.inr h2
    · intro hh
      rcases hh with (hh | hh) | hh
      · rcases hm3.mp (Or.inl hh) with h2 | h2
        · exact Or.inl (Or.inl h2)
        · exact Or.inr h2
      · exact Or.inl (Or.inr hh)
      · rcases hm3.mp (Or.inr hh) with h2 | h2
        · exact Or.inl (Or.inl h2)
        · exact Or.inr h2
  refine ⟨⟨?_, ?_, ?_, ?_⟩, hval, hnt, hpt, hlent⟩
  · rw [List.map_append, List.map_append, List.map_cons]
    exact hchainNew
  · intro i hi
    rw [hlent]
    exact h.bound i ((hmemiff i).mp hi)
  · have hmapnd : ((m1 ++ (r0 :: rr) ++ m2).map Ptr.slot).Nodup := by
      rw [List.map_append, List.map_append, List.map_cons]
      exact (List.nodup_cons.mp hndnew).2
    exact hmapnd.of_map
  · intro i hi
    have hinot : i ∉ l1 ++ (r0 :: rr) ++ l2 := fun hc => hi ((hmemiff i).mpr hc)
    have hne : ∀ q, q ∈ Ptr.sent ::
        ((l1.map Ptr.slot ++ (Ptr.slot r0 :: rr.map Ptr.slot)) ++ l2.map Ptr.slot) →
        Ptr.slot i ≠ q := by
      intro q hq hc
      rcases List.mem_cons.mp hq with hq | hq
      · exact Ptr.noConfusion (hc.trans hq)
      · have hq2 : q ∈ ((l1 ++ (r0 :: rr)) ++ l2).map Ptr.slot := by
          rw [List.map_append, List.map_append, List.map_cons]
          exact hq
        rcases List.mem_map.mp hq2 with ⟨j, hj, hje⟩
        have hji : j = i := ll_list_pool.slot_injective (hje.trans hc.symm)
        exact hinot (by rw [← hji]; exact hj)
    constructor
    · rw [hpt]
      rw [if_neg (hne _ (hmem12 _ hposmem)), if_neg (hne _ (hmemR _ (List.mem_cons_self _ _))),
        if_neg (hne _ (hmem12 _ hlstmem))]
      exact (h.offNull i hinot).1
    · rw [hnt]
      rw [if_neg (hne _ (hmemR _ hTLmem)), if_neg (hne _ (hmem12 _ hB0mem)),
        if_neg (hne _ (hmem12 _ hA12))]
      exact (h.offNull i hinot).2

end intrusive_list

namespace intrusive_list

variable {P : Type}

/-- The `clear()` loop `while (!empty()) remove(front());`: on a
well-formed list it removes the front element once per iteration, so with
enough fuel it empties the list; payloads and the heap length are
untouched. -/
theorem clearLoop_specH :
    ∀ (xs : List Nat) (s : intrusive_list P) (fuel : Nat),
      RepH s xs → xs.length < fuel →
      RepH (clearLoop s fuel) [] ∧
        (∀ j, payload (clearLoop s fuel) j = payload s j) ∧
        (clearLoop s fuel).heap.length = s.heap.length := by
  intro xs
  induction xs with
  | nil =>
    intro s fuel h hfuel
    cases fuel with
    | zero => omega
    | succ f =>
      have hsent : s.snext = Ptr.sent := cycle_nxt_sent h.chain
      rw [clearLoop, if_pos hsent]
      exact ⟨h, fun j => rfl, rfl⟩
  | cons x xs2 ih =>
    intro s fuel h hfuel
    cases fuel with
    | zero => simp at hfuel
    | succ f =>
      have hsent : s.snext = Ptr.slot x := by
        have := cycle_nxt_sent h.chain
        simpa using this
      have hne : ¬ s.snext = Ptr.sent := by
        rw [hsent]
        exact fun hc => Ptr.noConfusion hc
      rw [clearLoop, if_neg hne, hsent]
      have hxs : x :: xs2 = [] ++ x :: xs2 := rfl
      have hrm := remove_spec s h hxs
      have hrep2 : RepH (remove s (.slot x)) xs2 := by
        have := hrm.1
        simpa using this
      have hih := ih (remove s (.slot x)) f hrep2 (by
        have := hfuel
        simp at this ⊢
        omega)
      refine ⟨hih.1, ?_, ?_⟩
      · intro j
        rw [hih.2.1 j, hrm.2.2.2.2.2.2.1 j]
      · rw [hih.2.2, hrm.2.2.2.2.2.2.2]

/-- `clear()` on a well-formed intrusive list: the list empties (all hooks
unlinked, sentinel self-linked), payloads and heap length untouched. -/
theorem clear_specH (s : intrusive_list P) {xs : List Nat} (h : RepH s xs) :
    RepH (clear s) [] ∧
      (∀ j, payload (clear s) j = payload s j) ∧
      (∀ i, prv (clear s) (.slot i) = .null ∧ nxt (clear s) (.slot i) = .null) ∧
      nxt (clear s) .sent = .sent ∧ prv (clear s) .sent = .sent ∧
      (clear s).heap.length = s.heap.length := by
  have hsub : xs ⊆ List.range s.heap.length := by
    intro i hi
    rw [List.mem_range]
    exact h.bound i hi
  have hlen : xs.length ≤ s.heap.length := by
    have hsp : xs.Subperm (List.range s.heap.length) :=
      List.subperm_of_subset h.nodup hsub
    simpa using hsp.length_le
  have hloop := clearLoop_specH xs s (s.heap.length + 1) h (by omega)
  refine ⟨hloop.1, hloop.2.1, ?_, ?_, ?_, hloop.2.2⟩
  · intro i
    exact hloop.1.offNull i (by simp)
  · have := cycle_nxt_sent hloop.1.chain
    simpa using this
  · have := cycle_prv_sent hloop.1.chain
    simpa using this

end intrusive_list

namespace ll_list_pool

/-- States of `ll_list_pool` reachable by the public interface: a fresh
construction followed by any sequence of successful emplaces, erases of
live elements, splices with a valid destination position and `clear`
calls (position arguments are as the C++ preconditions demand: an erased
or moved node is a live element, a destination is a live element or
`end()`). -/
inductive ReachableP {V : Type} : ll_list_pool V → Prop where
  | init (c : Nat) : ReachableP (construct V c)
  | emplace_back_step (s : ll_list_pool V) (v : V) (n : Ptr) (t : ll_list_pool V) :
      ReachableP s → emplace_back s v = .ok (n, t) → ReachableP t
  | emplace_front_step (s : ll_list_pool V) (v : V) (n : Ptr) (t : ll_list_pool V) :
      ReachableP s → emplace_front s v = .ok (n, t) → ReachableP t
  | erase_step (s : ll_list_pool V) (x : Nat) (u v xs fs : List Nat) :
      ReachableP s → Rep s xs fs → xs = u ++ x :: v →
      ReachableP (erase s (.slot x)).2
  | splice_step (s : ll_list_pool V) (x : Nat) (u v m1 m2 xs fs : List Nat) (pos : Ptr) :
      ReachableP s → Rep s xs fs → xs = u ++ x :: v → u ++ v = m1 ++ m2 →
      pos = firstD (m2.map Ptr.slot) .sent →
      ReachableP (splice s pos (.slot x))
  | spliceRange_step (s : ll_list_pool V) (r0 : Nat)
      (l1 rr l2 m1 m2 xs fs : List Nat) (pos lst : Ptr) :
      ReachableP s → Rep s xs fs → xs = l1 ++ (r0 :: rr) ++ l2 →
      l1 ++ l2 = m1 ++ m2 → pos = firstD (m2.map Ptr.slot) .sent →
      lst = firstD (l2.map Ptr.slot) .sent →
      ReachableP (spliceRange s pos (.slot r0) lst)
  | clear_step (s : ll_list_pool V) : ReachableP s → ReachableP (clear s)

/-- Every reachable pool-list state satisfies the representation
invariant. -/
theorem reachableP_rep {V : Type} {s : ll_list_pool V} (h : ReachableP s) :
    ∃ xs fs, Rep s xs fs := by
  induction h with
  | init c => exact ⟨[], (List.range c).reverse, construct_rep V c⟩
  | emplace_back_step s2 v n t hr hok ih =>
    rcases ih with ⟨xs, fs, hrep⟩
    cases fs with
    | nil =>
      rw [(emplace_exhausted s2 v hrep).1] at hok
      exact absurd hok (fun hc => Except.noConfusion hc)
    | cons f fs2 =>
      rcases emplace_back_spec s2 v hrep with ⟨t2, heq, hrep2, _⟩
      rw [heq] at hok
      injection hok with h1
      injection h1 with h2 h3
      rw [← h3]
      exact ⟨xs ++ [f], fs2, hrep2⟩
  | emplace_front_step s2 v n t hr hok ih =>
    rcases ih with ⟨xs, fs, hrep⟩
    cases fs with
    | nil =>
      rw [(emplace_exhausted s2 v hrep).2] at hok
      exact absurd hok (fun hc => Except.noConfusion hc)
    | cons f fs2 =>
      rcases emplace_front_spec s2 v hrep with ⟨t2, heq, hrep2, _⟩
      rw [heq] at hok
      injection hok with h1
      injection h1 with h2 h3
      rw [← h3]
      exact ⟨f :: xs, fs2, hrep2⟩
  | erase_step s2 x u v xs fs hr hrep hxs ih =>
    exact ⟨u ++ v, x :: fs, (erase_spec s2 hrep hxs).2⟩
  | splice_step s2 x u v m1 m2 xs fs pos hr hrep hxs hm hpos ih =>
    exact ⟨m1 ++ x :: m2, fs, (splice_spec s2 hrep hxs hm hpos).1⟩
  | spliceRange_step s2 r0 l1 rr l2 m1 m2 xs fs pos lst hr hrep hxs hm hpos hlst ih =>
    exact ⟨m1 ++ (r0 :: rr) ++ m2, fs,
      (spliceRange_spec s2 hrep hxs hm hpos hlst).1⟩
  | clear_step s2 hr ih =>
    rcases ih with ⟨xs, fs, hrep⟩
    exact ⟨[], xs.reverse ++ fs, (clear_spec s2 hrep).1⟩

end ll_list_pool

namespace intrusive_list

/-- States of `intrusive_list` (with its externally owned hooks)
reachable by the public interface: a fresh construction over any host
objects followed by pushes of unlinked hooks, removes, splices of a live
or unlinked hook before a valid position, range splices and `clear`
calls. -/
inductive ReachableH {P : Type} : intrusive_list P → Prop where
  | init (hosts : List P) : ReachableH (construct hosts)
  | push_front_step (s : intrusive_list P) (x : Nat) (xs : List Nat) :
      ReachableH s → RepH s xs → x ∉ xs → x < s.heap.length →
      ReachableH (push_front s (.slot x))
  | push_back_step (s : intrusive_list P) (x : Nat) (xs : List Nat) :
      ReachableH s → RepH s xs → x ∉ xs → x < s.heap.length →
      ReachableH (push_back s (.slot x))
  | remove_step (s : intrusive_list P) (x : Nat) :
      ReachableH s → ReachableH (remove s (.slot x))
  | splice_move_step (s : intrusive_list P) (x : Nat) (u v m1 m2 xs : List Nat)
      (pos : Ptr) :
      ReachableH s → RepH s xs → xs = u ++ x :: v → u ++ v = m1 ++ m2 →
      pos = firstD (m2.map Ptr.slot) .sent →
      ReachableH (splice s pos (.slot x))
  | splice_insert_step (s : intrusive_list P) (x : Nat) (m1 m2 xs : List Nat)
      (pos : Ptr) :
      ReachableH s → RepH s xs → x ∉ xs → x < s.heap.length →
      xs = m1 ++ m2 → pos = firstD (m2.map Ptr.slot) .sent →
      ReachableH (splice s pos (.slot x))
  | spliceRange_step (s : intrusive_list P) (r0 : Nat)
      (l1 rr l2 m1 m2 xs : List Nat) (pos lst : Ptr) :
      ReachableH s → RepH s xs → xs = l1 ++ (r0 :: rr) ++ l2 →
      l1 ++ l2 = m1 ++ m2 → pos = firstD (m2.map Ptr.slot) .sent →
      lst = firstD (l2.map Ptr.slot) .sent →
      ReachableH (spliceRange s pos (.slot r0) lst)
  | clear_step (s : intrusive_list P) : ReachableH s → ReachableH (clear s)

/-- Every reachable intrusive-list state satisfies the representation
invariant. -/
theorem reachableH_rep {P : Type} {s : intrusive_list P} (h : ReachableH s) :
    ∃ xs, RepH s xs := by
  induction h with
  | init hosts => exact ⟨[], construct_repH hosts⟩
  | push_front_step s2 x xs hr hrep hx hl ih =>
    exact ⟨x :: xs, (push_front_spec s2 hrep hx hl).1⟩
  | push_back_step s2 x xs hr hrep hx hl ih =>
    exact ⟨xs ++ [x], (push_back_spec s2 hrep hx hl).1⟩
  | remove_step s2 x hr ih =>
    rcases ih with ⟨xs, hrep⟩
    by_cases hx : x ∈ xs
    · rcases List.append_of_mem hx with ⟨u, v, rfl⟩
      exact ⟨u ++ v, (remove_spec s2 hrep rfl).1⟩
    · have hnl : is_linked s2 (.slot x) = false :=
        is_linked_false_of_prv_null (hrep.offNull x hx).1
      have : remove s2 (.slot x) = s2 := unlink_not_linked s2 _ hnl
      rw [this]
      exact ⟨xs, hrep⟩
  | splice_move_step s2 x u v m1 m2 xs pos hr hrep hxs hm hpos ih =>
    exact ⟨m1 ++ x :: m2, (splice_specH s2 hrep hxs hm hpos).1⟩
  | splice_insert_step s2 x m1 m2 xs pos hr hrep hx hl hm hpos ih =>
    exact ⟨m1 ++ x :: m2, (splice_unlinked_spec s2 hrep hx hl hm hpos).1⟩
  | spliceRange_step s2 r0 l1 rr l2 m1 m2 xs pos lst hr hrep hxs hm hpos hlst ih =>
    exact ⟨m1 ++ (r0 :: rr) ++ m2, (spliceRange_specH s2 hrep hxs hm hpos hlst).1⟩
  | clear_step s2 hr ih =>
    rcases ih with ⟨xs, hrep⟩
    exact ⟨[], (clear_specH s2 hrep).1⟩

end intrusive_list

namespace ll_list_pool

variable {V : Type}

/-- Forward iteration from `begin()` to `end()` reading each value, with
fuel `k` bounding the walk. -/
def listValsAux (s : ll_list_pool V) : Ptr → Nat → List (Option V)
  | _, 0 => []
  | p, k + 1 => if p = .sent then [] else val s p :: listValsAux s (nxt s p) k

/-- The values seen by a forward traversal `begin()` to `end()` (at most
`size` of them). -/
def listVals (s : ll_list_pool V) : List (Option V) :=
  listValsAux s (nxt s .sent) s.size

theorem listValsAux_fwd (s : ll_list_pool V) :
    ∀ (l : List Nat) (p : Ptr) (k : Nat), fwdB s p l = true → l.length ≤ k →
      listValsAux s p k = l.map (fun i => val s (.slot i)) := by
  intro l
  induction l with
  | nil =>
    intro p k hf _
    have hp : p = .sent := by simpa [fwdB] using hf
    subst hp
    cases k with
    | zero => rfl
    | succ k2 =>
      show (if (Ptr.sent = Ptr.sent) then [] else _) = _
      rw [if_pos rfl]
      rfl
  | cons i l ih =>
    intro p k hf hk
    have hp : p = Ptr.slot i ∧ fwdB s (nxt s (.slot i)) l = true := by
      simpa [fwdB] using hf
    cases k with
    | zero => simp at hk
    | succ k2 =>
      rw [hp.1]
      show (if (Ptr.slot i = Ptr.sent) then [] else
        val s (.slot i) :: listValsAux s (nxt s (.slot i)) k2) = _
      rw [if_neg (fun hc => Ptr.noConfusion hc), List.map_cons]
      congr 1
      exact ih _ k2 hp.2 (by simpa using hk)

/-- On a well-formed list the traversal reads exactly the live elements in
order. -/
theorem listVals_spec (s : ll_list_pool V) {xs fs : List Nat} (h : Rep s xs fs) :
    listVals s = xs.map (fun i => val s (.slot i)) := by
  rcases cycleB_iff.mp h.chain with ⟨hseg, hclose, _⟩
  have hfwd : fwdB s (nxt s .sent) xs = true := segB_fwdB xs .sent hseg hclose
  exact listValsAux_fwd s xs _ s.size hfwd (by rw [h.sizeEq])

/-- A sequence of `emplace_back` calls, stopping at the first failure. -/
def emplaceSeqB (s : ll_list_pool V) : List V → Except PoolError (ll_list_pool V)
  | [] => .ok s
  | v :: vs => match emplace_back s v with
    | .error e => .error e
    | .ok (_, t) => emplaceSeqB t vs

/-- As long as the free chain is long enough, every `emplace_back` of the
sequence succeeds: the new elements land at the back in call order with
their values, old values stay, and the free chain shrinks accordingly. -/
theorem emplaceSeqB_spec (s : ll_list_pool V) :
    ∀ (vs : List V) {xs fs : List Nat}, Rep s xs fs → vs.length ≤ fs.length →
      ∃ (t : ll_list_pool V) (ys : List Nat), emplaceSeqB s vs = .ok t ∧
        Rep t (xs ++ ys) (fs.drop vs.length) ∧
        ys.length = vs.length ∧
        (xs ++ ys).map (fun i => val t (.slot i)) =
          xs.map (fun i => val s (.slot i)) ++ vs.map some ∧
        t.slab.length = s.slab.length ∧ t.size = xs.length + vs.length := by
  intro vs
  induction vs generalizing s with
  | nil =>
    intro xs fs hrep _
    refine ⟨s, [], rfl, ?_, rfl, by simp, rfl, ?_⟩
    · simpa using hrep
    · rw [hrep.sizeEq]
      simp
  | cons v vs2 ih =>
    intro xs fs hrep hk
    cases fs with
    | nil => simp at hk
    | cons f fs2 =>
      rcases emplace_back_spec s v hrep with ⟨t1, heq, hrep1, hval1, hframe1, hlen1⟩
      have hff : f ∉ xs := by
        have hnd := hrep.nodupAll
        exact fun hc => (List.nodup_append.mp hnd).2.2 hc (List.mem_cons_self f fs2)
      have hk2 : vs2.length ≤ fs2.length := by simpa using hk
      rcases ih t1 hrep1 hk2 with ⟨t, ys2, hok, hrep2, hlen2, hmap2, hsl2, hsz2⟩
      have hop : emplaceSeqB s (v :: vs2) = emplaceSeqB t1 vs2 := by
        show (match emplace_back s v with
          | .error e => .error e
          | .ok (_, t2) => emplaceSeqB t2 vs2) = emplaceSeqB t1 vs2
        rw [heq]
      refine ⟨t, f :: ys2, by rw [hop]; exact hok, ?_, by simpa using hlen2, ?_, ?_, ?_⟩
      · have e1 : xs ++ f :: ys2 = (xs ++ [f]) ++ ys2 := by
          rw [List.append_assoc]
          rfl
        rw [e1]
        have e2 : (f :: fs2).drop (v :: vs2).length = fs2.drop vs2.length := rfl
        rw [e2]
        exact hrep2
      · have e1 : xs ++ f :: ys2 = (xs ++ [f]) ++ ys2 := by
          rw [List.append_assoc]
          rfl
        rw [e1, hmap2]
        have e3 : (xs ++ [f]).map (fun i => val t1 (.slot i)) =
            xs.map (fun i => val s (.slot i)) ++ [some v] := by
          rw [List.map_append]
          congr 1
          · refine List.map_congr_left ?_
            intro i hi
            refine hframe1 _ ?_
            intro hc
            exact hff (by rw [← ll_list_pool.slot_injective hc]; exact hi)
          · rw [List.map_singleton, hval1]
        rw [e3, List.append_assoc]
        rfl
      · rw [hsl2, hlen1]
      · rw [hsz2]
        simp
        omega

end ll_list_pool

/-- An exact lap of a cycle: starting at the sentinel, the forward read
returns to the sentinel after exactly one more step than the number of
elements, and never earlier. -/
theorem lap_exact {n p : Ptr → Ptr} {xs : List Nat}
    (h : cycleB n p (xs.map Ptr.slot) = true) :
    iterF n .sent (xs.length + 1) = .sent ∧
      ∀ k, 0 < k → k ≤ xs.length → iterF n .sent k ≠ .sent := by
  constructor
  · have hl := cycle_lap h
    simpa using hl
  · intro k hk0 hkl
    cases k with
    | zero => omega
    | succ j =>
      have hm := cycle_lap_mem h j (by simpa using hkl)
      intro hc
      rw [hc] at hm
      rcases List.mem_map.mp hm with ⟨i, _, hi⟩
      exact Ptr.noConfusion hi

/-- The backward lap, by reading the cycle in reverse. -/
theorem lap_exact_rev {n p : Ptr → Ptr} {xs : List Nat}
    (h : cycleB n p (xs.map Ptr.slot) = true) :
    iterF p .sent (xs.length + 1) = .sent ∧
      ∀ k, 0 < k → k ≤ xs.length → iterF p .sent k ≠ .sent := by
  have hrev := cycle_reverse h
  rw [← List.map_reverse] at hrev
  have := lap_exact hrev
  rwa [List.length_reverse] at this

namespace intrusive_list

variable {P : Type}

/-- `unlink(x)` of a linked in-range hook always nulls the hook's own two
link fields: the two final writes of the unlink body land on the hook
itself, whatever its neighbours are. -/
theorem unlink_own_fields (s : intrusive_list P) {i : Nat}
    (hl : i < s.heap.length) (hL : is_linked s (.slot i) = true) :
    prv (unlink s (.slot i)) (.slot i) = .null ∧
      nxt (unlink s (.slot i)) (.slot i) = .null := by
  rw [unlink, if_neg (by simp [hL])]
  show prv (setNext (setPrev
      (setPrev (setNext s (prv s (.slot i)) (nxt s (.slot i)))
        (nxt (setNext s (prv s (.slot i)) (nxt s (.slot i))) (.slot i))
        (prv (setNext s (prv s (.slot i)) (nxt s (.slot i))) (.slot i))) (.slot i) .null)
      (.slot i) .null) (.slot i) = .null ∧
    nxt (setNext (setPrev
      (setPrev (setNext s (prv s (.slot i)) (nxt s (.slot i)))
        (nxt (setNext s (prv s (.slot i)) (nxt s (.slot i))) (.slot i))
        (prv (setNext s (prv s (.slot i)) (nxt s (.slot i))) (.slot i))) (.slot i) .null)
      (.slot i) .null) (.slot i) = .null
  constructor
  · rw [prv_setNextH]
    refine prv_setPrev_selfH _ _ ?_
    simp [validB, hl]
  · refine nxt_setNext_selfH _ _ ?_
    simp [validB, hl]

end intrusive_list

/-- C6: for every state of either list variant, a self-splice
`splice(pos, pos)` returns before touching anything, so the resulting
structure is byte for byte the structure before the call. -/
theorem C6_self_splice_noop :
    (∀ (V : Type) (s : ll_list_pool V) (pos : Ptr),
      ll_list_pool.splice s pos pos = s) ∧
    (∀ (P : Type) (s : intrusive_list P) (pos : Ptr),
      intrusive_list.splice s pos pos = s) := by
  constructor
  · intro V s pos
    rw [ll_list_pool.splice, if_pos rfl]
  · intro P s pos
    rw [intrusive_list.splice, if_pos rfl]

namespace ll_list_pool

/-- Project the state out of a successful emplace sequence. -/
def getOk {V : Type} : Except PoolError (ll_list_pool V) → ll_list_pool V → ll_list_pool V
  | .ok t, _ => t
  | .error _, d => d

/-- The state of the worked example: a pool list of capacity 4 after
`emplace_back(1)`, `emplace_back(2)`, `emplace_back(3)`. -/
def c7state : ll_list_pool Nat :=
  getOk (emplaceSeqB (construct Nat 4) [1, 2, 3]) (construct Nat 0)

end ll_list_pool

instance {E A : Type} [DecidableEq E] [DecidableEq A] : DecidableEq (Except E A) :=
  fun x y =>
  match x, y with
  | .ok a, .ok b =>
    if h : a = b then .isTrue (by rw [h]) else .isFalse (fun hc => h (by injection hc))
  | .error a, .error b =>
    if h : a = b then .isTrue (by rw [h]) else .isFalse (fun hc => h (by injection hc))
  | .ok a, .error b => .isFalse (fun hc => Except.noConfusion hc)
  | .error a, .ok b => .isFalse (fun hc => Except.noConfusion hc)

/-- C7: on a pool list of capacity 4, emplacing 1, 2, 3 at the back gives
forward traversal [1, 2, 3], and `splice(begin(), --end())` (move the
last node before the first) gives forward traversal [3, 1, 2]. -/
theorem C7_worked_example :
    ll_list_pool.emplaceSeqB (ll_list_pool.construct Nat 4) [1, 2, 3] =
        Except.ok ll_list_pool.c7state ∧
      ll_list_pool.listVals ll_list_pool.c7state = [some 1, some 2, some 3] ∧
      ll_list_pool.listVals
        (ll_list_pool.splice ll_list_pool.c7state
          (ll_list_pool.nxt ll_list_pool.c7state .sent)
          (ll_list_pool.prv ll_list_pool.c7state .sent)) = [some 3, some 1, some 2] := by
  refine ⟨?_, ?_, ?_⟩ <;> decide

/-- C9: removing an intrusive hook whose two link fields are null is a
total no-op: the early return of `unlink` fires and the whole state (the
hook, the sentinel and every host object) is byte for byte unchanged. -/
theorem C9_remove_unlinked_noop (P : Type) (s : intrusive_list P) (h : Ptr)
    (hp : intrusive_list.prv s h = .null) (hn : intrusive_list.nxt s h = .null) :
    intrusive_list.remove s h = s := by
  rw [intrusive_list.remove]
  exact intrusive_list.unlink_not_linked s h
    (intrusive_list.is_linked_false_of_prv_null hp)

/-- Witness for C9 at a concrete state: removing the unlinked hook of the
first host of a fresh two-host list changes nothing. -/
theorem C9_witness :
    intrusive_list.prv (intrusive_list.construct ([3, 4] : List Nat)) (.slot 0) = .null ∧
      intrusive_list.nxt (intrusive_list.construct ([3, 4] : List Nat)) (.slot 0) = .null ∧
      intrusive_list.remove (intrusive_list.construct ([3, 4] : List Nat)) (.slot 0) =
        intrusive_list.construct ([3, 4] : List Nat) :=
  ⟨by decide, by decide,
    C9_remove_unlinked_noop Nat (intrusive_list.construct [3, 4]) (.slot 0)
      (by decide) (by decide)⟩

/-- C2: a pool list of capacity C accepts exactly C emplaces: every call
of the sequence succeeds, the C values are then all present and iterable
in order, and one further emplace (back or front) fails with PoolExhausted
surfaced to its caller — the failure is raised before any state is
touched, so the embedding returns the error with no successor state and
the C entries survive intact. -/
theorem C2_capacity_exhaustion (V : Type) (c : Nat) (vs : List V) (w : V)
    (hlen : vs.length = c) :
    ∃ t : ll_list_pool V,
      ll_list_pool.emplaceSeqB (ll_list_pool.construct V c) vs = .ok t ∧
      ll_list_pool.listVals t = vs.map some ∧ t.size = c ∧
      ll_list_pool.emplace_back t w = .error .PoolExhausted ∧
      ll_list_pool.emplace_front t w = .error .PoolExhausted := by
  have hrep := ll_list_pool.construct_rep V c
  have hk : vs.length ≤ ((List.range c).reverse).length := by
    rw [List.length_reverse, List.length_range, hlen]
  rcases ll_list_pool.emplaceSeqB_spec (ll_list_pool.construct V c) vs hrep hk with
    ⟨t, ys, hok, hrept, hylen, hmap, hsl, hsz⟩
  have hdrop : ((List.range c).reverse).drop vs.length = [] := by
    have he : vs.length = ((List.range c).reverse).length := by
      rw [List.length_reverse, List.length_range, hlen]
    rw [he, List.drop_length]
  rw [hdrop] at hrept
  have hrept2 : ll_list_pool.Rep t ys [] := by simpa using hrept
  refine ⟨t, hok, ?_, ?_, (ll_list_pool.emplace_exhausted t w hrept2).1,
    (ll_list_pool.emplace_exhausted t w hrept2).2⟩
  · rw [ll_list_pool.listVals_spec t hrept2]
    simpa using hmap
  · rw [hsz, hlen]
    simp

/-- Witness for C2 at capacity 2 with values 4, 7 and a third value 9. -/
theorem C2_witness :
    ∃ t : ll_list_pool Nat,
      ll_list_pool.emplaceSeqB (ll_list_pool.construct Nat 2) [4, 7] = .ok t ∧
      ll_list_pool.listVals t = [4, 7].map some ∧ t.size = 2 ∧
      ll_list_pool.emplace_back t 9 = .error .PoolExhausted ∧
      ll_list_pool.emplace_front t 9 = .error .PoolExhausted :=
  C2_capacity_exhaustion Nat 2 [4, 7] 9 rfl

/-- C5: clearing a pool list holding the elements `xs` (free chain `fs`)
destroys every contained value, leaves the list empty with the sentinel
self-linked, and puts every node on the free chain: the free chain grows
back to exactly the slab capacity with no slot missing or repeated. -/
theorem C5_clear_restores (V : Type) (s : ll_list_pool V) (xs fs : List Nat)
    (h : ll_list_pool.Rep s xs fs) :
    ll_list_pool.Rep (ll_list_pool.clear s) [] (xs.reverse ++ fs) ∧
      (∀ i ∈ xs ++ fs, ll_list_pool.val (ll_list_pool.clear s) (.slot i) = none) ∧
      (xs.reverse ++ fs).length = s.slab.length ∧
      (xs.reverse ++ fs).Nodup ∧
      (ll_list_pool.clear s).size = 0 ∧
      ll_list_pool.prv (ll_list_pool.clear s) .sent = .sent ∧
      ll_list_pool.nxt (ll_list_pool.clear s) .sent = .sent := by
  have hc := ll_list_pool.clear_spec s h
  refine ⟨hc.1, hc.2.1, ?_, ?_, hc.2.2.1, hc.2.2.2.1, hc.2.2.2.2.1⟩
  · have h1 := hc.1.perm.length_eq
    simp only [List.nil_append] at h1
    rw [h1, List.length_range, hc.2.2.2.2.2]
  · have h2 := hc.1.nodupAll
    simpa using h2

/-- The pool state of the C5 witness: capacity 3, two values emplaced. -/
def c5state : ll_list_pool Nat :=
  ll_list_pool.getOk
    (ll_list_pool.emplaceSeqB (ll_list_pool.construct Nat 3) [10, 20])
    (ll_list_pool.construct Nat 0)

/-- Witness for C5 at the concrete two-element state of capacity 3. -/
theorem C5_witness :
    ll_list_pool.Rep (ll_list_pool.clear c5state) [] ([2, 1].reverse ++ [0]) ∧
      (∀ i ∈ [2, 1] ++ [0],
        ll_list_pool.val (ll_list_pool.clear c5state) (.slot i) = none) ∧
      ([2, 1].reverse ++ [0]).length = c5state.slab.length ∧
      ([2, 1].reverse ++ [0]).Nodup ∧
      (ll_list_pool.clear c5state).size = 0 ∧
      ll_list_pool.prv (ll_list_pool.clear c5state) .sent = .sent ∧
      ll_list_pool.nxt (ll_list_pool.clear c5state) .sent = .sent :=
  C5_clear_restores Nat c5state [2, 1] [0]
    ⟨by decide, by decide, by decide, by decide, by decide, by decide⟩

/-- C8: removing a linked in-range hook nulls exactly the hook's two link
fields — `is_linked()` then reports false — and leaves every payload byte
of every host object unchanged; and `is_linked()` reports true precisely
when both link fields are non-null. -/
theorem C8_remove_hook_frame (P : Type) (s : intrusive_list P) (i : Nat)
    (hl : i < s.heap.length) (hL : intrusive_list.is_linked s (.slot i) = true) :
    intrusive_list.is_linked (intrusive_list.remove s (.slot i)) (.slot i) = false ∧
      intrusive_list.prv (intrusive_list.remove s (.slot i)) (.slot i) = .null ∧
      intrusive_list.nxt (intrusive_list.remove s (.slot i)) (.slot i) = .null ∧
      (∀ j, intrusive_list.payload (intrusive_list.remove s (.slot i)) j =
        intrusive_list.payload s j) ∧
      (∀ q : Ptr, intrusive_list.is_linked s q = true ↔
        (intrusive_list.prv s q ≠ .null ∧ intrusive_list.nxt s q ≠ .null)) := by
  have ho := intrusive_list.unlink_own_fields s hl hL
  refine ⟨?_, ho.1, ho.2, ?_, ?_⟩
  · rw [intrusive_list.remove, intrusive_list.is_linked, ho.1]
    simp
  · intro j
    rw [intrusive_list.remove, intrusive_list.unlink_payload]
  · intro q
    exact intrusive_list.is_linked_iff

/-- The intrusive state of the C8 witness: two hosts, both hooks linked. -/
def c8state : intrusive_list Nat :=
  intrusive_list.push_back
    (intrusive_list.push_back (intrusive_list.construct [5, 6]) (.slot 0)) (.slot 1)

/-- Witness for C8 at the concrete two-element intrusive list. -/
theorem C8_witness :
    intrusive_list.is_linked (intrusive_list.remove c8state (.slot 0)) (.slot 0)
        = false ∧
      intrusive_list.prv (intrusive_list.remove c8state (.slot 0)) (.slot 0) = .null ∧
      intrusive_list.nxt (intrusive_list.remove c8state (.slot 0)) (.slot 0) = .null ∧
      (∀ j, intrusive_list.payload (intrusive_list.remove c8state (.slot 0)) j =
        intrusive_list.payload c8state j) ∧
      (∀ q : Ptr, intrusive_list.is_linked c8state q = true ↔
        (intrusive_list.prv c8state q ≠ .null ∧
          intrusive_list.nxt c8state q ≠ .null)) :=
  C8_remove_hook_frame Nat c8state 0 (by decide) (by decide)

/-- C10: splicing an unlinked hook (both link fields null) before a valid
position `pos` of the list is well defined even though the hook is in no
list: the unlink guard skips the detach, the hook lands immediately
before `pos`, `is_linked()` then reports true, and the relative order of
all other elements (`m1 ++ m2`) is unchanged. -/
theorem C10_splice_unlinked_inserts (P : Type) (s : intrusive_list P)
    (xs m1 m2 : List Nat) (x : Nat) (pos : Ptr)
    (h : intrusive_list.RepH s xs) (hx : x ∉ xs) (hl : x < s.heap.length)
    (hprv : intrusive_list.prv s (.slot x) = .null)
    (hnxt : intrusive_list.nxt s (.slot x) = .null)
    (hm : xs = m1 ++ m2) (hpos : pos = firstD (m2.map Ptr.slot) .sent) :
    Ptr.slot x ≠ pos ∧
      intrusive_list.RepH (intrusive_list.splice s pos (.slot x)) (m1 ++ x :: m2) ∧
      intrusive_list.is_linked (intrusive_list.splice s pos (.slot x)) (.slot x)
        = true ∧
      intrusive_list.nxt (intrusive_list.splice s pos (.slot x)) (.slot x) = pos ∧
      intrusive_list.prv (intrusive_list.splice s pos (.slot x)) pos = .slot x ∧
      (∀ j, intrusive_list.payload (intrusive_list.splice s pos (.slot x)) j =
        intrusive_list.payload s j) := by
  obtain ⟨h1, h2, h3, h4, _, h6, _⟩ :=
    intrusive_list.splice_unlinked_spec s h hx hl hm hpos
  refine ⟨?_, h1, h2, h3, h4, h6⟩
  rw [hpos]
  intro hc
  have hmem : firstD (m2.map Ptr.slot) .sent ∈ Ptr.sent :: m2.map Ptr.slot :=
    firstD_mem_cons _ _
  rw [← hc] at hmem
  rcases List.mem_cons.mp hmem with hc2 | hc2
  · exact Ptr.noConfusion hc2
  · rcases List.mem_map.mp hc2 with ⟨j, hj, hje⟩
    refine hx ?_
    rw [hm]
    exact List.mem_append.mpr (Or.inr (ll_list_pool.slot_injective hje ▸ hj))

/-- The intrusive state of the C10 witness: three hosts, hooks 0 and 1
linked, hook 2 unlinked. -/
def c10state : intrusive_list Nat :=
  intrusive_list.push_back
    (intrusive_list.push_back (intrusive_list.construct [7, 8, 9]) (.slot 0)) (.slot 1)

/-- Witness for C10: inserting the unlinked hook 2 before element 1. -/
theorem C10_witness :
    Ptr.slot 2 ≠ Ptr.slot 1 ∧
      intrusive_list.RepH (intrusive_list.splice c10state (.slot 1) (.slot 2))
        ([0] ++ 2 :: [1]) ∧
      intrusive_list.is_linked (intrusive_list.splice c10state (.slot 1) (.slot 2))
        (.slot 2) = true ∧
      intrusive_list.nxt (intrusive_list.splice c10state (.slot 1) (.slot 2))
        (.slot 2) = .slot 1 ∧
      intrusive_list.prv (intrusive_list.splice c10state (.slot 1) (.slot 2))
        (.slot 1) = .slot 2 ∧
      (∀ j, intrusive_list.payload (intrusive_list.splice c10state (.slot 1) (.slot 2)) j =
        intrusive_list.payload c10state j) := by
  have h0 := intrusive_list.construct_repH ([7, 8, 9] : List Nat)
  have h1 : intrusive_list.RepH
      (intrusive_list.push_back (intrusive_list.construct ([7, 8, 9] : List Nat))
        (.slot 0)) ([] ++ [0]) :=
    (intrusive_list.push_back_spec _ h0 (by decide) (by decide)).1
  have h2 : intrusive_list.RepH c10state (([] ++ [0]) ++ [1]) :=
    (intrusive_list.push_back_spec _ h1 (by decide) (by decide)).1
  exact C10_splice_unlinked_inserts Nat c10state [0, 1] [0] [1] 2 (.slot 1) h2
    (by decide) (by decide) (by decide) (by decide) rfl rfl

/-- C3: in every reachable state of either variant, following `next` from
the sentinel first returns to the sentinel after exactly size + 1 steps
(never earlier), and likewise following `prev`; for the intrusive list
(which stores no size) the exact lap length is one more than the number
of linked elements. -/
theorem C3_sentinel_lap :
    (∀ (V : Type) (s : ll_list_pool V), ll_list_pool.ReachableP s →
      iterF (ll_list_pool.nxt s) .sent (s.size + 1) = .sent ∧
      (∀ k, 0 < k → k ≤ s.size → iterF (ll_list_pool.nxt s) .sent k ≠ .sent) ∧
      iterF (ll_list_pool.prv s) .sent (s.size + 1) = .sent ∧
      (∀ k, 0 < k → k ≤ s.size → iterF (ll_list_pool.prv s) .sent k ≠ .sent)) ∧
    (∀ (P : Type) (s : intrusive_list P), intrusive_list.ReachableH s →
      ∃ m : Nat,
        iterF (intrusive_list.nxt s) .sent (m + 1) = .sent ∧
        (∀ k, 0 < k → k ≤ m → iterF (intrusive_list.nxt s) .sent k ≠ .sent) ∧
        iterF (intrusive_list.prv s) .sent (m + 1) = .sent ∧
        (∀ k, 0 < k → k ≤ m → iterF (intrusive_list.prv s) .sent k ≠ .sent)) := by
  constructor
  · intro V s hr
    rcases ll_list_pool.reachableP_rep hr with ⟨xs, fs, hrep⟩
    have hf := lap_exact hrep.chain
    have hb := lap_exact_rev hrep.chain
    rw [hrep.sizeEq]
    exact ⟨hf.1, hf.2, hb.1, hb.2⟩
  · intro P s hr
    rcases intrusive_list.reachableH_rep hr with ⟨xs, hrep⟩
    have hf := lap_exact hrep.chain
    have hb := lap_exact_rev hrep.chain
    exact ⟨xs.length, hf.1, hf.2, hb.1, hb.2⟩

/-- Witness for C3 at two freshly constructed lists. -/
theorem C3_witness :
    (iterF (ll_list_pool.nxt (ll_list_pool.construct Nat 2)) .sent
        ((ll_list_pool.construct Nat 2).size + 1) = .sent ∧
      (∀ k, 0 < k → k ≤ (ll_list_pool.construct Nat 2).size →
        iterF (ll_list_pool.nxt (ll_list_pool.construct Nat 2)) .sent k ≠ .sent) ∧
      iterF (ll_list_pool.prv (ll_list_pool.construct Nat 2)) .sent
        ((ll_list_pool.construct Nat 2).size + 1) = .sent ∧
      (∀ k, 0 < k → k ≤ (ll_list_pool.construct Nat 2).size →
        iterF (ll_list_pool.prv (ll_list_pool.construct Nat 2)) .sent k ≠ .sent)) ∧
    (∃ m : Nat,
      iterF (intrusive_list.nxt (intrusive_list.construct ([true] : List Bool)))
          .sent (m + 1) = .sent ∧
      (∀ k, 0 < k → k ≤ m →
        iterF (intrusive_list.nxt (intrusive_list.construct ([true] : List Bool)))
          .sent k ≠ .sent) ∧
      iterF (intrusive_list.prv (intrusive_list.construct ([true] : List Bool)))
          .sent (m + 1) = .sent ∧
      (∀ k, 0 < k → k ≤ m →
        iterF (intrusive_list.prv (intrusive_list.construct ([true] : List Bool)))
          .sent k ≠ .sent)) :=
  ⟨C3_sentinel_lap.1 Nat (ll_list_pool.construct Nat 2)
      (ll_list_pool.ReachableP.init 2),
    C3_sentinel_lap.2 Bool (intrusive_list.construct [true])
      (intrusive_list.ReachableH.init [true])⟩

/-- C4: the range splice of either variant relocates a linked range
`[first, last)` (elements `r0 :: rr`) before a destination outside it,
rewriting links only at the boundaries — the `else` branches of the read
maps show every interior link untouched, so the range keeps its internal
order — and `first == last` does nothing at all. -/
theorem C4_range_splice :
    (∀ (V : Type) (s : ll_list_pool V) (pos p : Ptr),
      ll_list_pool.spliceRange s pos p p = s) ∧
    (∀ (P : Type) (s : intrusive_list P) (pos p : Ptr),
      intrusive_list.spliceRange s pos p p = s) ∧
    (∀ (V : Type) (s : ll_list_pool V) (xs fs l1 rr l2 m1 m2 : List Nat) (r0 : Nat)
      (pos lst : Ptr),
      ll_list_pool.Rep s xs fs → xs = l1 ++ (r0 :: rr) ++ l2 →
      l1 ++ l2 = m1 ++ m2 →
      pos = firstD (m2.map Ptr.slot) .sent → lst = firstD (l2.map Ptr.slot) .sent →
      ll_list_pool.Rep (ll_list_pool.spliceRange s pos (.slot r0) lst)
          (m1 ++ (r0 :: rr) ++ m2) fs ∧
        (∀ q, ll_list_pool.val (ll_list_pool.spliceRange s pos (.slot r0) lst) q =
          ll_list_pool.val s q) ∧
        (∀ q, ll_list_pool.nxt (ll_list_pool.spliceRange s pos (.slot r0) lst) q =
          if q = lastD (rr.map Ptr.slot) (Ptr.slot r0) then pos
          else if q = lastD (m1.map Ptr.slot) .sent then .slot r0
          else if q = lastD (l1.map Ptr.slot) .sent then lst
          else ll_list_pool.nxt s q) ∧
        (∀ q, ll_list_pool.prv (ll_list_pool.spliceRange s pos (.slot r0) lst) q =
          if q = pos then lastD (rr.map Ptr.slot) (Ptr.slot r0)
          else if q = .slot r0 then lastD (m1.map Ptr.slot) .sent
          else if q = lst then lastD (l1.map Ptr.slot) .sent
          else ll_list_pool.prv s q) ∧
        (ll_list_pool.spliceRange s pos (.slot r0) lst).size = s.size) ∧
    (∀ (P : Type) (s : intrusive_list P) (xs l1 rr l2 m1 m2 : List Nat) (r0 : Nat)
      (pos lst : Ptr),
      intrusive_list.RepH s xs → xs = l1 ++ (r0 :: rr) ++ l2 →
      l1 ++ l2 = m1 ++ m2 →
      pos = firstD (m2.map Ptr.slot) .sent → lst = firstD (l2.map Ptr.slot) .sent →
      intrusive_list.RepH (intrusive_list.spliceRange s pos (.slot r0) lst)
          (m1 ++ (r0 :: rr) ++ m2) ∧
        (∀ j, intrusive_list.payload (intrusive_list.spliceRange s pos (.slot r0) lst) j
          = intrusive_list.payload s j) ∧
        (∀ q, intrusive_list.nxt (intrusive_list.spliceRange s pos (.slot r0) lst) q =
          if q = lastD (rr.map Ptr.slot) (Ptr.slot r0) then pos
          else if q = lastD (m1.map Ptr.slot) .sent then .slot r0
          else if q = lastD (l1.map Ptr.slot) .sent then lst
          else intrusive_list.nxt s q) ∧
        (∀ q, intrusive_list.prv (intrusive_list.spliceRange s pos (.slot r0) lst) q =
          if q = pos then lastD (rr.map Ptr.slot) (Ptr.slot r0)
          else if q = .slot r0 then lastD (m1.map Ptr.slot) .sent
          else if q = lst then lastD (l1.map Ptr.slot) .sent
          else intrusive_list.prv s q)) := by
  refine ⟨?_, ?_, ?_, ?_⟩
  · intro V s pos p
    rw [ll_list_pool.spliceRange, if_pos rfl]
  · intro P s pos p
    rw [intrusive_list.spliceRange, if_pos rfl]
  · intro V s xs fs l1 rr l2 m1 m2 r0 pos lst h hxs hm hpos hlst
    have hsp := ll_list_pool.spliceRange_spec s h hxs hm hpos hlst
    exact ⟨hsp.1, hsp.2.1, hsp.2.2.1, hsp.2.2.2.1, hsp.2.2.2.2.1⟩
  · intro P s xs l1 rr l2 m1 m2 r0 pos lst h hxs hm hpos hlst
    have hsp := intrusive_list.spliceRange_specH s h hxs hm hpos hlst
    exact ⟨hsp.1, hsp.2.1, hsp.2.2.1, hsp.2.2.2.1⟩

/-- The pool state of the C4 witness: capacity 3 holding three values. -/
def c4pool : ll_list_pool Nat :=
  ll_list_pool.getOk
    (ll_list_pool.emplaceSeqB (ll_list_pool.construct Nat 3) [10, 20, 30])
    (ll_list_pool.construct Nat 0)

/-- The intrusive state of the C4 witness: three hosts, hooks 0 and 1
linked. -/
def c4hook : intrusive_list Nat :=
  intrusive_list.push_back
    (intrusive_list.push_back (intrusive_list.construct [7, 8, 9]) (.slot 0)) (.slot 1)

/-- Witness for C4: both no-ops and both range moves at concrete states
(the singleton range `[first, last)` at the front moved to the back). -/
theorem C4_witness :
    ll_list_pool.spliceRange (ll_list_pool.construct Nat 1) .sent .sent .sent =
        ll_list_pool.construct Nat 1 ∧
      intrusive_list.spliceRange (intrusive_list.construct ([true] : List Bool))
          .sent .sent .sent = intrusive_list.construct [true] ∧
      ll_list_pool.Rep (ll_list_pool.spliceRange c4pool .sent (.slot 2) (.slot 1))
        ([1, 0] ++ (2 :: []) ++ []) [] ∧
      intrusive_list.RepH (intrusive_list.spliceRange c4hook .sent (.slot 0) (.slot 1))
        ([1] ++ (0 :: []) ++ []) := by
  have h0 := intrusive_list.construct_repH ([7, 8, 9] : List Nat)
  have h1 : intrusive_list.RepH
      (intrusive_list.push_back (intrusive_list.construct ([7, 8, 9] : List Nat))
        (.slot 0)) ([] ++ [0]) :=
    (intrusive_list.push_back_spec _ h0 (by decide) (by decide)).1
  have h2 : intrusive_list.RepH c4hook (([] ++ [0]) ++ [1]) :=
    (intrusive_list.push_back_spec _ h1 (by decide) (by decide)).1
  refine ⟨C4_range_splice.1 Nat (ll_list_pool.construct Nat 1) .sent .sent,
    C4_range_splice.2.1 Bool (intrusive_list.construct [true]) .sent .sent, ?_, ?_⟩
  · exact (C4_range_splice.2.2.1 Nat c4pool [2, 1, 0] [] [] [] [1, 0] [1, 0] [] 2
      .sent (.slot 1)
      ⟨by decide, by decide, by decide, by decide, by decide, by decide⟩
      rfl rfl rfl rfl).1
  · exact (C4_range_splice.2.2.2 Nat c4hook [0, 1] [] [] [1] [1] [] 0
      .sent (.slot 1) h2 rfl rfl rfl rfl).1

/-- The pool state of the C1 counterexample: capacity 3, two values
emplaced (the list is [slot 2, slot 1]). -/
def c1state : ll_list_pool Nat :=
  ll_list_pool.getOk
    (ll_list_pool.emplaceSeqB (ll_list_pool.construct Nat 3) [10, 20])
    (ll_list_pool.construct Nat 0)

/-- C1 fails as stated when the destination is the moved node's own
successor: here X = slot 2 is linked between the distinct neighbours
A = sentinel and B = slot 1, the destination is P = slot 1 whose
predecessor is C = P.prev = X, and after `splice(P, X)` (which leaves the
list [X, B] unchanged) A.next is X rather than B and X.prev is the
sentinel rather than C. -/
theorem C1_counterexample :
    ll_list_pool.nxt c1state .sent = .slot 2 ∧
      ll_list_pool.nxt c1state (.slot 2) = .slot 1 ∧
      ll_list_pool.prv c1state (.slot 2) = .sent ∧
      ll_list_pool.prv c1state (.slot 1) = .slot 2 ∧
      Ptr.sent ≠ Ptr.slot 1 ∧
      ll_list_pool.nxt (ll_list_pool.splice c1state (.slot 1) (.slot 2)) .sent ≠
        .slot 1 ∧
      ll_list_pool.prv (ll_list_pool.splice c1state (.slot 1) (.slot 2)) (.slot 2) ≠
        ll_list_pool.prv c1state (.slot 1) := by
  refine ⟨?_, ?_, ?_, ?_, ?_, ?_, ?_⟩ <;> decide

/-- C1 (amended): the splice postconditions hold for both variants under
the proviso that the destination `pos` is neither the moved node X itself
nor X's immediate successor (equivalently, the destination's old
predecessor C is not X).  Then, writing A and B for X's old neighbours
(the seam of `u` and `v`) and C for `pos->prev` before the call,
`splice(pos, X)` gives A.next = B, X.prev = C, X.next = pos,
pos.prev = X, the element order becomes `m1 ++ x :: m2` (every pair of
nodes other than X keeps its relative order, `u ++ v = m1 ++ m2`), and no
value or payload moves. -/
theorem C1_splice_corrected :
    (∀ (V : Type) (s : ll_list_pool V) (xs fs u v m1 m2 : List Nat) (x : Nat)
      (pos : Ptr),
      ll_list_pool.Rep s xs fs → xs = u ++ x :: v → u ++ v = m1 ++ m2 →
      pos = firstD (m2.map Ptr.slot) .sent →
      pos ≠ .slot x → ll_list_pool.prv s pos ≠ .slot x →
      ll_list_pool.nxt (ll_list_pool.splice s pos (.slot x))
          (lastD (u.map Ptr.slot) .sent) = firstD (v.map Ptr.slot) .sent ∧
        ll_list_pool.prv (ll_list_pool.splice s pos (.slot x)) (.slot x) =
          ll_list_pool.prv s pos ∧
        ll_list_pool.nxt (ll_list_pool.splice s pos (.slot x)) (.slot x) = pos ∧
        ll_list_pool.prv (ll_list_pool.splice s pos (.slot x)) pos = .slot x ∧
        ll_list_pool.Rep (ll_list_pool.splice s pos (.slot x)) (m1 ++ x :: m2) fs ∧
        (∀ r, ll_list_pool.val (ll_list_pool.splice s pos (.slot x)) r =
          ll_list_pool.val s r)) ∧
    (∀ (P : Type) (s : intrusive_list P) (xs u v m1 m2 : List Nat) (x : Nat)
      (pos : Ptr),
      intrusive_list.RepH s xs → xs = u ++ x :: v → u ++ v = m1 ++ m2 →
      pos = firstD (m2.map Ptr.slot) .sent →
      pos ≠ .slot x → intrusive_list.prv s pos ≠ .slot x →
      intrusive_list.nxt (intrusive_list.splice s pos (.slot x))
          (lastD (u.map Ptr.slot) .sent) = firstD (v.map Ptr.slot) .sent ∧
        intrusive_list.prv (intrusive_list.splice s pos (.slot x)) (.slot x) =
          intrusive_list.prv s pos ∧
        intrusive_list.nxt (intrusive_list.splice s pos (.slot x)) (.slot x) = pos ∧
        intrusive_list.prv (intrusive_list.splice s pos (.slot x)) pos = .slot x ∧
        intrusive_list.RepH (intrusive_list.splice s pos (.slot x))
          (m1 ++ x :: m2) ∧
        (∀ j, intrusive_list.payload (intrusive_list.splice s pos (.slot x)) j =
          intrusive_list.payload s j)) := by
  constructor
  · intro V s xs fs u v m1 m2 x pos h hxs hm hpos hPx hCx
    have hC := ll_list_pool.old_prv_pos s h hxs hm hpos hCx
    obtain ⟨hrep, hval, hnmap, hpmap, _, _⟩ := ll_list_pool.splice_spec s h hxs hm hpos
    have hchain : cycleB (ll_list_pool.nxt s) (ll_list_pool.prv s)
        (u.map Ptr.slot ++ Ptr.slot x :: v.map Ptr.slot) = true := by
      have hc := h.chain
      rw [hxs, List.map_append, List.map_cons] at hc
      exact hc
    have hAx : ll_list_pool.nxt s (lastD (u.map Ptr.slot) .sent) = .slot x := by
      have hs := (@cycle_seam _ _ (u.map Ptr.slot) (Ptr.slot x :: v.map Ptr.slot)
        hchain).1
      simpa using hs
    have hposmem : pos ∈ Ptr.sent :: xs.map Ptr.slot := by
      rw [hpos]
      rcases List.mem_cons.mp (firstD_mem_cons (m2.map Ptr.slot) .sent) with hq | hq
      · rw [hq]; exact List.mem_cons_self _ _
      · refine List.mem_cons_of_mem _ ?_
        have h1 : firstD (m2.map Ptr.slot) .sent ∈ (m1 ++ m2).map Ptr.slot := by
          rw [List.map_append]
          exact List.mem_append.mpr (Or.inr hq)
        rw [← hm, List.map_append] at h1
        rcases List.mem_append.mp h1 with h2 | h2
        · rw [hxs, List.map_append]
          exact List.mem_append.mpr (Or.inl h2)
        · rw [hxs, List.map_append, List.map_cons]
          exact List.mem_append.mpr (Or.inr (List.mem_cons_of_mem _ h2))
    have hCpos : ll_list_pool.nxt s (ll_list_pool.prv s pos) = pos :=
      cycle_nxt_prv h.chain pos hposmem
    have hAC : lastD (u.map Ptr.slot) .sent ≠ lastD (m1.map Ptr.slot) .sent := by
      intro heq
      apply hPx
      rw [← hCpos, hC, ← heq, hAx]
    have hxsnd : xs.Nodup := (List.nodup_append.mp h.nodupAll).1
    have hxu : x ∉ u := by
      rw [hxs] at hxsnd
      exact fun hcm => (List.nodup_append.mp hxsnd).2.2 hcm (List.mem_cons_self x v)
    have hAslot : lastD (u.map Ptr.slot) .sent ≠ Ptr.slot x := by
      intro hc
      rcases List.mem_cons.mp (lastD_mem_cons (u.map Ptr.slot) .sent) with hq | hq
      · rw [hc] at hq; exact Ptr.noConfusion hq
      · rw [hc] at hq
        rcases List.mem_map.mp hq with ⟨j, hj, hje⟩
        exact hxu (ll_list_pool.slot_injective hje ▸ hj)
    refine ⟨?_, ?_, ?_, ?_, hrep, hval⟩
    · rw [hnmap, if_neg hAC, if_neg hAslot, if_pos rfl]
    · rw [hpmap, if_neg (fun hc => hPx hc.symm), if_pos rfl]
      exact hC.symm
    · rw [hnmap, if_neg (fun hc => hCx (hC.trans hc.symm)), if_pos rfl]
    · rw [hpmap, if_pos rfl]
  · intro P s xs u v m1 m2 x pos h hxs hm hpos hPx hCx
    have hC := intrusive_list.old_prv_posH s h hxs hm hpos hCx
    obtain ⟨hrep, hpay, hnmap, hpmap, _, _⟩ :=
      intrusive_list.splice_specH s h hxs hm hpos
    have hchain : cycleB (intrusive_list.nxt s) (intrusive_list.prv s)
        (u.map Ptr.slot ++ Ptr.slot x :: v.map Ptr.slot) = true := by
      have hc := h.chain
      rw [hxs, List.map_append, List.map_cons] at hc
      exact hc
    have hAx : intrusive_list.nxt s (lastD (u.map Ptr.slot) .sent) = .slot x := by
      have hs := (@cycle_seam _ _ (u.map Ptr.slot) (Ptr.slot x :: v.map Ptr.slot)
        hchain).1
      simpa using hs
    have hposmem : pos ∈ Ptr.sent :: xs.map Ptr.slot := by
      rw [hpos]
      rcases List.mem_cons.mp (firstD_mem_cons (m2.map Ptr.slot) .sent) with hq | hq
      · rw [hq]; exact List.mem_cons_self _ _
      · refine List.mem_cons_of_mem _ ?_
        have h1 : firstD (m2.map Ptr.slot) .sent ∈ (m1 ++ m2).map Ptr.slot := by
          rw [List.map_append]
          exact List.mem_append.mpr (Or.inr hq)
        rw [← hm, List.map_append] at h1
        rcases List.mem_append.mp h1 with h2 | h2
        · rw [hxs, List.map_append]
          exact List.mem_append.mpr (Or.inl h2)
        · rw [hxs, List.map_append, List.map_cons]
          exact List.mem_append.mpr (Or.inr (List.mem_cons_of_mem _ h2))
    have hCpos : intrusive_list.nxt s (intrusive_list.prv s pos) = pos :=
      cycle_nxt_prv h.chain pos hposmem
    have hAC : lastD (u.map Ptr.slot) .sent ≠ lastD (m1.map Ptr.slot) .sent := by
      intro heq
      apply hPx
      rw [← hCpos, hC, ← heq, hAx]
    have hxsnd : xs.Nodup := h.nodup
    have hxu : x ∉ u := by
      rw [hxs] at hxsnd
      exact fun hcm => (List.nodup_append.mp hxsnd).2.2 hcm (List.mem_cons_self x v)
    have hAslot : lastD (u.map Ptr.slot) .sent ≠ Ptr.slot x := by
      intro hc
      rcases List.mem_cons.mp (lastD_mem_cons (u.map Ptr.slot) .sent) with hq | hq
      · rw [hc] at hq; exact Ptr.noConfusion hq
      · rw [hc] at hq
        rcases List.mem_map.mp hq with ⟨j, hj, hje⟩
        exact hxu (ll_list_pool.slot_injective hje ▸ hj)
    refine ⟨?_, ?_, ?_, ?_, hrep, hpay⟩
    · rw [hnmap, if_neg hAC, if_neg hAslot, if_pos rfl]
    · rw [hpmap, if_neg (fun hc => hPx hc.symm), if_pos rfl]
      exact hC.symm
    · rw [hnmap, if_neg (fun hc => hCx (hC.trans hc.symm)), if_pos rfl]
    · rw [hpmap, if_pos rfl]

/-- Witness for C1 (amended) at two concrete states: in the pool list
[2, 1, 0] the node slot 0 moves before slot 2, in the intrusive list
[0, 1] the hook 1 moves before hook 0. -/
theorem C1_witness :
    (ll_list_pool.nxt (ll_list_pool.splice c4pool (.slot 2) (.slot 0))
        (lastD ([2, 1].map Ptr.slot) .sent) = firstD ([].map Ptr.slot) .sent ∧
      ll_list_pool.prv (ll_list_pool.splice c4pool (.slot 2) (.slot 0)) (.slot 0) =
        ll_list_pool.prv c4pool (.slot 2) ∧
      ll_list_pool.nxt (ll_list_pool.splice c4pool (.slot 2) (.slot 0)) (.slot 0) =
        .slot 2 ∧
      ll_list_pool.prv (ll_list_pool.splice c4pool (.slot 2) (.slot 0)) (.slot 2) =
        .slot 0) ∧
    (intrusive_list.nxt (intrusive_list.splice c4hook (.slot 0) (.slot 1))
        (lastD ([0].map Ptr.slot) .sent) = firstD ([].map Ptr.slot) .sent ∧
      intrusive_list.prv (intrusive_list.splice c4hook (.slot 0) (.slot 1)) (.slot 1) =
        intrusive_list.prv c4hook (.slot 0) ∧
      intrusive_list.nxt (intrusive_list.splice c4hook (.slot 0) (.slot 1)) (.slot 1) =
        .slot 0 ∧
      intrusive_list.prv (intrusive_list.splice c4hook (.slot 0) (.slot 1)) (.slot 0) =
        .slot 1) := by
  have h0 := intrusive_list.construct_repH ([7, 8, 9] : List Nat)
  have h1 : intrusive_list.RepH
      (intrusive_list.push_back (intrusive_list.construct ([7, 8, 9] : List Nat))
        (.slot 0)) ([] ++ [0]) :=
    (intrusive_list.push_back_spec _ h0 (by decide) (by decide)).1
  have h2 : intrusive_list.RepH c4hook (([] ++ [0]) ++ [1]) :=
    (intrusive_list.push_back_spec _ h1 (by decide) (by decide)).1
  have hp := C1_splice_corrected.1 Nat c4pool [2, 1, 0] [] [2, 1] [] [] [2, 1] 0
    (.slot 2)
    ⟨by decide, by decide, by decide, by decide, by decide, by decide⟩
    rfl rfl rfl (by decide) (by decide)
  have hi := C1_splice_corrected.2 Nat c4hook [0, 1] [0] [] [] [0] 1 (.slot 0)
    h2 rfl rfl rfl (by decide) (by decide)
  exact ⟨⟨hp.1, hp.2.1, hp.2.2.1, hp.2.2.2.1⟩, ⟨hi.1, hi.2.1, hi.2.2.1, hi.2.2.2.1⟩⟩

end LL
